import Mathlib

/-!
# The calculator of `src/script.js`

A shallow embedding of the expression buffer controller of `script.js` and
of the host facilities it calls, followed by the theorems that settle the
claims of the specification.

A JavaScript string is a sequence of UTF-16 code units.  It is modelled as a
`List Char`, one `Char` per code unit (characters inside the Basic
Multilingual Plane), so `length`, `slice` and the regular expressions of the
source act on list elements.
-/

namespace Calc

/-! ## State -/

/-- The two mutable cells of the closure, `expression` and
`displayEl.textContent`, and a ghost counter `evals` of the calls made to the
host evaluator `Function(...)()`. -/
structure State where
  expression : List Char
  display : List Char
  evals : Nat
deriving DecidableEq, Repr

/-- Source: `const maxLength = 30`. -/
def maxLength : Nat := 30

/-- Source: `updateDisplay`:
`displayEl.textContent = expression === '' ? '0' : expression`. -/
def updateDisplay (s : State) : State :=
  { s with display := if s.expression = [] then ['0'] else s.expression }

/-- The class `\d` of a regular expression without the `u` flag: `[0-9]`. -/
def isDigit (c : Char) : Bool := decide ('0' ≤ c ∧ c ≤ '9')

/-- Source: `/\d/.test(value)`: some code unit of `value` is a digit. -/
def hasDigit (value : List Char) : Bool := value.any isDigit

/-- Source: `append(value)`. -/
def append (value : List Char) (s : State) : State :=
  if s.expression.length ≥ maxLength then s
  else if s.expression = ['0'] ∧ value = ['0'] then s
  else if s.expression = ['0'] ∧ hasDigit value = true then
    updateDisplay { s with expression := value }
  else
    updateDisplay { s with expression := s.expression ++ value }

/-- Source: `clearAll()`. -/
def clearAll (s : State) : State :=
  updateDisplay { s with expression := [] }

/-- Source: `expression.slice(0, -1)`: all code units but the last. -/
def sliceInit (e : List Char) : List Char := e.dropLast

/-- Source: `del()`. -/
def del (s : State) : State :=
  updateDisplay { s with expression := sliceInit s.expression }

/-- The state after the initialisation at the end of the script
(`clearAll()` on the empty buffer). -/
def init : State := clearAll { expression := [], display := [], evals := 0 }

/-! ## Numbers: IEEE 754 binary64 by value -/

/-- A JavaScript Number: an IEEE 754 binary64 value, finite values given by
the rational they denote (`fin 0` is `+0`, `negZero` is `-0`).  The
arithmetic below computes the exact rational result and rounds it to the
nearest binary64 value, ties to even. -/
inductive Num
  | nan
  | inf (neg : Bool)
  | negZero
  | fin (q : ℚ)
deriving DecidableEq

/-- The power `2 ^ s` for an integer exponent. -/
def pow2 (s : Int) : ℚ :=
  if 0 ≤ s then ((2 ^ s.toNat : Nat) : ℚ) else 1 / ((2 ^ (-s).toNat : Nat) : ℚ)

/-- The power `10 ^ s` for an integer exponent. -/
def pow10 (s : Int) : ℚ :=
  if 0 ≤ s then ((10 ^ s.toNat : Nat) : ℚ) else 1 / ((10 ^ (-s).toNat : Nat) : ℚ)

/-- With fuel `f ≥ n`: the integer part of the binary logarithm of `n ≥ 1`. -/
def log2Nat : Nat → Nat → Nat
  | 0, _ => 0
  | f + 1, n => if n < 2 then 0 else log2Nat f (n / 2) + 1

/-- For `q > 0`: the integer `e` with `2 ^ e ≤ q < 2 ^ (e + 1)`. -/
def ilog2 (q : ℚ) : Int :=
  let e : Int := (log2Nat q.num.natAbs q.num.natAbs : Int) - (log2Nat q.den q.den : Int)
  if pow2 e ≤ q then e else e - 1

/-- The integer nearest to `t`, a tie going to the even one. -/
def roundHalfEven (t : ℚ) : Int :=
  let f := ⌊t⌋
  let r := t - f
  if r < 1 / 2 then f else if 1 / 2 < r then f + 1 else if f % 2 = 0 then f else f + 1

/-- For `q > 0`: the nearest multiple of the unit in the last place of `q`,
a binary64 value with a 53 bit significand and least exponent `-1074` (a
result of `2 ^ 1024` or more stands for overflow). -/
def roundMag (q : ℚ) : ℚ :=
  let s := max (ilog2 q - 52) (-1074)
  (roundHalfEven (q / pow2 s) : ℚ) * pow2 s

/-- The Number nearest to the rational `q`; `zneg` is the sign of the
result when `q` is zero. -/
def ofRat (q : ℚ) (zneg : Bool) : Num :=
  if q = 0 then (if zneg then Num.negZero else Num.fin 0)
  else
    let v := roundMag |q|
    if pow2 1024 ≤ v then Num.inf (decide (q < 0))
    else if v = 0 then (if q < 0 then Num.negZero else Num.fin 0)
    else Num.fin (if q < 0 then -v else v)

/-- With fuel `f ≥ n`: the integer part of the decimal logarithm of `n ≥ 1`. -/
def log10Nat : Nat → Nat → Nat
  | 0, _ => 0
  | f + 1, n => if n < 10 then 0 else log10Nat f (n / 10) + 1

/-- For `q > 0`: the integer `e` with `10 ^ e ≤ q < 10 ^ (e + 1)`. -/
def ilog10 (q : ℚ) : Int :=
  if 1 ≤ q then (log10Nat ⌊q⌋.toNat ⌊q⌋.toNat : Int)
  else
    let l : Int := (log10Nat ⌊1 / q⌋.toNat ⌊1 / q⌋.toNat : Int)
    if pow10 (-l) ≤ q then -l else -l - 1

/-- The decimal digit with value `d`. -/
def digitChar (d : Nat) : Char := Char.ofNat (48 + d)

/-- The digits of `n` before `acc`, with fuel. -/
def natDigitsAux : Nat → Nat → List Char → List Char
  | 0, _, acc => acc
  | f + 1, n, acc =>
    if n < 10 then digitChar n :: acc else natDigitsAux f (n / 10) (digitChar (n % 10) :: acc)

/-- The decimal representation of a natural number, without leading zeros. -/
def natDigits (n : Nat) : List Char := natDigitsAux (n + 1) n []

/-- Source: unary `-`. -/
def Num.neg : Num → Num
  | Num.nan => Num.nan
  | Num.inf b => Num.inf (!b)
  | Num.negZero => Num.fin 0
  | Num.fin q => if q = 0 then Num.negZero else Num.fin (-q)

/-- The real value of a finite number. -/
def Num.val : Num → ℚ
  | Num.fin q => q
  | _ => 0

/-- The sign bit. -/
def Num.isNeg : Num → Bool
  | Num.nan => false
  | Num.inf b => b
  | Num.negZero => true
  | Num.fin q => decide (q < 0)

/-- The value is `+0` or `-0`. -/
def Num.isZero : Num → Bool
  | Num.negZero => true
  | Num.fin q => decide (q = 0)
  | _ => false

/-- Source: `Number::add`. -/
def Num.add : Num → Num → Num
  | Num.nan, _ => Num.nan
  | _, Num.nan => Num.nan
  | Num.inf a, Num.inf b => if a = b then Num.inf a else Num.nan
  | Num.inf a, _ => Num.inf a
  | _, Num.inf b => Num.inf b
  | x, y => ofRat (x.val + y.val) (x.isNeg && y.isNeg)

/-- Source: `Number::subtract`. -/
def Num.sub (x y : Num) : Num := x.add y.neg

/-- Source: `Number::multiply`. -/
def Num.mul : Num → Num → Num
  | Num.nan, _ => Num.nan
  | _, Num.nan => Num.nan
  | Num.inf a, y => if y.isZero then Num.nan else Num.inf (xor a y.isNeg)
  | x, Num.inf b => if x.isZero then Num.nan else Num.inf (xor x.isNeg b)
  | x, y => ofRat (x.val * y.val) (xor x.isNeg y.isNeg)

/-- Source: `Number::divide`. -/
def Num.div : Num → Num → Num
  | Num.nan, _ => Num.nan
  | _, Num.nan => Num.nan
  | Num.inf _, Num.inf _ => Num.nan
  | Num.inf a, y => Num.inf (xor a y.isNeg)
  | x, Num.inf b => if xor x.isNeg b then Num.negZero else Num.fin 0
  | x, y =>
    if y.isZero then (if x.isZero then Num.nan else Num.inf (xor x.isNeg y.isNeg))
    else ofRat (x.val / y.val) (xor x.isNeg y.isNeg)

/-- The candidate with `k` digits for the shortest representation of `q`:
the `s` with `s * 10 ^ (n - k)` nearest to `q` among those that round to `q`. -/
def shortCand (q : ℚ) (n : Int) (k : Nat) : Option Nat :=
  let sc := pow10 (n - k)
  let f := ⌊q / sc⌋.toNat
  let okLo := decide (ofRat (f * sc) false = Num.fin q)
  let okHi := decide (ofRat ((f + 1 : Nat) * sc) false = Num.fin q)
  if okLo && okHi then
    (if q - f * sc < (f + 1 : Nat) * sc - q then some f
     else if (f + 1 : Nat) * sc - q < q - f * sc then some (f + 1)
     else if f % 2 = 0 then some f else some (f + 1))
  else if okLo then some f
  else if okHi then some (f + 1)
  else none

/-- The least number of digits `k` (from `k` on, with fuel) that has a
candidate, and the candidate. -/
def shortAux (q : ℚ) (n : Int) : Nat → Nat → Nat × Nat
  | 0, k => (⌊q / pow10 (n - k)⌋.toNat, k)
  | r + 1, k =>
    match shortCand q n k with
    | some s => (s, k)
    | none => shortAux q n r (k + 1)

/-- A run of `k` zeros. -/
def zeros (k : Nat) : List Char := List.replicate k '0'

/-- The exponent part `e+21`, `e-7` of a number in exponential form. -/
def expPart (e : Int) : List Char :=
  'e' :: (if 0 ≤ e then '+' else '-') :: natDigits e.natAbs

/-- Source: `Number::toString` of a positive finite value. -/
def posToString (q : ℚ) : List Char :=
  let n0 := ilog10 q + 1
  let (s, k) := shortAux q n0 20 1
  let n := if s = 10 ^ k then n0 + 1 else n0
  let ds := if s = 10 ^ k then ['1'] else natDigits s
  let k := ds.length
  if (k : Int) ≤ n ∧ n ≤ 21 then ds ++ zeros (n - k).toNat
  else if 0 < n ∧ n ≤ 21 then ds.take n.toNat ++ '.' :: ds.drop n.toNat
  else if -6 < n ∧ n ≤ 0 then '0' :: '.' :: zeros (-n).toNat ++ ds
  else if k = 1 then ds ++ expPart (n - 1)
  else ds.take 1 ++ '.' :: ds.drop 1 ++ expPart (n - 1)

/-- Source: `String(x)` for a number `x` (`Number::toString`, radix 10). -/
def Num.toString : Num → List Char
  | Num.nan => "NaN".toList
  | Num.inf false => "Infinity".toList
  | Num.inf true => "-Infinity".toList
  | Num.negZero => ['0']
  | Num.fin q =>
    if q = 0 then ['0']
    else if q < 0 then '-' :: posToString (-q)
    else posToString q

/-- Source: `x.toPrecision(p)` for a positive finite `x`: the `p` digits of
the decimal nearest to `x` (a tie going up), in fixed or exponential form. -/
def posToPrecision (p : Nat) (q : ℚ) : List Char :=
  let e0 := ilog10 q
  let t := q / pow10 (e0 - (p - 1 : Nat))
  let n0 := if t - ⌊t⌋ < 1 / 2 then ⌊t⌋.toNat else ⌊t⌋.toNat + 1
  let e := if n0 = 10 ^ p then e0 + 1 else e0
  let n := if n0 = 10 ^ p then 10 ^ (p - 1) else n0
  let m := natDigits n
  if e < -6 ∨ (p : Int) ≤ e then
    (if p = 1 then m else m.take 1 ++ '.' :: m.drop 1) ++ expPart e
  else if e = (p : Int) - 1 then m
  else if 0 ≤ e then m.take (e.toNat + 1) ++ '.' :: m.drop (e.toNat + 1)
  else '0' :: '.' :: zeros (-(e + 1)).toNat ++ m

/-- Source: `Number.prototype.toPrecision` with precision `p` (1 ≤ p ≤ 100). -/
def Num.toPrecision (p : Nat) : Num → List Char
  | Num.fin q =>
    if q = 0 then (if p = 1 then ['0'] else '0' :: '.' :: zeros (p - 1))
    else if q < 0 then '-' :: posToPrecision p (-q)
    else posToPrecision p q
  | Num.negZero => if p = 1 then ['0'] else '0' :: '.' :: zeros (p - 1)
  | x => x.toString

/-! ## The host evaluator: lexing and parsing

`calculate` hands the text `"use strict"; return (expr)` to the host's
`Function` constructor and calls the result.  `evalJS` below models this for
the fragment of strict-mode ECMAScript that the allow-list leaves and that
has an exact semantics: decimal literals, unary and binary `+ - * /`,
parentheses, calls (which throw, no value being callable) and white space.
It answers `none` when the text leaves that fragment before an error is
found: a line terminator (automatic semicolon insertion), a comment, a
regular expression literal, the operator `**` or a character outside the
allow-list. -/

/-- The value of a decimal digit. -/
def digitVal (c : Char) : Nat := c.toNat - 48

/-- The value of a run of decimal digits. -/
def digitsVal (ds : List Char) : Nat := ds.foldl (fun a c => 10 * a + digitVal c) 0

/-- The value of the decimal `ip.fp`. -/
def decimalVal (ip fp : List Char) : ℚ :=
  (digitsVal ip : ℚ) + (digitsVal fp : ℚ) / ((10 ^ fp.length : Nat) : ℚ)

/-- Line terminators of ECMAScript: LF, CR, LS (U+2028), PS (U+2029). -/
def isLineTerminator (c : Char) : Bool :=
  c.toNat = 0x0A || c.toNat = 0x0D || c.toNat = 0x2028 || c.toNat = 0x2029

/-- White space of ECMAScript source text: TAB, VT, FF, SP, NBSP, ZWNBSP
(U+FEFF) and the space separators U+1680, U+2000..U+200A, U+202F, U+205F,
U+3000. -/
def isWhiteSpace (c : Char) : Bool :=
  c.toNat = 0x09 || c.toNat = 0x0B || c.toNat = 0x0C || c.toNat = 0x20
    || c.toNat = 0xA0 || c.toNat = 0xFEFF || c.toNat = 0x1680
    || decide (0x2000 ≤ c.toNat ∧ c.toNat ≤ 0x200A)
    || c.toNat = 0x202F || c.toNat = 0x205F || c.toNat = 0x3000

/-- The class `\s` of a regular expression: white space and line terminators. -/
def isSpace (c : Char) : Bool := isWhiteSpace c || isLineTerminator c

/-- Tokens.  `bad` is a lexeme that is a syntax error wherever it stands (a
literal with a leading zero, which strict mode forbids, or a dot without
digits); `beyond` is a lexeme outside the modelled fragment. -/
inductive Tok
  | num (q : ℚ)
  | plus | minus | star | slash | lparen | rparen
  | incr | decr
  | bad
  | beyond
deriving DecidableEq

/-- Scan a numeric literal at the head of `s` (which starts with a digit or a
dot): the token and the rest of the input. -/
def scanNumber (s : List Char) : Tok × List Char :=
  let ip := s.takeWhile isDigit
  let r1 := s.dropWhile isDigit
  match r1 with
  | '.' :: r =>
    let fp := r.takeWhile isDigit
    let r2 := r.dropWhile isDigit
    if ip = [] ∧ fp = [] then (Tok.bad, r)
    else if ip.head? = some '0' ∧ 1 < ip.length then (Tok.bad, r2)
    else (Tok.num (decimalVal ip fp), r2)
  | _ =>
    if ip.head? = some '0' ∧ 1 < ip.length then (Tok.bad, r1)
    else (Tok.num (decimalVal ip []), r1)

/-- The tokens of the input, with fuel (one unit per character suffices). -/
def lex : Nat → List Char → List Tok
  | 0, _ => []
  | _ + 1, [] => []
  | f + 1, c :: cs =>
    if isWhiteSpace c then lex f cs
    else if isDigit c || c = '.' then
      (scanNumber (c :: cs)).1 :: lex f (scanNumber (c :: cs)).2
    else if c = '+' then
      (if cs.head? = some '+' then Tok.incr :: lex f cs.tail else Tok.plus :: lex f cs)
    else if c = '-' then
      (if cs.head? = some '-' then Tok.decr :: lex f cs.tail else Tok.minus :: lex f cs)
    else if c = '*' then
      (if cs.head? = some '*' then [Tok.beyond] else Tok.star :: lex f cs)
    else if c = '/' then
      (if cs.head? = some '/' ∨ cs.head? = some '*' then [Tok.beyond]
       else Tok.slash :: lex f cs)
    else if c = '(' then Tok.lparen :: lex f cs
    else if c = ')' then Tok.rparen :: lex f cs
    else [Tok.beyond]

/-- The tokens of a source text. -/
def tokenize (s : List Char) : List Tok := lex (s.length + 1) s

/-- Expression trees of the fragment. -/
inductive JExpr
  | num (q : ℚ)
  | pos (a : JExpr)
  | neg (a : JExpr)
  | add (a b : JExpr)
  | sub (a b : JExpr)
  | mul (a b : JExpr)
  | div (a b : JExpr)
  | call (f : JExpr) (arg : Option JExpr)

/-- The result of a parser: a tree and the remaining tokens, a syntax error,
or input beyond the modelled fragment (also when the fuel runs out). -/
inductive Parse (α : Type)
  | ok (a : α) (rest : List Tok)
  | throw
  | beyond

mutual
/-- PrimaryExpression: a literal or a parenthesised expression. -/
def parsePrimary : Nat → List Tok → Parse JExpr
  | 0, _ => Parse.beyond
  | _ + 1, [] => Parse.throw
  | f + 1, t :: ts =>
    match t with
    | Tok.num q => Parse.ok (JExpr.num q) ts
    | Tok.lparen =>
      (match parseExpr f ts with
       | Parse.ok e (Tok.rparen :: r) => Parse.ok e r
       | Parse.ok _ (Tok.beyond :: _) => Parse.beyond
       | Parse.ok _ _ => Parse.throw
       | Parse.throw => Parse.throw
       | Parse.beyond => Parse.beyond)
    | Tok.slash => Parse.beyond
    | Tok.beyond => Parse.beyond
    | _ => Parse.throw
/-- CallExpression: the argument lists that follow a primary expression; an
update operator after it is an early error. -/
def parseCallTail : Nat → JExpr → List Tok → Parse JExpr
  | 0, _, _ => Parse.beyond
  | f + 1, e, ts =>
    match ts with
    | Tok.lparen :: Tok.rparen :: r => parseCallTail f (JExpr.call e none) r
    | Tok.lparen :: r =>
      (match parseExpr f r with
       | Parse.ok a (Tok.rparen :: r2) => parseCallTail f (JExpr.call e (some a)) r2
       | Parse.ok _ (Tok.beyond :: _) => Parse.beyond
       | Parse.ok _ _ => Parse.throw
       | Parse.throw => Parse.throw
       | Parse.beyond => Parse.beyond)
    | Tok.incr :: _ => Parse.throw
    | Tok.decr :: _ => Parse.throw
    | Tok.bad :: _ => Parse.throw
    | Tok.num _ :: _ => Parse.throw
    | Tok.beyond :: _ => Parse.beyond
    | _ => Parse.ok e ts
/-- UnaryExpression. -/
def parseUnary : Nat → List Tok → Parse JExpr
  | 0, _ => Parse.beyond
  | f + 1, ts =>
    match ts with
    | Tok.plus :: r =>
      (match parseUnary f r with
       | Parse.ok e r2 => Parse.ok (JExpr.pos e) r2
       | o => o)
    | Tok.minus :: r =>
      (match parseUnary f r with
       | Parse.ok e r2 => Parse.ok (JExpr.neg e) r2
       | o => o)
    | _ =>
      (match parsePrimary f ts with
       | Parse.ok e r => parseCallTail f e r
       | o => o)
/-- MultiplicativeExpression, after its first operand. -/
def parseMulTail : Nat → JExpr → List Tok → Parse JExpr
  | 0, _, _ => Parse.beyond
  | f + 1, e, ts =>
    match ts with
    | Tok.star :: r =>
      (match parseUnary f r with
       | Parse.ok b r2 => parseMulTail f (JExpr.mul e b) r2
       | o => o)
    | Tok.slash :: r =>
      (match parseUnary f r with
       | Parse.ok b r2 => parseMulTail f (JExpr.div e b) r2
       | o => o)
    | _ => Parse.ok e ts
/-- AdditiveExpression, after its first operand. -/
def parseAddTail : Nat → JExpr → List Tok → Parse JExpr
  | 0, _, _ => Parse.beyond
  | f + 1, e, ts =>
    match ts with
    | Tok.plus :: r =>
      (match parseUnary f r with
       | Parse.ok b r2 =>
         (match parseMulTail f b r2 with
          | Parse.ok b2 r3 => parseAddTail f (JExpr.add e b2) r3
          | o => o)
       | o => o)
    | Tok.minus :: r =>
      (match parseUnary f r with
       | Parse.ok b r2 =>
         (match parseMulTail f b r2 with
          | Parse.ok b2 r3 => parseAddTail f (JExpr.sub e b2) r3
          | o => o)
       | o => o)
    | _ => Parse.ok e ts
/-- Expression. -/
def parseExpr : Nat → List Tok → Parse JExpr
  | 0, _ => Parse.beyond
  | f + 1, ts =>
    match parseUnary f ts with
    | Parse.ok a r =>
      (match parseMulTail f a r with
       | Parse.ok b r2 => parseAddTail f b r2
       | o => o)
    | o => o
end

/-- Evaluation of an expression tree; `none` is a thrown `TypeError`. -/
def evalExpr : JExpr → Option Num
  | JExpr.num q => some (ofRat q false)
  | JExpr.pos a => evalExpr a
  | JExpr.neg a => (evalExpr a).map Num.neg
  | JExpr.add a b => (evalExpr a).bind fun x => (evalExpr b).map fun y => x.add y
  | JExpr.sub a b => (evalExpr a).bind fun x => (evalExpr b).map fun y => x.sub y
  | JExpr.mul a b => (evalExpr a).bind fun x => (evalExpr b).map fun y => x.mul y
  | JExpr.div a b => (evalExpr a).bind fun x => (evalExpr b).map fun y => x.div y
  | JExpr.call _ _ => none

/-- The completion of a call of the host evaluator: an exception, a Number,
or a value that is not a Number, given by the text `String` renders it to. -/
inductive Completion
  | throw
  | number (x : Num)
  | other (text : List Char)
deriving DecidableEq

/-- Source: ``Function(`"use strict"; return (${expr})`)()`` on the modelled
fragment: the interpolated text is parsed between the two parentheses of the
template and must end there. -/
def evalJS (expr : List Char) : Option Completion :=
  let ts := tokenize ('(' :: expr ++ [')'])
  match parseExpr (4 * ts.length + 4) ts with
  | Parse.ok e [] =>
    (match evalExpr e with
     | some x => some (Completion.number x)
     | none => some Completion.throw)
  | Parse.ok _ (Tok.beyond :: _) => none
  | Parse.ok _ _ => some Completion.throw
  | Parse.throw => some Completion.throw
  | Parse.beyond => none


/-- The host evaluator as modelled: `evalJS` on the fragment, and a thrown
exception for a text outside it.  The theorems below use it only on texts of
the fragment; a statement about every buffer takes the evaluator as a
parameter, any evaluator or any that agrees with the model where the model
answers. -/
def hostEval (expr : List Char) : Completion :=
  (evalJS expr).getD Completion.throw

/-! ## Text to number -/

/-- The exponent part of a decimal literal at the head of `r`, if there is
one: its value and the rest. -/
def scanExponent (r : List Char) : Int × List Char :=
  match r with
  | c :: r1 =>
    if c = 'e' ∨ c = 'E' then
      let neg := r1.head? = some '-'
      let r2 := if r1.head? = some '-' ∨ r1.head? = some '+' then r1.tail else r1
      let ds := r2.takeWhile isDigit
      if ds = [] then (0, r)
      else ((if neg then -(digitsVal ds : Int) else (digitsVal ds : Int)), r2.dropWhile isDigit)
    else (0, r)
  | [] => (0, [])

/-- The longest unsigned decimal literal (StrUnsignedDecimalLiteral without
`Infinity`) at the head of `s`: its value and the rest. -/
def scanDecimal (s : List Char) : Option (ℚ × List Char) :=
  let ip := s.takeWhile isDigit
  let r1 := s.dropWhile isDigit
  let fp := match r1 with
    | '.' :: r => r.takeWhile isDigit
    | _ => []
  let r2 := match r1 with
    | '.' :: r => r.dropWhile isDigit
    | _ => r1
  if ip = [] ∧ fp = [] then none
  else some (decimalVal ip fp * pow10 (scanExponent r2).1, (scanExponent r2).2)

/-- The longest signed decimal literal (StrDecimalLiteral) at the head of `s`. -/
def scanSigned (s : List Char) : Option (Num × List Char) :=
  let neg := s.head? = some '-'
  let r := if s.head? = some '-' ∨ s.head? = some '+' then s.tail else s
  if "Infinity".toList.isPrefixOf r then some (Num.inf neg, r.drop 8)
  else
    match scanDecimal r with
    | none => none
    | some (q, rest) => some (ofRat (if neg then -q else q) neg, rest)

/-- Source: unary `+` on a string (`StringToNumber`), for decimal literals:
the text without surrounding white space must be a signed decimal literal. -/
def stringToNumber (s : List Char) : Num :=
  let t := ((s.dropWhile isSpace).reverse.dropWhile isSpace).reverse
  if t = [] then Num.fin 0
  else
    match scanSigned t with
    | some (x, []) => x
    | _ => Num.nan

/-- Source: `parseFloat`: the longest decimal literal after leading white
space, `NaN` if there is none. -/
def parseFloat (s : List Char) : Num :=
  match scanSigned (s.dropWhile isSpace) with
  | some (x, _) => x
  | none => Num.nan

/-! ## `percent` -/

/-- The input is matched in full by `\d+\.?\d*`.  With the `$` that follows
it in the source pattern, the greedy quantifiers have a single way to match. -/
def matchesNumber (r : List Char) : Bool :=
  let r1 := r.dropWhile isDigit
  let r2 := match r1 with
    | '.' :: t => t
    | _ => r1
  !(r.takeWhile isDigit).isEmpty && (r2.dropWhile isDigit).isEmpty

/-- The match of `(.*?)(\d+\.?\d*)$` that starts at the head of the input:
the lazy group takes the least number of characters, none of them a line
terminator, after which the rest is a number. -/
def lazyFrom : List Char → Option (List Char × List Char)
  | [] => none
  | c :: t =>
    if matchesNumber (c :: t) then some ([], c :: t)
    else if isLineTerminator c then none
    else (lazyFrom t).map fun m => (c :: m.1, m.2)

/-- Source: `expression.match(/(.*?)(\d+\.?\d*)$/)`: the match at the first
position of the input that has one; the two groups. -/
def matchPercent : List Char → Option (List Char × List Char)
  | [] => none
  | c :: t =>
    match lazyFrom (c :: t) with
    | some m => some m
    | none => matchPercent t

/-- Source: `percent()`. -/
def percent (s : State) : State :=
  match matchPercent s.expression with
  | none => s
  | some m =>
    updateDisplay
      { s with expression := m.1 ++ ((parseFloat m.2).div (Num.fin 100)).toString }

/-! ## `calculate` -/

/-- Source: `s.replace(/a/g, b)` for a pattern of one character. -/
def replaceAll (a b : Char) (s : List Char) : List Char :=
  s.map fun c => if c = a then b else c

/-- Source: the normalisation of `calculate`,
`expression.replace(/×/g, '*').replace(/÷/g, '/').replace(/−/g, '-')`. -/
def normalize (e : List Char) : List Char :=
  replaceAll '−' '-' (replaceAll '÷' '/' (replaceAll '×' '*' e))

/-- The class `[\d+\-*/().\s]` of `isSafe`. -/
def isAllowed (c : Char) : Bool :=
  isDigit c || c = '+' || c = '-' || c = '*' || c = '/' || c = '(' || c = ')' || c = '.'
    || isSpace c

/-- Source: `isSafe(expr)`, the test of `/^[\d+\-*/().\s]+$/`. -/
def isSafe (expr : List Char) : Bool :=
  !expr.isEmpty && expr.all isAllowed

/-- The error path of `calculate`:
`displayEl.textContent = 'Error'; expression = ''`. -/
def showError (s : State) : State :=
  { s with display := "Error".toList, expression := [] }

/-- The value is a finite Number (`Number.isFinite`). -/
def Num.isFinite : Num → Bool
  | Num.negZero => true
  | Num.fin _ => true
  | _ => false

/-- Source: `calculate()`, the host evaluator `ev` being
``expr ↦ Function(`"use strict"; return (${expr})`)()``. -/
def calculate (ev : List Char → Completion) (s : State) : State :=
  if s.expression = [] then s
  else if isSafe (normalize s.expression) = false then showError s
  else
    match ev (normalize s.expression) with
    | Completion.throw => showError { s with evals := s.evals + 1 }
    | Completion.number x =>
      if x = Num.inf false ∨ x = Num.nan then showError { s with evals := s.evals + 1 }
      else if x.isFinite then
        updateDisplay
          { s with
            evals := s.evals + 1
            expression := (stringToNumber (x.toPrecision 12)).toString }
      else updateDisplay { s with evals := s.evals + 1, expression := x.toString }
    | Completion.other text =>
      updateDisplay { s with evals := s.evals + 1, expression := text }

/-! ## Runs -/

/-- The operations of the controller. -/
inductive Op
  | append (value : List Char)
  | del
  | clearAll
  | percent
  | calculate
deriving DecidableEq

/-- One operation. -/
def step (ev : List Char → Completion) (s : State) : Op → State
  | Op.append v => append v s
  | Op.del => del s
  | Op.clearAll => clearAll s
  | Op.percent => percent s
  | Op.calculate => calculate ev s

/-- A sequence of operations, in order. -/
def run (ev : List Char → Completion) (s : State) (ops : List Op) : State :=
  ops.foldl (step ev) s

/-- The state with the given buffer and the display that shows it. -/
def shown (e : List Char) : State :=
  updateDisplay { expression := e, display := [], evals := 0 }

/-! ## The words of the specification about `percent` -/

/-- Specification: a numeric literal, "digits, optionally followed by a
decimal point and further digits" (the further digits may be none, as in
"12."). -/
def NumLit (n : List Char) : Prop :=
  ∃ ds fs, ds ≠ [] ∧ (∀ c ∈ ds, isDigit c = true) ∧ (∀ c ∈ fs, isDigit c = true)
    ∧ (n = ds ∨ n = ds ++ '.' :: fs)

/-- Specification: the buffer has a trailing number, its last character is
a digit, or a decimal point immediately preceded by a digit. -/
def endsInNumber (e : List Char) : Bool :=
  match e.reverse with
  | [] => false
  | c :: rest =>
    isDigit c || (c = '.' && (match rest with
      | d :: _ => isDigit d
      | [] => false))

/-! ## The words of the specification about arithmetic expressions -/

/-- Specification: the expressions built from non-negative integer literals,
the operators `+ - *` and parentheses. -/
inductive AExp
  | lit (n : Nat)
  | add (a b : AExp)
  | sub (a b : AExp)
  | mul (a b : AExp)
  | paren (a : AExp)

/-- The text of an expression; a literal is written without leading zeros. -/
def AExp.render : AExp → List Char
  | AExp.lit n => natDigits n
  | AExp.add a b => a.render ++ '+' :: b.render
  | AExp.sub a b => a.render ++ '-' :: b.render
  | AExp.mul a b => a.render ++ '*' :: b.render
  | AExp.paren a => '(' :: a.render ++ [')']

/-- The exact integer value of an expression. -/
def AExp.value : AExp → Int
  | AExp.lit n => n
  | AExp.add a b => a.value + b.value
  | AExp.sub a b => a.value - b.value
  | AExp.mul a b => a.value * b.value
  | AExp.paren a => a.value

/-- Well-formed with the standard precedence, as an operand of level `l`
(0: a sum, 1: a product, 2: a literal or a parenthesised expression): the
text of the expression, read with `*` binding tighter than `+` and `-` and
the operators associating to the left, has the expression as its tree. -/
def AExp.fits : AExp → Nat → Bool
  | AExp.lit _, _ => true
  | AExp.paren a, _ => a.fits 0
  | AExp.mul a b, l => decide (l ≤ 1) && a.fits 1 && b.fits 2
  | AExp.add a b, l => decide (l = 0) && a.fits 0 && b.fits 1
  | AExp.sub a b, l => decide (l = 0) && a.fits 0 && b.fits 1

/-- All the intermediate values of the expression, the literals included,
have absolute value below `10 ^ 12`. -/
def AExp.bounded : AExp → Bool
  | AExp.lit n => decide (n < 10 ^ 12)
  | AExp.add a b => a.bounded && b.bounded && decide (|a.value + b.value| < 10 ^ 12)
  | AExp.sub a b => a.bounded && b.bounded && decide (|a.value - b.value| < 10 ^ 12)
  | AExp.mul a b => a.bounded && b.bounded && decide (|a.value * b.value| < 10 ^ 12)
  | AExp.paren a => a.bounded

/-- The decimal rendering of an integer. -/
def intText (v : Int) : List Char :=
  if v < 0 then '-' :: natDigits v.natAbs else natDigits v.natAbs

/-! ## Auxiliary notions of the proofs -/

/-- The tokens of an expression. -/
def AExp.toks : AExp → List Tok
  | AExp.lit n => [Tok.num (n : ℚ)]
  | AExp.add a b => a.toks ++ Tok.plus :: b.toks
  | AExp.sub a b => a.toks ++ Tok.minus :: b.toks
  | AExp.mul a b => a.toks ++ Tok.star :: b.toks
  | AExp.paren a => Tok.lparen :: a.toks ++ [Tok.rparen]

/-- The tree the parser builds for an expression (parentheses leave no node). -/
def AExp.tree : AExp → JExpr
  | AExp.lit n => JExpr.num (n : ℚ)
  | AExp.add a b => JExpr.add a.tree b.tree
  | AExp.sub a b => JExpr.sub a.tree b.tree
  | AExp.mul a b => JExpr.mul a.tree b.tree
  | AExp.paren a => a.tree

/-- The Number `x` stands for the integer `v`: it is `v`, or `-0` for zero. -/
def Rep (x : Num) (v : Int) : Prop := x = Num.fin (v : ℚ) ∨ (v = 0 ∧ x = Num.negZero)

/-- The text of `toPrecision(12)` for a natural number of at most twelve
digits: its digits, and a decimal point and zeros up to twelve digits. -/
def fixed12 (n : Nat) : List Char :=
  if (natDigits n).length = 12 then natDigits n
  else natDigits n ++ '.' :: zeros (12 - (natDigits n).length)

/-- The text that follows an expression starts with `)`, `+`, `-` or `*`. -/
def Delim (rest : List Char) : Prop :=
  ∃ x r, rest = x :: r ∧ (x = ')' ∨ x = '+' ∨ x = '-' ∨ x = '*')

/-- The tokens that follow an operand: none, or a binary operator or `)` first. -/
def FollowAny (rest : List Tok) : Prop :=
  rest = [] ∨ ∃ t r, rest = t :: r ∧ (t = Tok.plus ∨ t = Tok.minus ∨ t = Tok.star ∨ t = Tok.rparen)

/-- The tokens that follow a product: none, or `+`, `-` or `)` first. -/
def FollowAdd (rest : List Tok) : Prop :=
  rest = [] ∨ ∃ t r, rest = t :: r ∧ (t = Tok.plus ∨ t = Tok.minus ∨ t = Tok.rparen)

/-- With enough fuel, `parseUnary` reads the tokens of `e` and returns its tree. -/
def SU (e : AExp) : Prop :=
  ∀ f rest, 3 * e.toks.length + 2 ≤ f → FollowAny rest →
    parseUnary f (e.toks ++ rest) = Parse.ok e.tree rest

/-- With enough fuel, `parseUnary` and then `parseMulTail` read the tokens of
`e` and go on from its tree, with `k` units of fuel less. -/
def SM (e : AExp) : Prop :=
  ∀ f rest, 3 * e.toks.length + 2 ≤ f → FollowAny rest →
    ∃ k a0 r0, k ≤ e.toks.length ∧ parseUnary f (e.toks ++ rest) = Parse.ok a0 r0
      ∧ parseMulTail f a0 r0 = parseMulTail (f - k) e.tree rest

/-- With enough fuel, `parseUnary`, `parseMulTail` and then `parseAddTail`
read the tokens of `e` and go on from its tree, with `k` units of fuel less. -/
def SA (e : AExp) : Prop :=
  ∀ f rest, 3 * e.toks.length + 2 ≤ f → FollowAdd rest →
    ∃ k a0 r0 b0 r1, k ≤ e.toks.length ∧ parseUnary f (e.toks ++ rest) = Parse.ok a0 r0
      ∧ parseMulTail f a0 r0 = Parse.ok b0 r1
      ∧ parseAddTail f b0 r1 = parseAddTail (f - k) e.tree rest

/-- The characters of the text of an expression. -/
def plainChar (c : Char) : Bool :=
  isDigit c || c = '+' || c = '-' || c = '*' || c = '(' || c = ')'

/-! ## Keyboard, and the words of the specification about the display and the character set -/

/-- Source: `/^[0-9]$/.test(key)`: the key is one digit. -/
def isDigitKey (key : List Char) : Bool :=
  match key with
  | [c] => isDigit c
  | _ => false

/-- Source: `key.toLowerCase()`, modelled on the ASCII letters (other
characters are left as they are; none of them has the lower case `c`, the
only text the result is compared with). -/
def toLowerCase (key : List Char) : List Char := key.map Char.toLower

/-- Source: the `keydown` listener; the second component tells whether
`e.preventDefault()` was called. -/
def keydown (ev : List Char → Completion) (key : List Char) (s : State) : State × Bool :=
  if isDigitKey key then (append key s, true)
  else if key = ['.'] then (append ['.'] s, true)
  else if key = ['+'] ∨ key = ['-'] ∨ key = ['*'] ∨ key = ['/'] then (append key s, true)
  else if key = "Enter".toList ∨ key = ['='] then (calculate ev s, true)
  else if key = "Backspace".toList then (del s, true)
  else if toLowerCase key = ['c'] then (clearAll s, true)
  else if key = ['%'] then (percent s, true)
  else if key = ['('] ∨ key = [')'] then (append key s, true)
  else (s, false)

/-- Specification: the display is a projection of the buffer, or shows the
error of an empty buffer. -/
def Projected (s : State) : Prop :=
  s.display = (if s.expression = [] then ['0'] else s.expression)
    ∨ (s.display = "Error".toList ∧ s.expression = [])

/-- Specification: the characters of the buffer's invariant: digits, the four
arithmetic operators (ASCII or glyph form), the decimal point, parentheses
and white space. -/
def isExprChar (c : Char) : Bool :=
  isDigit c || c = '+' || c = '-' || c = '*' || c = '/' || c = '×' || c = '÷' || c = '−'
    || c = '.' || c = '(' || c = ')' || isSpace c

/-- Specification: the tokens of the claim about the character set: a digit,
an operator (ASCII or glyph form), the decimal point or a parenthesis. -/
def isTokenChar (c : Char) : Bool :=
  isDigit c || c = '+' || c = '-' || c = '*' || c = '/' || c = '×' || c = '÷' || c = '−'
    || c = '.' || c = '(' || c = ')'

/-- The depth of parentheses after the text, from depth `d`; `none` when a
closing parenthesis has no opening one before it. -/
def parenDepth : List Char → Nat → Option Nat
  | [], d => some d
  | c :: cs, d =>
    if c = '(' then parenDepth cs (d + 1)
    else if c = ')' then (if d = 0 then none else parenDepth cs (d - 1))
    else parenDepth cs d

/-- Specification: the parentheses of the text are balanced, as they are in
every well-formed expression. -/
def balanced (s : List Char) : Bool := parenDepth s 0 = some 0

/-! ## The words of the specification about significant digits -/

/-- Specification: the value `a > 0` rounded to `p` significant digits, as
the pair `(n, e)` of the `p`-digit number `n` and the decimal exponent `e` of
its first digit: `n * 10 ^ (e - p + 1)` is the decimal of `p` digits nearest
to `a`, a tie going up. -/
def sigDigits (p : Nat) (a : ℚ) : Nat × Int :=
  let e0 := ilog10 a
  let t := a / pow10 (e0 - (p - 1 : Nat))
  let n0 := if t - ⌊t⌋ < 1 / 2 then ⌊t⌋.toNat else ⌊t⌋.toNat + 1
  if n0 = 10 ^ p then (10 ^ (p - 1), e0 + 1) else (n0, e0)

/-- The text of `toPrecision(p)` for the `p` digits `m` and the exponent `e`. -/
def precisionText (p : Nat) (m : List Char) (e : Int) : List Char :=
  if e < -6 ∨ (p : Int) ≤ e then
    (if p = 1 then m else m.take 1 ++ '.' :: m.drop 1) ++ expPart e
  else if e = (p : Int) - 1 then m
  else if 0 ≤ e then m.take (e.toNat + 1) ++ '.' :: m.drop (e.toNat + 1)
  else '0' :: '.' :: zeros (-(e + 1)).toNat ++ m

/-- The characters of the text of a number. -/
def isNumChar (c : Char) : Bool :=
  isDigit c || c = '.' || c = 'e' || c = '+' || c = '-'

/-- Specification: the digits `ds` without the zeros at their end. -/
def stripZeros (ds : List Char) : List Char :=
  (ds.reverse.dropWhile (fun c => c == '0')).reverse

/-- The decimal text of the number `0.ds * 10 ^ n` with the significant
digits `ds`, in the notation of the host (`Number::toString`): plain digits
with the point after `n` of them for `-6 < n ≤ 21`, the exponential form
otherwise. -/
def decimalText (ds : List Char) (n : Int) : List Char :=
  let k := ds.length
  if (k : Int) ≤ n ∧ n ≤ 21 then ds ++ zeros (n - k).toNat
  else if 0 < n ∧ n ≤ 21 then ds.take n.toNat ++ '.' :: ds.drop n.toNat
  else if -6 < n ∧ n ≤ 0 then '0' :: '.' :: zeros (-n).toNat ++ ds
  else if k = 1 then ds ++ expPart (n - 1)
  else ds.take 1 ++ '.' :: ds.drop 1 ++ expPart (n - 1)

/-- Specification: the decimal text of the value `q ≠ 0` rounded to 12
significant digits, with the zeros at the end of the digits stripped. -/
def roundedText (q : ℚ) : List Char :=
  (if q < 0 then ['-'] else [])
    ++ decimalText (stripZeros (natDigits (sigDigits 12 |q|).1)) ((sigDigits 12 |q|).2 + 1)

/-- Specification: a finite number that is zero or has a magnitude from
`10 ^ (-300)` up to, not including, `10 ^ 300`. -/
def Num.moderate : Num → Prop
  | Num.fin q => q = 0 ∨ (pow10 (-300) ≤ |q| ∧ |q| < pow10 300)
  | Num.negZero => True
  | _ => False

/-- Specification: the ASCII equivalent of a character: `*` for the glyph ×,
`/` for ÷, `-` for −, and the character itself otherwise. -/
def asciiChar (c : Char) : Char :=
  if c = '×' then '*' else if c = '÷' then '/' else if c = '−' then '-' else c

/-- Specification: the buffer obtained by replacing every × by `*`, every ÷
by `/` and every − by `-`. -/
def asciiForm (b : List Char) : List Char := b.map asciiChar

/-- The key presses (or button clicks) that type a text, one character at a
time. -/
def typed (text : List Char) : List Op := text.map fun c => Op.append [c]

/-- Source: the same call of the host on a text `b**k` or `b**-k`, with `b`
and `k` decimal integer literals and `b` not zero: the exponentiation
operator of ECMAScript 2016.  The model answers where the power is a binary64
value exactly, which is then the result (the operator is accurate to less
than one unit in the last place), and `none` elsewhere. -/
def evalPow (expr : List Char) : Option Completion :=
  let b := expr.takeWhile isDigit
  match expr.dropWhile isDigit with
  | '*' :: '*' :: r =>
    let k := if r.head? = some '-' then r.tail else r
    if b = [] ∨ k = [] ∨ k.all isDigit = false
        ∨ (b.head? = some '0' ∧ 1 < b.length) ∨ (k.head? = some '0' ∧ 1 < k.length)
        ∨ digitsVal b = 0 then none
    else
      let v : ℚ :=
        if r.head? = some '-' then 1 / ((digitsVal b ^ digitsVal k : Nat) : ℚ)
        else ((digitsVal b ^ digitsVal k : Nat) : ℚ)
      if ofRat v false = Num.fin v then some (Completion.number (Num.fin v)) else none
  | _ => none

/-- The host evaluator as modelled, with the exact powers: `evalJS` on its
fragment, `evalPow` on its own, and a thrown exception for a text outside
both.  It is used only on texts of the two fragments. -/
def hostEvalPow (expr : List Char) : Completion :=
  match evalJS expr with
  | some c => c
  | none => (evalPow expr).getD Completion.throw

/-- An evaluator that agrees with the model `evalJS` wherever the model
answers.  The host evaluator is one of them, whatever it answers on the texts
outside the modelled fragment. -/
def Faithful (ev : List Char → Completion) : Prop :=
  ∀ t c, evalJS t = some c → ev t = c

/-! ## Theorems -/

theorem updateDisplay_expression (s : State) :
    (updateDisplay s).expression = s.expression := rfl

theorem append_expression_of_lt (value : List Char) (s : State)
    (hlt : s.expression.length < maxLength)
    (hz : s.expression = ['0'] → hasDigit value = false) :
    (append value s).expression = s.expression ++ value := by
  unfold append
  have h1 : ¬ s.expression.length ≥ maxLength := by omega
  by_cases h0 : s.expression = ['0']
  · have hv : value ≠ ['0'] := by
      intro hv
      have := hz h0
      rw [hv] at this
      exact absurd this (by decide)
    simp [h0, hv, hz h0, updateDisplay, maxLength]
  · simp [h1, h0, updateDisplay]

theorem append_of_full (value : List Char) (s : State)
    (hfull : maxLength ≤ s.expression.length) : append value s = s := by
  unfold append
  simp [hfull]

theorem foldl_append_expression (tokens : List (List Char)) :
    ∀ s : State,
      s.expression.length + (tokens.map List.length).sum ≤ maxLength →
      (∀ pre t post, tokens = pre ++ t :: post →
        (pre.foldl (fun st v => append v st) s).expression = ['0'] → hasDigit t = false) →
      (tokens.foldl (fun st v => append v st) s).expression = s.expression ++ tokens.flatten := by
  induction tokens with
  | nil => intro s _ _; simp
  | cons t ts ih =>
    intro s hlen hz
    simp only [List.map_cons, List.sum_cons] at hlen
    have hstep : (append t s).expression = s.expression ++ t := by
      by_cases hfull : maxLength ≤ s.expression.length
      · have ht : t = [] := List.length_eq_zero.mp (by omega)
        rw [append_of_full t s hfull, ht, List.append_nil]
      · exact append_expression_of_lt t s (by omega) (fun h0 => hz [] t ts rfl (by simpa using h0))
    have := ih (append t s) (by rw [hstep, List.length_append]; omega)
      (fun pre u post hts h0 => hz (t :: pre) u post (by rw [hts]; rfl) (by simpa using h0))
    simp only [List.foldl_cons, List.flatten_cons]
    rw [this, hstep, List.append_assoc]

/-- C1: `calculate` never evaluates an unsafe string.  For every non-empty
buffer whose form after the replacement of the glyphs × ÷ − contains a
character outside the allow-list, `calculate` sets the display to "Error" and
the buffer to the empty string, and the host evaluator is not called (the
count of its calls is unchanged), whatever the evaluator is. -/
theorem calculate_unsafe (ev : List Char → Completion) (s : State) (c : Char)
    (hne : s.expression ≠ []) (hc : c ∈ normalize s.expression)
    (hbad : isAllowed c = false) :
    calculate ev s = { expression := [], display := "Error".toList, evals := s.evals } := by
  have hsafe : isSafe (normalize s.expression) = false := by
    unfold isSafe
    have : (normalize s.expression).all isAllowed = false := by
      rw [List.all_eq_false]
      exact ⟨c, hc, by simp [hbad]⟩
    simp [this]
  unfold calculate
  simp [hne, hsafe, showError]

theorem calculate_unsafe_witness :
    calculate hostEval { expression := "6a7".toList, display := "6a7".toList, evals := 0 }
      = { expression := [], display := "Error".toList, evals := 0 } :=
  calculate_unsafe hostEval { expression := "6a7".toList, display := "6a7".toList, evals := 0 }
    'a' (by decide) (by decide) (by decide)

/-- C2 (the code at the failing input): the buffer "-1/0" passes the
allow-list check and its evaluation yields the infinite value `-Infinity`,
and `calculate` does not show "Error": the buffer and the display become
"-Infinity".  The buffer "1/0" of the claim does give "Error" and the empty
buffer. -/
theorem calculate_negative_infinity :
    isSafe (normalize "-1/0".toList) = true
    ∧ hostEval (normalize "-1/0".toList) = Completion.number (Num.inf true)
    ∧ calculate hostEval (shown "-1/0".toList)
        = { expression := "-Infinity".toList, display := "-Infinity".toList, evals := 1 }
    ∧ calculate hostEval (shown "1/0".toList)
        = { expression := [], display := "Error".toList, evals := 1 } := by
  decide!

/-- C4: from the empty buffer, for every sequence of tokens of combined
length at most 30 such that no token containing a digit is appended while the
buffer is exactly "0", the buffer after appending all the tokens in order is
their concatenation. -/
theorem append_tokens_concat (tokens : List (List Char))
    (hlen : (tokens.map List.length).sum ≤ 30)
    (hz : ∀ pre t post, tokens = pre ++ t :: post →
      (pre.foldl (fun st v => append v st) init).expression = ['0'] → hasDigit t = false) :
    (tokens.foldl (fun st v => append v st) init).expression = tokens.flatten := by
  have := foldl_append_expression tokens init (by simpa [init, clearAll, updateDisplay, maxLength] using hlen) hz
  simpa [init, clearAll, updateDisplay] using this

theorem append_tokens_concat_witness :
    (["12".toList, "+".toList, "0".toList, ".5".toList].foldl (fun st v => append v st) init).expression
      = "12+0.5".toList := by
  have h := append_tokens_concat ["12".toList, "+".toList, "0".toList, ".5".toList] (by decide)
    (by
      intro pre t post hts h0
      match pre, hts with
      | [], hts => exact absurd h0 (by decide)
      | [_], hts =>
        simp only [List.cons_append, List.nil_append, List.cons.injEq] at hts
        obtain ⟨rfl, rfl, _⟩ := hts
        exact absurd h0 (by decide)
      | [_, _], hts =>
        simp only [List.cons_append, List.nil_append, List.cons.injEq] at hts
        obtain ⟨rfl, rfl, rfl, _⟩ := hts
        exact absurd h0 (by decide)
      | [_, _, _], hts =>
        simp only [List.cons_append, List.nil_append, List.cons.injEq] at hts
        obtain ⟨rfl, rfl, rfl, rfl, _⟩ := hts
        exact absurd h0 (by decide)
      | _ :: _ :: _ :: _ :: _, hts =>
        have := congrArg List.length hts
        simp at this)
  exact h

/-- C6: for every buffer of length 30 or more and every token, `append`
leaves the whole state (buffer, display) unchanged; `append` is a total
function, so no error is raised. -/
theorem append_full_noop (value : List Char) (s : State)
    (hfull : 30 ≤ s.expression.length) : append value s = s :=
  append_of_full value s hfull

theorem append_full_noop_witness :
    append "7".toList (shown "123456789012345678901234567890".toList)
      = shown "123456789012345678901234567890".toList :=
  append_full_noop "7".toList (shown "123456789012345678901234567890".toList) (by decide)

/-- C7: the leading-zero rule of `append`.  When the buffer is exactly "0",
appending a single digit `d` makes the buffer `d` (for `d = 0` nothing
changes at all, for another digit the display shows `d`); from the empty
buffer `append('0'); append('0')` yields "0" and `append('0'); append('5')`
yields "5". -/
theorem append_leading_zero (s : State) (d : Char)
    (h0 : s.expression = ['0']) (hd : isDigit d = true) :
    (append [d] s).expression = [d]
    ∧ (d = '0' → append [d] s = s)
    ∧ (d ≠ '0' → (append [d] s).display = [d])
    ∧ (append ['0'] (append ['0'] init)).expression = ['0']
    ∧ (append ['5'] (append ['0'] init)).expression = ['5'] := by
  have hlt : ¬ s.expression.length ≥ maxLength := by rw [h0]; decide
  refine ⟨?_, ?_, ?_, by decide, by decide⟩
  · unfold append
    by_cases hz : d = '0'
    · subst hz; simp [hlt, h0]
    · simp [h0, hz, hasDigit, hd, updateDisplay, maxLength]
  · intro hz
    subst hz
    unfold append
    simp [hlt, h0]
  · intro hz
    unfold append
    simp [h0, hz, hasDigit, hd, updateDisplay, maxLength]

theorem append_leading_zero_witness :
    (append ['7'] (shown ['0'])).expression = ['7']
    ∧ ('7' = '0' → append ['7'] (shown ['0']) = shown ['0'])
    ∧ ('7' ≠ '0' → (append ['7'] (shown ['0'])).display = ['7'])
    ∧ (append ['0'] (append ['0'] init)).expression = ['0']
    ∧ (append ['5'] (append ['0'] init)).expression = ['5'] :=
  append_leading_zero (shown ['0']) '7' (by decide) (by decide)

/-- C10: `del` removes exactly the last character of a non-empty buffer and
leaves an empty buffer empty (the display showing the new buffer, "0" when it
is empty); `clearAll` followed by `del` leaves the buffer empty and the
display "0". -/
theorem del_last (s : State) :
    (∀ e c, s.expression = e ++ [c] →
      (del s).expression = e ∧ (del s).display = if e = [] then ['0'] else e)
    ∧ (s.expression = [] → (del s).expression = [] ∧ (del s).display = ['0'])
    ∧ (del (clearAll s)).expression = []
    ∧ (del (clearAll s)).display = ['0'] := by
  refine ⟨?_, ?_, rfl, rfl⟩
  · intro e c h
    simp [del, updateDisplay, sliceInit, h]
  · intro h
    simp [del, updateDisplay, sliceInit, h]

/-! ### `percent` -/

theorem takeWhile_run (p : Char → Bool) (ds : List Char) (x : Char) (r : List Char)
    (hds : ∀ c ∈ ds, p c = true) (hx : p x = false) :
    (ds ++ x :: r).takeWhile p = ds ∧ (ds ++ x :: r).dropWhile p = x :: r := by
  induction ds with
  | nil => simp [List.takeWhile, List.dropWhile, hx]
  | cons d ds ih =>
    have hd : p d = true := hds d (List.mem_cons_self _ _)
    have := ih (fun c hc => hds c (List.mem_cons_of_mem _ hc))
    simp [List.takeWhile, List.dropWhile, hd, this]

theorem takeWhile_all (p : Char → Bool) (ds : List Char) (hds : ∀ c ∈ ds, p c = true) :
    ds.takeWhile p = ds ∧ ds.dropWhile p = [] := by
  induction ds with
  | nil => simp
  | cons d ds ih =>
    have hd : p d = true := hds d (List.mem_cons_self _ _)
    have := ih (fun c hc => hds c (List.mem_cons_of_mem _ hc))
    simp [List.takeWhile, List.dropWhile, hd, this]

theorem dropWhile_head (p : Char → Bool) (l : List Char) (x : Char) (r : List Char)
    (h : l.dropWhile p = x :: r) : p x = false := by
  induction l with
  | nil => simp at h
  | cons d ds ih =>
    by_cases hd : p d = true
    · simp [List.dropWhile, hd] at h
      exact ih h
    · simp [List.dropWhile, hd] at h
      rw [← h.1]
      simpa using hd

theorem matchesNumber_of_NumLit (n : List Char) (h : NumLit n) : matchesNumber n = true := by
  obtain ⟨ds, fs, hne, hds, hfs, hn⟩ := h
  have hdsne : ds.isEmpty = false := by
    cases ds with
    | nil => exact absurd rfl hne
    | cons _ _ => rfl
  rcases hn with rfl | rfl
  · have := takeWhile_all isDigit n hds
    simp [matchesNumber, this, hdsne]
  · have h1 := takeWhile_run isDigit ds '.' fs hds (by decide)
    have h2 := takeWhile_all isDigit fs hfs
    simp [matchesNumber, h1, h2, hdsne]

theorem NumLit_of_matchesNumber (n : List Char) (h : matchesNumber n = true) : NumLit n := by
  unfold matchesNumber at h
  simp only [Bool.and_eq_true, Bool.not_eq_true', List.isEmpty_eq_true] at h
  obtain ⟨h1, h2⟩ := h
  have hsplit := List.takeWhile_append_dropWhile isDigit n
  have hds : ∀ c ∈ n.takeWhile isDigit, isDigit c = true := fun c hc => List.mem_takeWhile_imp hc
  have hne : n.takeWhile isDigit ≠ [] := by
    intro h0
    rw [h0] at h1
    simp at h1
  cases hr : n.dropWhile isDigit with
  | nil =>
    refine ⟨n.takeWhile isDigit, [], hne, hds, by simp, Or.inl ?_⟩
    rw [hr, List.append_nil] at hsplit
    exact hsplit.symm
  | cons x r =>
    have hx : isDigit x = false := dropWhile_head isDigit n x r hr
    rw [hr] at h2
    by_cases hdot : x = '.'
    · subst hdot
      simp only at h2
      have hfs : ∀ c ∈ r, isDigit c = true := by
        intro c hc
        by_contra hcd
        have : r.dropWhile isDigit ≠ [] := by
          rw [Ne, List.dropWhile_eq_nil_iff]
          intro hall
          exact hcd (hall c hc)
        exact this h2
      refine ⟨n.takeWhile isDigit, r, hne, hds, hfs, Or.inr ?_⟩
      rw [hr] at hsplit
      exact hsplit.symm
    · have h3 : (x :: r).dropWhile isDigit = [] := by
        have : (match x :: r with
          | '.' :: t => t
          | _ => x :: r) = x :: r := by
          split
          · next t heq =>
            simp only [List.cons.injEq] at heq
            exact absurd heq.1 hdot
          · rfl
        rw [this] at h2
        exact h2
      simp [List.dropWhile, hx] at h3

theorem NumLit_chars (n : List Char) (h : NumLit n) : ∀ c ∈ n, isDigit c = true ∨ c = '.' := by
  obtain ⟨ds, fs, _, hds, hfs, hn⟩ := h
  intro c hc
  rcases hn with rfl | rfl
  · exact Or.inl (hds c hc)
  · rcases List.mem_append.mp hc with h | h
    · exact Or.inl (hds c h)
    · rcases List.mem_cons.mp h with h | h
      · exact Or.inr h
      · exact Or.inl (hfs c h)

theorem endsInNumber_digit (x : List Char) (c : Char) (hc : isDigit c = true) :
    endsInNumber (x ++ [c]) = true := by
  simp [endsInNumber, hc]

theorem endsInNumber_dot (x : List Char) (d : Char) (hd : isDigit d = true) :
    endsInNumber (x ++ [d, '.']) = true := by
  simp [endsInNumber, hd]

theorem endsInNumber_of_NumLit (p n : List Char) (h : NumLit n) :
    endsInNumber (p ++ n) = true := by
  obtain ⟨ds, fs, hne, hds, hfs, hn⟩ := h
  obtain ⟨ds', d, rfl⟩ : ∃ ds' d, ds = ds' ++ [d] := by
    rcases List.eq_nil_or_concat ds with h | ⟨l, a, h⟩
    · exact absurd h hne
    · exact ⟨l, a, by rw [h, List.concat_eq_append]⟩
  have hd : isDigit d = true := hds d (by simp)
  rcases hn with rfl | rfl
  · rw [← List.append_assoc]
    exact endsInNumber_digit _ d hd
  · rcases List.eq_nil_or_concat fs with h | ⟨l, a, h⟩
    · subst h
      have : p ++ ((ds' ++ [d]) ++ ['.']) = (p ++ ds') ++ [d, '.'] := by simp
      rw [this]
      exact endsInNumber_dot _ d hd
    · rw [List.concat_eq_append] at h
      subst h
      have : p ++ ((ds' ++ [d]) ++ '.' :: (l ++ [a])) = (p ++ ds' ++ d :: '.' :: l) ++ [a] := by
        simp
      rw [this]
      exact endsInNumber_digit _ a (hfs a (by simp))

theorem lazyFrom_none (e : List Char)
    (h : ∀ p t, e = p ++ t → matchesNumber t = false) : lazyFrom e = none := by
  induction e with
  | nil => rfl
  | cons c t ih =>
    have h0 : matchesNumber (c :: t) = false := h [] (c :: t) rfl
    have ht := ih (fun p u hu => h (c :: p) u (by rw [hu]; rfl))
    simp [lazyFrom, h0, ht]

theorem matchPercent_none (e : List Char)
    (h : ∀ p t, e = p ++ t → matchesNumber t = false) : matchPercent e = none := by
  induction e with
  | nil => rfl
  | cons c t ih =>
    have h0 := lazyFrom_none (c :: t) h
    have ht := ih (fun p u hu => h (c :: p) u (by rw [hu]; rfl))
    simp [matchPercent, h0, ht]

theorem lazyFrom_some (num : List Char) (hnum : matchesNumber num = true) :
    ∀ pre : List Char, (∀ c ∈ pre, isLineTerminator c = false) →
      (∀ p1 p2, pre = p1 ++ p2 → p2 ≠ [] → matchesNumber (p2 ++ num) = false) →
      lazyFrom (pre ++ num) = some (pre, num) := by
  intro pre
  induction pre with
  | nil =>
    intro _ _
    cases num with
    | nil => simp [matchesNumber] at hnum
    | cons c t => simp [lazyFrom, hnum]
  | cons c pre ih =>
    intro hlt hmax
    have h0 : matchesNumber (c :: (pre ++ num)) = false :=
      hmax [] (c :: pre) rfl (by simp)
    have hc : isLineTerminator c = false := hlt c (List.mem_cons_self _ _)
    have := ih (fun d hd => hlt d (List.mem_cons_of_mem _ hd))
      (fun p1 p2 hp hne => hmax (c :: p1) p2 (by rw [hp]; rfl) hne)
    simp [lazyFrom, h0, hc, this]

theorem matchPercent_of_lazyFrom (e : List Char) (m : List Char × List Char)
    (h : lazyFrom e = some m) : matchPercent e = some m := by
  cases e with
  | nil => simp [lazyFrom] at h
  | cons c t => simp [matchPercent, h]

/-- C9: for every buffer with no trailing number (the empty buffer, or a
buffer whose last character is neither a digit nor a decimal point
immediately preceded by a digit), `percent` leaves the state (buffer,
display) unchanged. -/
theorem percent_no_trailing_number (s : State)
    (h : endsInNumber s.expression = false) : percent s = s := by
  have hnone : matchPercent s.expression = none := by
    apply matchPercent_none
    intro p t hpt
    by_contra hm
    have hm' : matchesNumber t = true := by simpa using hm
    have := endsInNumber_of_NumLit p t (NumLit_of_matchesNumber t hm')
    rw [← hpt, h] at this
    exact absurd this (by decide)
  simp [percent, hnone]

theorem percent_no_trailing_number_witness :
    percent (shown "5*".toList) = shown "5*".toList ∧ percent (shown []) = shown [] :=
  ⟨percent_no_trailing_number (shown "5*".toList) (by decide),
   percent_no_trailing_number (shown []) (by decide)⟩

/-- On a buffer `pre ++ num` whose prefix has no line terminator and whose
trailing part is the longest numeric literal that ends it, `percent` divides
that number by 100 and keeps the prefix. -/
theorem percent_of_longest_literal (s : State) (pre num : List Char)
    (hs : s.expression = pre ++ num) (hnum : NumLit num)
    (hmax : ∀ p n, pre ++ num = p ++ n → NumLit n → n.length ≤ num.length)
    (hlt : ∀ c ∈ pre, isLineTerminator c = false) :
    percent s = updateDisplay
      { s with expression := pre ++ ((parseFloat num).div (Num.fin 100)).toString } := by
  have hm : matchPercent s.expression = some (pre, num) := by
    rw [hs]
    apply matchPercent_of_lazyFrom
    apply lazyFrom_some num (matchesNumber_of_NumLit num hnum) pre hlt
    intro p1 p2 hp hne
    by_contra hm
    have hm' : matchesNumber (p2 ++ num) = true := by simpa using hm
    have hlen := hmax p1 (p2 ++ num) (by rw [hp, List.append_assoc])
      (NumLit_of_matchesNumber _ hm')
    have : 0 < p2.length := List.length_pos.mpr hne
    rw [List.length_append] at hlen
    omega
  simp [percent, hm]

/-! ### The length of the buffer -/

theorem append_single_length (c : Char) (s : State) (h : s.expression.length ≤ maxLength) :
    (append [c] s).expression.length ≤ maxLength := by
  unfold append
  by_cases hfull : s.expression.length ≥ maxLength
  · simp [hfull, h]
  · simp only [hfull, if_false]
    split
    · exact h
    · split
      · simp [updateDisplay, maxLength]
      · simp only [updateDisplay, List.length_append, List.length_cons, List.length_nil]
        omega

theorem del_length (s : State) (h : s.expression.length ≤ maxLength) :
    (del s).expression.length ≤ maxLength := by
  simp only [del, updateDisplay, sliceInit, List.length_dropLast]
  omega

theorem run_length (ev : List Char → Completion) (ops : List Op) :
    ∀ s : State, s.expression.length ≤ maxLength →
      (∀ o ∈ ops, o = Op.del ∨ o = Op.clearAll ∨ ∃ c, o = Op.append [c]) →
      (run ev s ops).expression.length ≤ maxLength := by
  induction ops with
  | nil => intro s h _; exact h
  | cons o ops ih =>
    intro s h hops
    have hstep : (step ev s o).expression.length ≤ maxLength := by
      rcases hops o (List.mem_cons_self _ _) with rfl | rfl | ⟨c, rfl⟩
      · exact del_length s h
      · simp [step, clearAll, updateDisplay]
      · exact append_single_length c s h
    exact ih (step ev s o) hstep (fun o' ho' => hops o' (List.mem_cons_of_mem _ ho'))

/-- C5, amended: in every state reachable from the initial state by any
sequence of `append` (with single-character tokens), `del` and `clearAll`
operations, the buffer length is at most 30. -/
theorem buffer_length_bounded (ev : List Char → Completion) (ops : List Op)
    (hops : ∀ o ∈ ops, o = Op.del ∨ o = Op.clearAll ∨ ∃ c, o = Op.append [c]) :
    (run ev init ops).expression.length ≤ 30 :=
  run_length ev ops init (by decide) hops

theorem buffer_length_bounded_witness :
    (run hostEval init [Op.append ['1'], Op.append ['2'], Op.del, Op.clearAll,
      Op.append ['3']]).expression.length ≤ 30 :=
  buffer_length_bounded hostEval _ (by
    intro o ho
    simp only [List.mem_cons, List.mem_singleton, List.not_mem_nil, or_false] at ho
    rcases ho with rfl | rfl | rfl | rfl | rfl
    · exact Or.inr (Or.inr ⟨'1', rfl⟩)
    · exact Or.inr (Or.inr ⟨'2', rfl⟩)
    · exact Or.inl rfl
    · exact Or.inr (Or.inl rfl)
    · exact Or.inr (Or.inr ⟨'3', rfl⟩))

/-- C5 (counterexample): thirty single-character appends that build the
buffer "1+1+1+1+1+1+1+1+1+1+1+1+1+1+17", then `percent`, reach a state whose
buffer "1+1+1+1+1+1+1+1+1+1+1+1+1+1+0.17" has 32 characters. -/
theorem percent_exceeds_max_length :
    (run hostEval init
      (("1+1+1+1+1+1+1+1+1+1+1+1+1+1+17".toList.map fun c => Op.append [c])
        ++ [Op.percent])).expression = "1+1+1+1+1+1+1+1+1+1+1+1+1+1+0.17".toList
    ∧ ¬ (run hostEval init
      (("1+1+1+1+1+1+1+1+1+1+1+1+1+1+17".toList.map fun c => Op.append [c])
        ++ [Op.percent])).expression.length ≤ 30 := by
  decide!

/-! ### Arithmetic expressions -/

theorem natDigitsAux_eq (n : Nat) : ∀ f acc, n < f →
    natDigitsAux f n acc = natDigits n ++ acc := by
  induction n using Nat.strong_induction_on with
  | _ n ih =>
    intro f acc hf
    obtain ⟨f', rfl⟩ : ∃ f', f = f' + 1 := ⟨f - 1, by omega⟩
    by_cases h10 : n < 10
    · simp [natDigitsAux, natDigits, h10]
    · have hlt : n / 10 < n := Nat.div_lt_self (by omega) (by decide)
      have h1 := ih (n / 10) hlt f' (digitChar (n % 10) :: acc) (by omega)
      have h2 := ih (n / 10) hlt n [digitChar (n % 10)] hlt
      simp only [natDigitsAux, natDigits, h10, if_false] at *
      rw [h1, h2, List.append_assoc]
      rfl

theorem natDigits_small (n : Nat) (h : n < 10) : natDigits n = [digitChar n] := by
  simp [natDigits, natDigitsAux, h]

theorem natDigits_step (n : Nat) (h : 10 ≤ n) :
    natDigits n = natDigits (n / 10) ++ [digitChar (n % 10)] := by
  have hlt : n / 10 < n := Nat.div_lt_self (by omega) (by decide)
  have h10 : ¬ n < 10 := by omega
  have := natDigitsAux_eq (n / 10) n [digitChar (n % 10)] hlt
  simp only [natDigits, natDigitsAux, h10, if_false]
  exact this

theorem isDigit_digitChar (d : Nat) (h : d < 10) : isDigit (digitChar d) = true := by
  interval_cases d <;> decide

theorem digitVal_digitChar (d : Nat) (h : d < 10) : digitVal (digitChar d) = d := by
  interval_cases d <;> decide

theorem natDigits_isDigit (n : Nat) : ∀ c ∈ natDigits n, isDigit c = true := by
  induction n using Nat.strong_induction_on with
  | _ n ih =>
    by_cases h10 : n < 10
    · rw [natDigits_small n h10]
      intro c hc
      rw [List.mem_singleton.mp hc]
      exact isDigit_digitChar n h10
    · rw [natDigits_step n (by omega)]
      intro c hc
      rcases List.mem_append.mp hc with h | h
      · exact ih (n / 10) (Nat.div_lt_self (by omega) (by decide)) c h
      · rw [List.mem_singleton.mp h]
        exact isDigit_digitChar _ (Nat.mod_lt _ (by decide))

theorem natDigits_ne_nil (n : Nat) : natDigits n ≠ [] := by
  by_cases h10 : n < 10
  · rw [natDigits_small n h10]; simp
  · rw [natDigits_step n (by omega)]; simp

theorem digitsVal_append (a : List Char) (c : Char) :
    digitsVal (a ++ [c]) = 10 * digitsVal a + digitVal c := by
  simp [digitsVal, List.foldl_append]

theorem digitsVal_natDigits (n : Nat) : digitsVal (natDigits n) = n := by
  induction n using Nat.strong_induction_on with
  | _ n ih =>
    by_cases h10 : n < 10
    · rw [natDigits_small n h10]
      simp [digitsVal, digitVal_digitChar n h10]
    · rw [natDigits_step n (by omega), digitsVal_append,
        ih (n / 10) (Nat.div_lt_self (by omega) (by decide)),
        digitVal_digitChar _ (Nat.mod_lt _ (by decide))]
      omega

theorem natDigits_mul_ten (m : Nat) (h : 0 < m) : natDigits (m * 10) = natDigits m ++ ['0'] := by
  rw [natDigits_step (m * 10) (by omega)]
  have h1 : m * 10 / 10 = m := by omega
  have h2 : m * 10 % 10 = 0 := by omega
  rw [h1, h2]
  rfl

theorem natDigits_mul_pow (m : Nat) (h : 0 < m) (z : Nat) :
    natDigits (m * 10 ^ z) = natDigits m ++ zeros z := by
  induction z with
  | zero => simp [zeros]
  | succ z ih =>
    have : m * 10 ^ (z + 1) = (m * 10 ^ z) * 10 := by ring
    rw [this, natDigits_mul_ten _ (by positivity), ih]
    simp [zeros, List.replicate_succ']

theorem natDigits_head (n : Nat) (h : 0 < n) : (natDigits n).head? ≠ some '0' := by
  induction n using Nat.strong_induction_on with
  | _ n ih =>
    by_cases h10 : n < 10
    · rw [natDigits_small n h10]
      interval_cases n <;> simp [digitChar]
    · rw [natDigits_step n (by omega)]
      have hne := natDigits_ne_nil (n / 10)
      have := ih (n / 10) (Nat.div_lt_self (by omega) (by decide)) (by omega)
      cases hd : natDigits (n / 10) with
      | nil => exact absurd hd hne
      | cons c t =>
        rw [hd] at this
        simpa using this

theorem natDigits_length_bounds (n : Nat) (h : 0 < n) :
    10 ^ ((natDigits n).length - 1) ≤ n ∧ n < 10 ^ (natDigits n).length := by
  induction n using Nat.strong_induction_on with
  | _ n ih =>
    by_cases h10 : n < 10
    · rw [natDigits_small n h10]
      simp
      omega
    · rw [natDigits_step n (by omega)]
      have hne := natDigits_ne_nil (n / 10)
      have hpos : 0 < (natDigits (n / 10)).length := List.length_pos.mpr hne
      obtain ⟨h1, h2⟩ := ih (n / 10) (Nat.div_lt_self (by omega) (by decide)) (by omega)
      simp only [List.length_append, List.length_singleton, Nat.add_sub_cancel]
      obtain ⟨k, hk⟩ : ∃ k, (natDigits (n / 10)).length = k + 1 := ⟨_, (Nat.succ_pred_eq_of_pos hpos).symm⟩
      rw [hk] at h1 h2 ⊢
      simp only [Nat.add_sub_cancel] at h1
      constructor
      · calc 10 ^ (k + 1) = 10 ^ k * 10 := by ring
          _ ≤ (n / 10) * 10 := Nat.mul_le_mul_right _ h1
          _ ≤ n := Nat.div_mul_le_self n 10
      · have : n < (n / 10 + 1) * 10 := by omega
        calc n < (n / 10 + 1) * 10 := this
          _ ≤ 10 ^ (k + 1) * 10 := Nat.mul_le_mul_right _ h2
          _ = 10 ^ (k + 1 + 1) := by ring

theorem log10Nat_eq (n : Nat) : ∀ f, n ≤ f → 0 < n →
    log10Nat f n + 1 = (natDigits n).length := by
  induction n using Nat.strong_induction_on with
  | _ n ih =>
    intro f hf hn
    obtain ⟨f', rfl⟩ : ∃ f', f = f' + 1 := ⟨f - 1, by omega⟩
    by_cases h10 : n < 10
    · simp [log10Nat, h10, natDigits_small n h10]
    · have hlt : n / 10 < n := Nat.div_lt_self (by omega) (by decide)
      have := ih (n / 10) hlt f' (by omega) (by omega)
      rw [natDigits_step n (by omega)]
      simp [log10Nat, h10, this]

theorem log2Nat_bounds (n : Nat) : ∀ f, n ≤ f → 0 < n →
    2 ^ log2Nat f n ≤ n ∧ n < 2 ^ (log2Nat f n + 1) := by
  induction n using Nat.strong_induction_on with
  | _ n ih =>
    intro f hf hn
    obtain ⟨f', rfl⟩ : ∃ f', f = f' + 1 := ⟨f - 1, by omega⟩
    by_cases h2 : n < 2
    · have : n = 1 := by omega
      subst this
      simp [log2Nat]
    · have hlt : n / 2 < n := Nat.div_lt_self (by omega) (by decide)
      obtain ⟨h1, h3⟩ := ih (n / 2) hlt f' (by omega) (by omega)
      simp only [log2Nat, h2, if_false]
      constructor
      · calc 2 ^ (log2Nat f' (n / 2) + 1) = 2 ^ log2Nat f' (n / 2) * 2 := by ring
          _ ≤ (n / 2) * 2 := Nat.mul_le_mul_right _ h1
          _ ≤ n := Nat.div_mul_le_self n 2
      · have : n < (n / 2 + 1) * 2 := by omega
        calc n < (n / 2 + 1) * 2 := this
          _ ≤ 2 ^ (log2Nat f' (n / 2) + 1) * 2 := Nat.mul_le_mul_right _ h3
          _ = 2 ^ (log2Nat f' (n / 2) + 1 + 1) := by ring

theorem pow2_natCast (k : Nat) : pow2 (k : Int) = ((2 ^ k : Nat) : ℚ) := by
  simp [pow2]

theorem pow2_neg_natCast (k : Nat) : pow2 (-(k : Int)) = 1 / ((2 ^ k : Nat) : ℚ) := by
  cases k with
  | zero => simp [pow2]
  | succ k =>
    have : ¬ (0 : Int) ≤ -((k + 1 : Nat) : Int) := by omega
    simp only [pow2, this, if_false, neg_neg, Int.toNat_ofNat]

theorem roundHalfEven_natCast (m : Nat) : roundHalfEven (m : ℚ) = m := by
  simp [roundHalfEven]

theorem ilog2_natCast (n : Nat) (hn : 0 < n) : ilog2 (n : ℚ) = (log2Nat n n : Int) := by
  have hb := (log2Nat_bounds n n le_rfl hn).1
  have h1 : log2Nat 1 1 = 0 := by decide
  simp only [ilog2, Rat.num_natCast, Int.natAbs_ofNat, Rat.den_natCast, h1, Nat.cast_zero, sub_zero]
  rw [pow2_natCast]
  have : ((2 ^ log2Nat n n : Nat) : ℚ) ≤ (n : ℚ) := by exact_mod_cast hb
  rw [if_pos this]

theorem roundMag_natCast (n : Nat) (hn : 0 < n) (hlt : n < 2 ^ 53) : roundMag (n : ℚ) = n := by
  obtain ⟨hb1, hb2⟩ := log2Nat_bounds n n le_rfl hn
  have hL : log2Nat n n ≤ 52 := by
    by_contra h
    have h53 : 53 ≤ log2Nat n n := by omega
    have : 2 ^ 53 ≤ 2 ^ log2Nat n n := Nat.pow_le_pow_right (by decide) h53
    omega
  obtain ⟨k, hk⟩ : ∃ k : Nat, 52 = log2Nat n n + k := ⟨52 - log2Nat n n, by omega⟩
  have hs : max ((log2Nat n n : Int) - 52) (-1074) = -(k : Int) := by
    have : (log2Nat n n : Int) - 52 = -(k : Int) := by omega
    rw [this]
    apply max_eq_left
    omega
  unfold roundMag
  simp only [ilog2_natCast n hn, hs, pow2_neg_natCast]
  have hdiv : (n : ℚ) / (1 / ((2 ^ k : Nat) : ℚ)) = ((n * 2 ^ k : Nat) : ℚ) := by
    push_cast
    field_simp
  rw [hdiv, roundHalfEven_natCast]
  push_cast
  field_simp

theorem ofRat_natCast (n : Nat) (hn : 0 < n) (hlt : n < 2 ^ 53) (z : Bool) :
    ofRat (n : ℚ) z = Num.fin n := by
  have hq : (n : ℚ) ≠ 0 := by exact_mod_cast (Nat.pos_iff_ne_zero.mp hn)
  have hpos : (0 : ℚ) < n := by exact_mod_cast hn
  have habs : |(n : ℚ)| = n := abs_of_pos hpos
  have hnl : ¬ (n : ℚ) < 0 := not_lt.mpr hpos.le
  have hbig : ¬ pow2 1024 ≤ (n : ℚ) := by
    have : pow2 1024 = ((2 ^ 1024 : Nat) : ℚ) := pow2_natCast 1024
    rw [this, not_le]
    have h2 : 2 ^ 53 < 2 ^ 1024 := Nat.pow_lt_pow_right (by decide) (by decide)
    exact_mod_cast (lt_trans hlt h2)
  unfold ofRat
  simp only [hq, if_false, habs, roundMag_natCast n hn hlt, hbig, hnl]

theorem ofRat_neg_natCast (n : Nat) (hn : 0 < n) (hlt : n < 2 ^ 53) (z : Bool) :
    ofRat (-(n : ℚ)) z = Num.fin (-(n : ℚ)) := by
  have hq : -(n : ℚ) ≠ 0 := by
    rw [neg_ne_zero]; exact_mod_cast (Nat.pos_iff_ne_zero.mp hn)
  have hpos : (0 : ℚ) < n := by exact_mod_cast hn
  have habs : |(-(n : ℚ))| = n := by rw [abs_neg]; exact abs_of_pos hpos
  have hnl : -(n : ℚ) < 0 := by linarith
  have hbig : ¬ pow2 1024 ≤ (n : ℚ) := by
    have : pow2 1024 = ((2 ^ 1024 : Nat) : ℚ) := pow2_natCast 1024
    rw [this, not_le]
    have h2 : 2 ^ 53 < 2 ^ 1024 := Nat.pow_lt_pow_right (by decide) (by decide)
    exact_mod_cast (lt_trans hlt h2)
  unfold ofRat
  simp only [hq, if_false, habs, roundMag_natCast n hn hlt, hbig, hnl, if_true]
  simp [hq]
  exact_mod_cast (Nat.pos_iff_ne_zero.mp hn)

theorem ofRat_intCast (v : Int) (h : |v| < 2 ^ 53) (z : Bool) : Rep (ofRat (v : ℚ) z) v := by
  rcases lt_trichotomy v 0 with hv | hv | hv
  · obtain ⟨n, rfl⟩ : ∃ n : Nat, v = -(n : Int) := ⟨v.natAbs, by omega⟩
    have hn : 0 < n := by omega
    have hlt : n < 2 ^ 53 := by
      have : |(-(n : Int))| = n := by rw [abs_neg]; exact abs_of_nonneg (by omega)
      rw [this] at h
      exact_mod_cast h
    left
    have := ofRat_neg_natCast n hn hlt z
    push_cast
    exact this
  · subst hv
    cases z
    · left; simp [ofRat]
    · right; simp [ofRat]
  · obtain ⟨n, rfl⟩ : ∃ n : Nat, v = (n : Int) := ⟨v.toNat, by omega⟩
    have hn : 0 < n := by omega
    have hlt : n < 2 ^ 53 := by
      have : |((n : Int))| = n := abs_of_nonneg (by omega)
      rw [this] at h
      exact_mod_cast h
    left
    have := ofRat_natCast n hn hlt z
    push_cast
    exact this

theorem Rep.val_eq {x : Num} {v : Int} (h : Rep x v) : x.val = (v : ℚ) := by
  rcases h with rfl | ⟨rfl, rfl⟩
  · rfl
  · simp [Num.val]

theorem rep_add {x y : Num} {a b : Int} (hx : Rep x a) (hy : Rep y b)
    (h : |a + b| < 2 ^ 53) : Rep (x.add y) (a + b) := by
  have hv : x.val + y.val = ((a + b : Int) : ℚ) := by
    rw [hx.val_eq, hy.val_eq]; push_cast; rfl
  have : x.add y = ofRat (x.val + y.val) (x.isNeg && y.isNeg) := by
    rcases hx with rfl | ⟨_, rfl⟩ <;> rcases hy with rfl | ⟨_, rfl⟩ <;> rfl
  rw [this, hv]
  exact ofRat_intCast _ h _

theorem rep_neg {y : Num} {b : Int} (hy : Rep y b) : Rep y.neg (-b) := by
  rcases hy with rfl | ⟨rfl, rfl⟩
  · by_cases hb : b = 0
    · subst hb
      right
      simp [Num.neg]
    · left
      have : (b : ℚ) ≠ 0 := by exact_mod_cast hb
      simp [Num.neg, this]
  · left
    simp [Num.neg]

theorem rep_sub {x y : Num} {a b : Int} (hx : Rep x a) (hy : Rep y b)
    (h : |a - b| < 2 ^ 53) : Rep (x.sub y) (a - b) := by
  have := rep_add hx (rep_neg hy) (by rw [← sub_eq_add_neg]; exact h)
  rw [← sub_eq_add_neg] at this
  exact this

theorem rep_mul {x y : Num} {a b : Int} (hx : Rep x a) (hy : Rep y b)
    (h : |a * b| < 2 ^ 53) : Rep (x.mul y) (a * b) := by
  have hv : x.val * y.val = ((a * b : Int) : ℚ) := by
    rw [hx.val_eq, hy.val_eq]; push_cast; rfl
  have : x.mul y = ofRat (x.val * y.val) (xor x.isNeg y.isNeg) := by
    rcases hx with rfl | ⟨_, rfl⟩ <;> rcases hy with rfl | ⟨_, rfl⟩ <;> rfl
  rw [this, hv]
  exact ofRat_intCast _ h _

theorem pow10_natCast (k : Nat) : pow10 (k : Int) = ((10 ^ k : Nat) : ℚ) := by
  simp [pow10]

theorem pow10_neg_natCast (k : Nat) : pow10 (-(k : Int)) = 1 / ((10 ^ k : Nat) : ℚ) := by
  cases k with
  | zero => simp [pow10]
  | succ k =>
    have : ¬ (0 : Int) ≤ -((k + 1 : Nat) : Int) := by omega
    simp only [pow10, this, if_false, neg_neg, Int.toNat_ofNat]

theorem ilog10_natCast (n : Nat) (hn : 0 < n) :
    ilog10 (n : ℚ) + 1 = ((natDigits n).length : Int) := by
  have h1 : (1 : ℚ) ≤ n := by exact_mod_cast hn
  have hf : ⌊(n : ℚ)⌋.toNat = n := by simp
  simp only [ilog10, h1, if_true, hf]
  exact_mod_cast log10Nat_eq n n le_rfl hn

theorem natDigits_length_le (n k : Nat) (hn : 0 < n) (hlt : n < 10 ^ k) :
    (natDigits n).length ≤ k := by
  by_contra h
  have h1 := (natDigits_length_bounds n hn).1
  have : 10 ^ k ≤ 10 ^ ((natDigits n).length - 1) := Nat.pow_le_pow_right (by decide) (by omega)
  omega

theorem posToPrecision_natCast (n : Nat) (hn : 0 < n) (hlt : n < 10 ^ 12) :
    posToPrecision 12 (n : ℚ) = fixed12 n := by
  have hlen := natDigits_length_le n 12 hn hlt
  have hpos : 0 < (natDigits n).length := List.length_pos.mpr (natDigits_ne_nil n)
  obtain ⟨L, hL⟩ : ∃ L, (natDigits n).length = L + 1 := ⟨_, (Nat.succ_pred_eq_of_pos hpos).symm⟩
  obtain ⟨k, hk⟩ : ∃ k, 11 = L + k := ⟨11 - L, by omega⟩
  have he0 : ilog10 (n : ℚ) = (L : Int) := by
    have := ilog10_natCast n hn
    rw [hL] at this
    push_cast at this
    omega
  have hsc : pow10 ((L : Int) - ((12 - 1 : Nat) : Int)) = 1 / ((10 ^ k : Nat) : ℚ) := by
    have : (L : Int) - ((12 - 1 : Nat) : Int) = -(k : Int) := by
      simp only [Nat.reduceSub]; omega
    rw [this, pow10_neg_natCast]
  have ht : (n : ℚ) / (1 / ((10 ^ k : Nat) : ℚ)) = ((n * 10 ^ k : Nat) : ℚ) := by
    push_cast
    field_simp
  have hM : n * 10 ^ k < 10 ^ 12 := by
    have h2 := (natDigits_length_bounds n hn).2
    rw [hL] at h2
    calc n * 10 ^ k < 10 ^ (L + 1) * 10 ^ k := Nat.mul_lt_mul_of_pos_right h2 (by positivity)
      _ = 10 ^ 12 := by rw [← pow_add]; congr 1; omega
  have hne : n * 10 ^ k ≠ 10 ^ 12 := by omega
  have hdig : natDigits (n * 10 ^ k) = natDigits n ++ zeros k := natDigits_mul_pow n hn k
  unfold posToPrecision
  simp only [he0, hsc, ht, Int.floor_natCast, Int.cast_natCast, sub_self, Int.toNat_ofNat]
  have hhalf : (0 : ℚ) < 1 / 2 := by norm_num
  simp only [hhalf, if_true, hne, if_false, hdig]
  have hc1 : ¬ ((L : Int) < -6 ∨ ((12 : Nat) : Int) ≤ (L : Int)) := by omega
  rw [if_neg hc1]
  unfold fixed12
  by_cases h12 : L = 11
  · subst h12
    have hk0 : k = 0 := by omega
    subst hk0
    simp [hL, zeros]
  · have hc2 : ¬ ((L : Int) = ((12 : Nat) : Int) - 1) := by omega
    have hc3 : (0 : Int) ≤ (L : Int) := by omega
    rw [if_neg hc2, if_pos hc3]
    have hlen12 : ¬ (natDigits n).length = 12 := by omega
    rw [if_neg hlen12]
    have hk' : 12 - (natDigits n).length = k := by omega
    have htk : (natDigits n ++ zeros k).take ((L : Int).toNat + 1) = natDigits n := by
      simp only [Int.toNat_ofNat]
      rw [← hL, List.take_left']
      rfl
    have hdr : (natDigits n ++ zeros k).drop ((L : Int).toNat + 1) = zeros k := by
      simp only [Int.toNat_ofNat]
      rw [← hL, List.drop_left']
      rfl
    rw [htk, hdr, hk']

theorem zeros_isDigit (k : Nat) : ∀ c ∈ zeros k, isDigit c = true := by
  intro c hc
  rw [zeros, List.mem_replicate] at hc
  rw [hc.2]
  decide

theorem digitsVal_zeros (k : Nat) : digitsVal (zeros k) = 0 := by
  induction k with
  | zero => rfl
  | succ k ih =>
    have : zeros (k + 1) = zeros k ++ ['0'] := by simp [zeros, List.replicate_succ']
    rw [this]
    simp only [digitsVal, List.foldl_append, List.foldl_cons, List.foldl_nil] at ih ⊢
    rw [ih]
    decide

theorem dropWhile_of_all_false (p : Char → Bool) (l : List Char) (h : ∀ c ∈ l, p c = false) :
    l.dropWhile p = l := by
  cases l with
  | nil => rfl
  | cons c t => simp [List.dropWhile, h c (List.mem_cons_self _ _)]

theorem trim_of_all_false (l : List Char) (h : ∀ c ∈ l, isSpace c = false) :
    ((l.dropWhile isSpace).reverse.dropWhile isSpace).reverse = l := by
  rw [dropWhile_of_all_false isSpace l h,
    dropWhile_of_all_false isSpace l.reverse (fun c hc => h c (List.mem_reverse.mp hc)),
    List.reverse_reverse]

theorem isSpace_of_isDigit (c : Char) (h : isDigit c = true) : isSpace c = false := by
  have h1 : 48 ≤ c.toNat ∧ c.toNat ≤ 57 := by
    simp only [isDigit, decide_eq_true_eq] at h
    exact ⟨h.1, h.2⟩
  simp only [isSpace, isWhiteSpace, isLineTerminator, Bool.or_eq_false_iff, decide_eq_false_iff_not]
  omega

theorem fixed12_chars (n : Nat) : ∀ c ∈ fixed12 n, isDigit c = true ∨ c = '.' := by
  intro c hc
  unfold fixed12 at hc
  split at hc
  · exact Or.inl (natDigits_isDigit n c hc)
  · rcases List.mem_append.mp hc with h | h
    · exact Or.inl (natDigits_isDigit n c h)
    · rcases List.mem_cons.mp h with h | h
      · exact Or.inr h
      · exact Or.inl (zeros_isDigit _ c h)

theorem fixed12_not_space (n : Nat) : ∀ c ∈ fixed12 n, isSpace c = false := by
  intro c hc
  rcases fixed12_chars n c hc with h | h
  · exact isSpace_of_isDigit c h
  · rw [h]; decide

theorem scanDecimal_fixed12 (n : Nat) : scanDecimal (fixed12 n) = some ((n : ℚ), []) := by
  have hne := natDigits_ne_nil n
  have hds := natDigits_isDigit n
  unfold fixed12
  split
  · have h := takeWhile_all isDigit (natDigits n) hds
    have h0 : digitsVal [] = 0 := rfl
    simp [scanDecimal, h.1, h.2, hne, scanExponent, decimalVal, digitsVal_natDigits, pow10, h0]
  · have h := takeWhile_run isDigit (natDigits n) '.' (zeros (12 - (natDigits n).length)) hds
      (by decide)
    have hz := takeWhile_all isDigit _ (zeros_isDigit (12 - (natDigits n).length))
    simp [scanDecimal, h.1, h.2, hz.1, hz.2, hne, scanExponent, decimalVal, digitsVal_natDigits,
      pow10, digitsVal_zeros]

theorem fixed12_head (n : Nat) : ∃ d t, fixed12 n = d :: t ∧ isDigit d = true := by
  have hne := natDigits_ne_nil n
  have hds := natDigits_isDigit n
  cases hd : natDigits n with
  | nil => exact absurd hd hne
  | cons d t =>
    have hdd : isDigit d = true := hds d (by rw [hd]; exact List.mem_cons_self _ _)
    unfold fixed12
    rw [hd]
    split
    · exact ⟨d, t, rfl, hdd⟩
    · exact ⟨d, _, rfl, hdd⟩

theorem scanSigned_fixed12 (n : Nat) :
    scanSigned (fixed12 n) = some (ofRat (n : ℚ) false, []) := by
  obtain ⟨d, t, hdt, hd⟩ := fixed12_head n
  have h1 : d ≠ '-' := by rintro rfl; exact absurd hd (by decide)
  have h2 : d ≠ '+' := by rintro rfl; exact absurd hd (by decide)
  have h3 : d ≠ 'I' := by rintro rfl; exact absurd hd (by decide)
  have hs := scanDecimal_fixed12 n
  rw [hdt] at hs
  have hI : "Infinity".toList.isPrefixOf (d :: t) = false := by
    show ('I' :: "nfinity".toList).isPrefixOf (d :: t) = false
    simp [List.isPrefixOf, Ne.symm h3]
  unfold scanSigned
  rw [hdt]
  simp only [List.head?_cons, Option.some.injEq, h1, h2, or_self, if_false, hI, hs]
  simp

theorem scanSigned_neg_fixed12 (n : Nat) :
    scanSigned ('-' :: fixed12 n) = some (ofRat (-(n : ℚ)) true, []) := by
  obtain ⟨d, t, hdt, hd⟩ := fixed12_head n
  have h3 : d ≠ 'I' := by rintro rfl; exact absurd hd (by decide)
  have hs := scanDecimal_fixed12 n
  rw [hdt] at hs
  have hI : "Infinity".toList.isPrefixOf (d :: t) = false := by
    show ('I' :: "nfinity".toList).isPrefixOf (d :: t) = false
    simp [List.isPrefixOf, Ne.symm h3]
  unfold scanSigned
  rw [hdt]
  simp only [List.head?_cons, true_or, if_true, List.tail_cons, hI, hs]
  simp

theorem stringToNumber_fixed12 (n : Nat) (hlt : n < 2 ^ 53) :
    stringToNumber (fixed12 n) = Num.fin n := by
  obtain ⟨d, t, hdt, _⟩ := fixed12_head n
  have hne : fixed12 n ≠ [] := by rw [hdt]; simp
  unfold stringToNumber
  simp only [trim_of_all_false _ (fixed12_not_space n), hne, if_false, scanSigned_fixed12]
  rcases Nat.eq_zero_or_pos n with rfl | hn
  · simp [ofRat]
  · exact ofRat_natCast n hn hlt false

theorem stringToNumber_neg_fixed12 (n : Nat) (hn : 0 < n) (hlt : n < 2 ^ 53) :
    stringToNumber ('-' :: fixed12 n) = Num.fin (-(n : ℚ)) := by
  have hsp : ∀ c ∈ '-' :: fixed12 n, isSpace c = false := by
    intro c hc
    rcases List.mem_cons.mp hc with h | h
    · rw [h]; decide
    · exact fixed12_not_space n c h
  unfold stringToNumber
  simp only [trim_of_all_false _ hsp, scanSigned_neg_fixed12]
  simp only [List.cons_ne_nil, if_false]
  exact ofRat_neg_natCast n hn hlt true

theorem shortCand_natCast (n : Nat) (hn : 0 < n) (hlt : n < 10 ^ 12) (len k j : Nat)
    (hlen : len = (natDigits n).length) (hk : 1 ≤ k) (hj : len = k + j) :
    shortCand (n : ℚ) (len : Int) k
      = if 10 ^ j ∣ n then some (n / 10 ^ j) else none := by
  have hsc : pow10 ((len : Int) - (k : Int)) = ((10 ^ j : Nat) : ℚ) := by
    have : (len : Int) - (k : Int) = (j : Int) := by omega
    rw [this, pow10_natCast]
  have hfl : ⌊(n : ℚ) / ((10 ^ j : Nat) : ℚ)⌋.toNat = n / 10 ^ j := by
    rw [Rat.floor_natCast_div_natCast]
    exact_mod_cast Int.toNat_ofNat (n / 10 ^ j)
  have hb := natDigits_length_bounds n hn
  rw [← hlen] at hb
  have hjle : 10 ^ j ≤ n := le_trans (Nat.pow_le_pow_right (by decide) (by omega)) hb.1
  have hpj : 0 < 10 ^ j := by positivity
  have hfpos : 0 < n / 10 ^ j := Nat.div_pos hjle hpj
  have hj12 : 10 ^ j < 10 ^ 12 := lt_of_le_of_lt hjle hlt
  have hlo_le : n / 10 ^ j * 10 ^ j ≤ n := Nat.div_mul_le_self n (10 ^ j)
  have hhi_gt : n < (n / 10 ^ j + 1) * 10 ^ j := by
    have := Nat.lt_div_mul_add (a := n) hpj
    rw [Nat.add_mul, Nat.one_mul]
    exact this
  have hhi_le : (n / 10 ^ j + 1) * 10 ^ j ≤ n + 10 ^ j := by
    rw [Nat.add_mul, Nat.one_mul]
    omega
  have h53 : (10 : Nat) ^ 12 + 10 ^ 12 < 2 ^ 53 := by norm_num
  have hlo : ofRat (((n / 10 ^ j : Nat) : ℚ) * ((10 ^ j : Nat) : ℚ)) false
      = Num.fin ((n / 10 ^ j * 10 ^ j : Nat) : ℚ) := by
    have := ofRat_natCast (n / 10 ^ j * 10 ^ j) (Nat.mul_pos hfpos hpj) (by omega) false
    rw [← this]
    push_cast
    rfl
  have hhi : ofRat (((n / 10 ^ j + 1 : Nat) : ℚ) * ((10 ^ j : Nat) : ℚ)) false
      = Num.fin (((n / 10 ^ j + 1) * 10 ^ j : Nat) : ℚ) := by
    have := ofRat_natCast ((n / 10 ^ j + 1) * 10 ^ j) (Nat.mul_pos (by omega) hpj) (by omega) false
    rw [← this]
    push_cast
    rfl
  have hhi_ne : ¬ (Num.fin (((n / 10 ^ j + 1) * 10 ^ j : Nat) : ℚ) = Num.fin (n : ℚ)) := by
    intro h
    have h' := Num.fin.inj h
    have : (n / 10 ^ j + 1) * 10 ^ j = n := by exact_mod_cast h'
    omega
  have hlo_iff : (Num.fin ((n / 10 ^ j * 10 ^ j : Nat) : ℚ) = Num.fin (n : ℚ)) ↔ 10 ^ j ∣ n := by
    constructor
    · intro h
      have h' := Num.fin.inj h
      have : n / 10 ^ j * 10 ^ j = n := by exact_mod_cast h'
      exact ⟨n / 10 ^ j, by rw [Nat.mul_comm]; exact this.symm⟩
    · intro h
      rw [Nat.div_mul_cancel h]
  unfold shortCand
  simp only [hsc, hfl, hlo, hhi, hhi_ne, hlo_iff, decide_False, Bool.and_false,
    Bool.false_eq_true, if_false, decide_eq_true_eq]

theorem shortAux_natCast (n : Nat) (hn : 0 < n) (hlt : n < 10 ^ 12) (len : Nat)
    (hlen : len = (natDigits n).length) :
    ∀ r k, 1 ≤ k → k ≤ len → len - k < r →
      ∃ j, j < len ∧ 10 ^ j ∣ n ∧ shortAux (n : ℚ) (len : Int) r k = (n / 10 ^ j, len - j) := by
  intro r
  induction r with
  | zero => intro k _ _ h; omega
  | succ r ih =>
    intro k hk1 hkl hr
    obtain ⟨j, hj⟩ : ∃ j, len = k + j := ⟨len - k, by omega⟩
    have hc := shortCand_natCast n hn hlt len k j hlen hk1 hj
    by_cases hdiv : 10 ^ j ∣ n
    · refine ⟨j, by omega, hdiv, ?_⟩
      rw [if_pos hdiv] at hc
      simp only [shortAux, hc]
      congr 1
      omega
    · rw [if_neg hdiv] at hc
      have hj0 : j ≠ 0 := by
        rintro rfl
        exact hdiv (by simp)
      obtain ⟨j', hj', hd', he'⟩ := ih (k + 1) (by omega) (by omega) (by omega)
      exact ⟨j', hj', hd', by simp only [shortAux, hc]; exact he'⟩

theorem posToString_natCast (n : Nat) (hn : 0 < n) (hlt : n < 10 ^ 12) :
    posToString (n : ℚ) = natDigits n := by
  have hlen12 := natDigits_length_le n 12 hn hlt
  have hpos : 0 < (natDigits n).length := List.length_pos.mpr (natDigits_ne_nil n)
  have hn0 := ilog10_natCast n hn
  obtain ⟨j, hj, hdiv, hs⟩ := shortAux_natCast n hn hlt _ rfl 20 1 le_rfl hpos (by omega)
  obtain ⟨u, hu⟩ := hdiv
  have hupos : 0 < u := by
    rcases Nat.eq_zero_or_pos u with h | h
    · rw [h] at hu; omega
    · exact h
  have hdivu : n / 10 ^ j = u := by
    rw [hu]; exact Nat.mul_div_cancel_left u (by positivity)
  have hdig : natDigits n = natDigits u ++ zeros j := by
    rw [hu, Nat.mul_comm]; exact natDigits_mul_pow u hupos j
  have hlenu : (natDigits u).length + j = (natDigits n).length := by
    rw [hdig]; simp [zeros]
  have hune : ¬ u = 10 ^ ((natDigits n).length - j) := by
    have := (natDigits_length_bounds u hupos).2
    have h2 : (natDigits n).length - j = (natDigits u).length := by omega
    rw [h2]
    omega
  unfold posToString
  simp only [hn0, hs, hdivu, hune, if_false]
  have hc : ((natDigits u).length : Int) ≤ ((natDigits n).length : Int)
      ∧ ((natDigits n).length : Int) ≤ 21 := by omega
  rw [if_pos hc, hdig]
  congr 2
  simp only [List.length_append, zeros, List.length_replicate]
  omega

theorem toString_intCast (v : Int) (h : |v| < 10 ^ 12) :
    (Num.fin (v : ℚ)).toString
      = if v < 0 then '-' :: natDigits v.natAbs else natDigits v.natAbs := by
  rcases lt_trichotomy v 0 with hv | hv | hv
  · obtain ⟨n, rfl⟩ : ∃ n : Nat, v = -(n : Int) := ⟨v.natAbs, by omega⟩
    have hn : 0 < n := by omega
    have hlt : n < 10 ^ 12 := by
      have : |(-(n : Int))| = n := by rw [abs_neg]; exact abs_of_nonneg (by omega)
      rw [this] at h
      exact_mod_cast h
    have hq : ((-(n : Int) : Int) : ℚ) = -(n : ℚ) := by push_cast; rfl
    have hne : -(n : ℚ) ≠ 0 := by
      rw [neg_ne_zero]; exact_mod_cast (Nat.pos_iff_ne_zero.mp hn)
    have hneg : -(n : ℚ) < 0 := by
      have : (0 : ℚ) < n := by exact_mod_cast hn
      linarith
    rw [hq]
    simp only [Num.toString, hne, if_false, hneg, if_true, neg_neg, posToString_natCast n hn hlt,
      hv, Int.natAbs_neg, Int.natAbs_ofNat]
  · subst hv
    simp [Num.toString, natDigits, natDigitsAux]
    rfl
  · obtain ⟨n, rfl⟩ : ∃ n : Nat, v = (n : Int) := ⟨v.toNat, by omega⟩
    have hn : 0 < n := by omega
    have hlt : n < 10 ^ 12 := by
      have : |((n : Int))| = n := abs_of_nonneg (by omega)
      rw [this] at h
      exact_mod_cast h
    have hq : (((n : Int) : Int) : ℚ) = (n : ℚ) := by push_cast; rfl
    have hne : (n : ℚ) ≠ 0 := by exact_mod_cast (Nat.pos_iff_ne_zero.mp hn)
    have hneg : ¬ (n : ℚ) < 0 := by
      have : (0 : ℚ) < n := by exact_mod_cast hn
      linarith
    have hv' : ¬ (n : Int) < 0 := by omega
    rw [hq]
    simp only [Num.toString, hne, if_false, hneg, posToString_natCast n hn hlt, hv',
      Int.natAbs_ofNat]

theorem isWhiteSpace_of_isDigit (c : Char) (h : isDigit c = true) : isWhiteSpace c = false := by
  have h1 : 48 ≤ c.toNat ∧ c.toNat ≤ 57 := by
    simp only [isDigit, decide_eq_true_eq] at h
    exact ⟨h.1, h.2⟩
  simp only [isWhiteSpace, Bool.or_eq_false_iff, decide_eq_false_iff_not]
  omega

theorem scanNumber_natDigits (n : Nat) (rest : List Char) (h : Delim rest) :
    scanNumber (natDigits n ++ rest) = (Tok.num (n : ℚ), rest) := by
  obtain ⟨x, r, rfl, hx⟩ := h
  have hxd : isDigit x = false := by rcases hx with rfl | rfl | rfl | rfl <;> decide
  have hxdot : x ≠ '.' := by rcases hx with rfl | rfl | rfl | rfl <;> decide
  have htw := takeWhile_run isDigit (natDigits n) x r (natDigits_isDigit n) hxd
  have hlead : ¬ ((natDigits n).head? = some '0' ∧ 1 < (natDigits n).length) := by
    rintro ⟨h0, h1⟩
    rcases Nat.eq_zero_or_pos n with rfl | hn
    · rw [natDigits_small 0 (by decide)] at h1
      simp at h1
    · exact natDigits_head n hn h0
  have hval : decimalVal (natDigits n) [] = (n : ℚ) := by
    have h0 : digitsVal [] = 0 := rfl
    simp [decimalVal, digitsVal_natDigits, h0]
  unfold scanNumber
  simp only [htw.1, htw.2]
  split
  · next r' heq =>
    simp only [List.cons.injEq] at heq
    exact absurd heq.1 hxdot
  · rw [if_neg hlead, hval]

theorem lex_digit (f : Nat) (d : Char) (cs : List Char) (hw : isWhiteSpace d = false)
    (hd : isDigit d = true) :
    lex (f + 1) (d :: cs) = (scanNumber (d :: cs)).1 :: lex f (scanNumber (d :: cs)).2 := by
  rw [lex]
  simp only [hw, hd, Bool.true_or, if_true]
  simp

theorem lex_plus_cons (f : Nat) (c : Char) (cs : List Char) (hne : c ≠ '+') :
    lex (f + 1) ('+' :: c :: cs) = Tok.plus :: lex f (c :: cs) := by
  have hw : isWhiteSpace '+' = false := by decide
  have hdg : isDigit '+' = false := by decide
  rw [lex]
  simp [hw, hdg, hne]

theorem lex_minus_cons (f : Nat) (c : Char) (cs : List Char) (hne : c ≠ '-') :
    lex (f + 1) ('-' :: c :: cs) = Tok.minus :: lex f (c :: cs) := by
  have hw : isWhiteSpace '-' = false := by decide
  have hdg : isDigit '-' = false := by decide
  rw [lex]
  simp [hw, hdg, hne]

theorem lex_star_cons (f : Nat) (c : Char) (cs : List Char) (hne : c ≠ '*') :
    lex (f + 1) ('*' :: c :: cs) = Tok.star :: lex f (c :: cs) := by
  have hw : isWhiteSpace '*' = false := by decide
  have hdg : isDigit '*' = false := by decide
  rw [lex]
  simp [hw, hdg, hne]

theorem lex_lparen (s : List Char) (f : Nat) :
    lex (f + 1) ('(' :: s) = Tok.lparen :: lex f s := by
  have hw : isWhiteSpace '(' = false := by decide
  have hdg : isDigit '(' = false := by decide
  rw [lex]
  simp [hw, hdg]

theorem lex_rparen (s : List Char) (f : Nat) :
    lex (f + 1) (')' :: s) = Tok.rparen :: lex f s := by
  have hw : isWhiteSpace ')' = false := by decide
  have hdg : isDigit ')' = false := by decide
  rw [lex]
  simp [hw, hdg]

theorem lex_natDigits (n : Nat) (rest : List Char) (h : Delim rest) (f : Nat) :
    lex (f + 1) (natDigits n ++ rest) = Tok.num (n : ℚ) :: lex f rest := by
  have hs := scanNumber_natDigits n rest h
  cases hd : natDigits n with
  | nil => exact absurd hd (natDigits_ne_nil n)
  | cons d t =>
    have hdd : isDigit d = true := natDigits_isDigit n d (by rw [hd]; exact List.mem_cons_self _ _)
    rw [hd] at hs
    simp only [List.cons_append] at hs ⊢
    rw [lex_digit f d _ (isWhiteSpace_of_isDigit d hdd) hdd, hs]

theorem render_head (e : AExp) : ∃ c t, e.render = c :: t ∧ (isDigit c = true ∨ c = '(') := by
  induction e with
  | lit n =>
    cases hd : natDigits n with
    | nil => exact absurd hd (natDigits_ne_nil n)
    | cons d t =>
      exact ⟨d, t, hd, Or.inl (natDigits_isDigit n d (by rw [hd]; exact List.mem_cons_self _ _))⟩
  | add a b iha _ =>
    obtain ⟨c, t, h, hc⟩ := iha
    exact ⟨c, t ++ '+' :: b.render, by simp [AExp.render, h], hc⟩
  | sub a b iha _ =>
    obtain ⟨c, t, h, hc⟩ := iha
    exact ⟨c, t ++ '-' :: b.render, by simp [AExp.render, h], hc⟩
  | mul a b iha _ =>
    obtain ⟨c, t, h, hc⟩ := iha
    exact ⟨c, t ++ '*' :: b.render, by simp [AExp.render, h], hc⟩
  | paren a _ => exact ⟨'(', a.render ++ [')'], rfl, Or.inr rfl⟩

theorem lex_plus (e : AExp) (rest : List Char) (f : Nat) :
    lex (f + 1) ('+' :: (e.render ++ rest)) = Tok.plus :: lex f (e.render ++ rest) := by
  obtain ⟨c, t, h, hc⟩ := render_head e
  have hne : c ≠ '+' := by
    rcases hc with h | rfl
    · rintro rfl; exact absurd h (by decide)
    · decide
  rw [h]
  exact lex_plus_cons f c _ hne

theorem lex_minus (e : AExp) (rest : List Char) (f : Nat) :
    lex (f + 1) ('-' :: (e.render ++ rest)) = Tok.minus :: lex f (e.render ++ rest) := by
  obtain ⟨c, t, h, hc⟩ := render_head e
  have hne : c ≠ '-' := by
    rcases hc with h | rfl
    · rintro rfl; exact absurd h (by decide)
    · decide
  rw [h]
  exact lex_minus_cons f c _ hne

theorem lex_star (e : AExp) (rest : List Char) (f : Nat) :
    lex (f + 1) ('*' :: (e.render ++ rest)) = Tok.star :: lex f (e.render ++ rest) := by
  obtain ⟨c, t, h, hc⟩ := render_head e
  have hne : c ≠ '*' := by
    rcases hc with h | rfl
    · rintro rfl; exact absurd h (by decide)
    · decide
  rw [h]
  exact lex_star_cons f c _ hne

theorem lex_render (e : AExp) : ∀ (rest : List Char) (f : Nat), Delim rest →
    (e.render ++ rest).length < f →
    ∃ f', rest.length < f' ∧ lex f (e.render ++ rest) = e.toks ++ lex f' rest := by
  induction e with
  | lit n =>
    intro rest f hd hf
    obtain ⟨f', rfl⟩ : ∃ f', f = f' + 1 := ⟨f - 1, by omega⟩
    have hpos : 0 < (natDigits n).length := List.length_pos.mpr (natDigits_ne_nil n)
    refine ⟨f', ?_, ?_⟩
    · simp only [AExp.render, List.length_append] at hf; omega
    · simp only [AExp.render, AExp.toks]
      exact lex_natDigits n rest hd f'
  | add a b iha ihb =>
    intro rest f hd hf
    simp only [AExp.render, List.append_assoc, List.cons_append] at hf ⊢
    obtain ⟨f1, hf1, h1⟩ := iha ('+' :: (b.render ++ rest)) f ⟨'+', _, rfl, by simp⟩ hf
    obtain ⟨f2, rfl⟩ : ∃ f2, f1 = f2 + 1 := ⟨f1 - 1, by omega⟩
    obtain ⟨f3, hf3, h3⟩ := ihb rest f2 hd (by simp only [List.length_cons] at hf1; omega)
    exact ⟨f3, hf3, by rw [h1, lex_plus, h3]; simp [AExp.toks]⟩
  | sub a b iha ihb =>
    intro rest f hd hf
    simp only [AExp.render, List.append_assoc, List.cons_append] at hf ⊢
    obtain ⟨f1, hf1, h1⟩ := iha ('-' :: (b.render ++ rest)) f ⟨'-', _, rfl, by simp⟩ hf
    obtain ⟨f2, rfl⟩ : ∃ f2, f1 = f2 + 1 := ⟨f1 - 1, by omega⟩
    obtain ⟨f3, hf3, h3⟩ := ihb rest f2 hd (by simp only [List.length_cons] at hf1; omega)
    exact ⟨f3, hf3, by rw [h1, lex_minus, h3]; simp [AExp.toks]⟩
  | mul a b iha ihb =>
    intro rest f hd hf
    simp only [AExp.render, List.append_assoc, List.cons_append] at hf ⊢
    obtain ⟨f1, hf1, h1⟩ := iha ('*' :: (b.render ++ rest)) f ⟨'*', _, rfl, by simp⟩ hf
    obtain ⟨f2, rfl⟩ : ∃ f2, f1 = f2 + 1 := ⟨f1 - 1, by omega⟩
    obtain ⟨f3, hf3, h3⟩ := ihb rest f2 hd (by simp only [List.length_cons] at hf1; omega)
    exact ⟨f3, hf3, by rw [h1, lex_star, h3]; simp [AExp.toks]⟩
  | paren a iha =>
    intro rest f hd hf
    simp only [AExp.render, List.append_assoc, List.cons_append, List.nil_append] at hf ⊢
    obtain ⟨f0, rfl⟩ : ∃ f0, f = f0 + 1 := ⟨f - 1, by omega⟩
    obtain ⟨f1, hf1, h1⟩ := iha (')' :: rest) f0 ⟨')', _, rfl, by simp⟩
      (by simp only [List.length_cons] at hf; omega)
    obtain ⟨f2, rfl⟩ : ∃ f2, f1 = f2 + 1 := ⟨f1 - 1, by omega⟩
    refine ⟨f2, by simp only [List.length_cons] at hf1; omega, ?_⟩
    rw [lex_lparen, h1, lex_rparen]
    simp [AExp.toks]

theorem tokenize_render (e : AExp) :
    tokenize ('(' :: e.render ++ [')']) = Tok.lparen :: e.toks ++ [Tok.rparen] := by
  unfold tokenize
  simp only [List.cons_append, List.length_cons]
  rw [lex_lparen]
  obtain ⟨f1, hf1, h1⟩ := lex_render e [')'] ((e.render ++ [')']).length + 1)
    ⟨')', [], rfl, by simp⟩ (by omega)
  obtain ⟨f2, rfl⟩ : ∃ f2, f1 = f2 + 1 := ⟨f1 - 1, by omega⟩
  rw [h1, lex_rparen]
  cases f2 <;> simp [lex]

theorem FollowAdd.any {rest : List Tok} (h : FollowAdd rest) : FollowAny rest := by
  rcases h with h | ⟨t, r, h, ht⟩
  · exact Or.inl h
  · exact Or.inr ⟨t, r, h, by tauto⟩

theorem parseCallTail_ok (f : Nat) (e : JExpr) (rest : List Tok) (h : FollowAny rest) :
    parseCallTail (f + 1) e rest = Parse.ok e rest := by
  rcases h with rfl | ⟨t, r, rfl, rfl | rfl | rfl | rfl⟩ <;> simp [parseCallTail]

theorem parseMulTail_ok (f : Nat) (e : JExpr) (rest : List Tok) (h : FollowAdd rest) :
    parseMulTail (f + 1) e rest = Parse.ok e rest := by
  rcases h with rfl | ⟨t, r, rfl, rfl | rfl | rfl⟩ <;> simp [parseMulTail]

theorem parseAddTail_ok (f : Nat) (e : JExpr) (r : List Tok) :
    parseAddTail (f + 1) e (Tok.rparen :: r) = Parse.ok e (Tok.rparen :: r)
    ∧ parseAddTail (f + 1) e [] = Parse.ok e [] := by
  simp [parseAddTail]

theorem parseUnary_num (f : Nat) (q : ℚ) (rest : List Tok) (h : FollowAny rest) :
    parseUnary (f + 2) (Tok.num q :: rest) = Parse.ok (JExpr.num q) rest := by
  simp [parseUnary, parsePrimary, parseCallTail_ok f _ rest h]

theorem parseUnary_lparen (f : Nat) (ts : List Tok) (e : JExpr) (r : List Tok)
    (h : parseExpr f ts = Parse.ok e (Tok.rparen :: r)) :
    parseUnary (f + 2) (Tok.lparen :: ts) = parseCallTail (f + 1) e r := by
  simp [parseUnary, parsePrimary, h]

theorem parseExpr_step (f : Nat) (ts : List Tok) (a0 b0 : JExpr) (r0 r1 : List Tok)
    (h1 : parseUnary f ts = Parse.ok a0 r0) (h2 : parseMulTail f a0 r0 = Parse.ok b0 r1) :
    parseExpr (f + 1) ts = parseAddTail f b0 r1 := by
  simp [parseExpr, h1, h2]

theorem parseMulTail_star (f : Nat) (e b : JExpr) (ts r : List Tok)
    (h : parseUnary f ts = Parse.ok b r) :
    parseMulTail (f + 1) e (Tok.star :: ts) = parseMulTail f (JExpr.mul e b) r := by
  simp [parseMulTail, h]

theorem parseAddTail_plus (f : Nat) (e a0 b0 : JExpr) (ts r0 r1 : List Tok)
    (h1 : parseUnary f ts = Parse.ok a0 r0) (h2 : parseMulTail f a0 r0 = Parse.ok b0 r1) :
    parseAddTail (f + 1) e (Tok.plus :: ts) = parseAddTail f (JExpr.add e b0) r1 := by
  simp [parseAddTail, h1, h2]

theorem parseAddTail_minus (f : Nat) (e a0 b0 : JExpr) (ts r0 r1 : List Tok)
    (h1 : parseUnary f ts = Parse.ok a0 r0) (h2 : parseMulTail f a0 r0 = Parse.ok b0 r1) :
    parseAddTail (f + 1) e (Tok.minus :: ts) = parseAddTail f (JExpr.sub e b0) r1 := by
  simp [parseAddTail, h1, h2]

theorem SM_of_SU (e : AExp) (h : SU e) : SM e := by
  intro f rest hf hr
  exact ⟨0, e.tree, rest, Nat.zero_le _, h f rest hf hr, rfl⟩

theorem SA_of_SM (e : AExp) (h : SM e) : SA e := by
  intro f rest hf hr
  obtain ⟨k, a0, r0, hk, h1, h2⟩ := h f rest hf hr.any
  obtain ⟨g, hg⟩ : ∃ g, f - k = g + 1 := ⟨f - k - 1, by omega⟩
  refine ⟨0, a0, r0, e.tree, rest, Nat.zero_le _, h1, ?_, rfl⟩
  rw [h2, hg]
  exact parseMulTail_ok g _ rest hr

theorem SU_lit (n : Nat) : SU (AExp.lit n) := by
  intro f rest hf hr
  obtain ⟨g, rfl⟩ : ∃ g, f = g + 2 := ⟨f - 2, by simp [AExp.toks] at hf; omega⟩
  exact parseUnary_num g _ rest hr

theorem SU_paren (a : AExp) (h : SA a) : SU (AExp.paren a) := by
  intro f rest hf hr
  simp only [AExp.toks, List.length_cons, List.length_append, List.length_singleton] at hf
  obtain ⟨g, rfl⟩ : ∃ g, f = g + 3 := ⟨f - 3, by omega⟩
  obtain ⟨k, a0, r0, b0, r1, hk, h1, h2, h3⟩ :=
    h g (Tok.rparen :: rest) (by omega) (Or.inr ⟨_, _, rfl, by simp⟩)
  obtain ⟨g', hg'⟩ : ∃ g', g - k = g' + 1 := ⟨g - k - 1, by omega⟩
  have he : parseExpr (g + 1) (a.toks ++ Tok.rparen :: rest)
      = Parse.ok a.tree (Tok.rparen :: rest) := by
    rw [parseExpr_step g _ a0 b0 r0 r1 h1 h2, h3, hg']
    exact (parseAddTail_ok g' _ rest).1
  have := parseUnary_lparen (g + 1) (a.toks ++ Tok.rparen :: rest) a.tree rest he
  simp only [AExp.toks, AExp.tree, List.cons_append, List.append_assoc, List.nil_append]
  rw [this]
  exact parseCallTail_ok _ _ rest hr

theorem SM_mul (a b : AExp) (ha : SM a) (hb : SU b) : SM (AExp.mul a b) := by
  intro f rest hf hr
  simp only [AExp.toks, List.length_cons, List.length_append] at hf
  obtain ⟨k, a0, r0, hk, h1, h2⟩ :=
    ha f (Tok.star :: (b.toks ++ rest)) (by omega) (Or.inr ⟨_, _, rfl, by simp⟩)
  obtain ⟨g, hg⟩ : ∃ g, f - k = g + 1 := ⟨f - k - 1, by omega⟩
  have hbu := hb g rest (by omega) hr
  refine ⟨k + 1, a0, r0, ?_, ?_, ?_⟩
  · simp only [AExp.toks, List.length_cons, List.length_append]; omega
  · simpa [AExp.toks] using h1
  · rw [h2, hg, parseMulTail_star g _ _ _ _ hbu]
    have : f - (k + 1) = g := by omega
    rw [this]
    rfl

theorem SA_add (a b : AExp) (ha : SA a) (hb : SM b) : SA (AExp.add a b) := by
  intro f rest hf hr
  simp only [AExp.toks, List.length_cons, List.length_append] at hf
  obtain ⟨k, a0, r0, b0, r1, hk, h1, h2, h3⟩ :=
    ha f (Tok.plus :: (b.toks ++ rest)) (by omega) (Or.inr ⟨_, _, rfl, by simp⟩)
  obtain ⟨g, hg⟩ : ∃ g, f - k = g + 1 := ⟨f - k - 1, by omega⟩
  obtain ⟨kb, c0, s0, hkb, hb1, hb2⟩ := hb g rest (by omega) hr.any
  obtain ⟨g', hg'⟩ : ∃ g', g - kb = g' + 1 := ⟨g - kb - 1, by omega⟩
  have hb3 : parseMulTail g c0 s0 = Parse.ok b.tree rest := by
    rw [hb2, hg']
    exact parseMulTail_ok g' _ rest hr
  refine ⟨k + 1, a0, r0, b0, r1, ?_, ?_, h2, ?_⟩
  · simp only [AExp.toks, List.length_cons, List.length_append]; omega
  · simpa [AExp.toks] using h1
  · rw [h3, hg, parseAddTail_plus g _ c0 _ _ s0 _ hb1 hb3]
    have : f - (k + 1) = g := by omega
    rw [this]
    rfl

theorem SA_sub (a b : AExp) (ha : SA a) (hb : SM b) : SA (AExp.sub a b) := by
  intro f rest hf hr
  simp only [AExp.toks, List.length_cons, List.length_append] at hf
  obtain ⟨k, a0, r0, b0, r1, hk, h1, h2, h3⟩ :=
    ha f (Tok.minus :: (b.toks ++ rest)) (by omega) (Or.inr ⟨_, _, rfl, by simp⟩)
  obtain ⟨g, hg⟩ : ∃ g, f - k = g + 1 := ⟨f - k - 1, by omega⟩
  obtain ⟨kb, c0, s0, hkb, hb1, hb2⟩ := hb g rest (by omega) hr.any
  obtain ⟨g', hg'⟩ : ∃ g', g - kb = g' + 1 := ⟨g - kb - 1, by omega⟩
  have hb3 : parseMulTail g c0 s0 = Parse.ok b.tree rest := by
    rw [hb2, hg']
    exact parseMulTail_ok g' _ rest hr
  refine ⟨k + 1, a0, r0, b0, r1, ?_, ?_, h2, ?_⟩
  · simp only [AExp.toks, List.length_cons, List.length_append]; omega
  · simpa [AExp.toks] using h1
  · rw [h3, hg, parseAddTail_minus g _ c0 _ _ s0 _ hb1 hb3]
    have : f - (k + 1) = g := by omega
    rw [this]
    rfl

theorem parse_levels (e : AExp) :
    (e.fits 2 = true → SU e) ∧ (e.fits 1 = true → SM e) ∧ (e.fits 0 = true → SA e) := by
  induction e with
  | lit n =>
    have h := SU_lit n
    exact ⟨fun _ => h, fun _ => SM_of_SU _ h, fun _ => SA_of_SM _ (SM_of_SU _ h)⟩
  | add a b iha ihb =>
    refine ⟨fun h => ?_, fun h => ?_, fun h => ?_⟩
    · simp [AExp.fits] at h
    · simp [AExp.fits] at h
    · simp only [AExp.fits, decide_True, Bool.true_and, Bool.and_eq_true] at h
      exact SA_add a b (iha.2.2 h.1) (ihb.2.1 h.2)
  | sub a b iha ihb =>
    refine ⟨fun h => ?_, fun h => ?_, fun h => ?_⟩
    · simp [AExp.fits] at h
    · simp [AExp.fits] at h
    · simp only [AExp.fits, decide_True, Bool.true_and, Bool.and_eq_true] at h
      exact SA_sub a b (iha.2.2 h.1) (ihb.2.1 h.2)
  | mul a b iha ihb =>
    have hm : a.fits 1 = true → b.fits 2 = true → SM (AExp.mul a b) :=
      fun h1 h2 => SM_mul a b (iha.2.1 h1) (ihb.1 h2)
    refine ⟨fun h => ?_, fun h => ?_, fun h => ?_⟩
    · simp [AExp.fits] at h
    · simp only [AExp.fits, Bool.and_eq_true, decide_eq_true_eq] at h
      exact hm h.1.2 h.2
    · simp only [AExp.fits, Bool.and_eq_true, decide_eq_true_eq] at h
      exact SA_of_SM _ (hm h.1.2 h.2)
  | paren a iha =>
    have hp : a.fits 0 = true → SU (AExp.paren a) := fun h => SU_paren a (iha.2.2 h)
    refine ⟨fun h => ?_, fun h => ?_, fun h => ?_⟩
    · exact hp (by simpa [AExp.fits] using h)
    · exact SM_of_SU _ (hp (by simpa [AExp.fits] using h))
    · exact SA_of_SM _ (SM_of_SU _ (hp (by simpa [AExp.fits] using h)))

theorem parseExpr_wrapped (e : AExp) (h : e.fits 0 = true) :
    parseExpr (4 * (Tok.lparen :: e.toks ++ [Tok.rparen]).length + 4)
      (Tok.lparen :: e.toks ++ [Tok.rparen]) = Parse.ok e.tree [] := by
  have hsu : SU (AExp.paren e) := (parse_levels (AExp.paren e)).1 (by simpa [AExp.fits] using h)
  have hlen : (Tok.lparen :: e.toks ++ [Tok.rparen]).length = e.toks.length + 2 := by simp
  have hlen' : (AExp.paren e).toks.length = e.toks.length + 2 := by simp [AExp.toks]
  rw [hlen]
  obtain ⟨g, hg⟩ : ∃ g, 4 * (e.toks.length + 2) + 4 = g + 2 := ⟨4 * (e.toks.length + 2) + 2, rfl⟩
  have hu := hsu (g + 1) [] (by rw [hlen']; omega) (Or.inl rfl)
  simp only [AExp.toks, AExp.tree, List.append_nil, List.cons_append] at hu
  have hm := parseMulTail_ok g e.tree [] (Or.inl rfl)
  have hstep := parseExpr_step (g + 1) _ _ _ _ _ hu hm
  rw [hg]
  show parseExpr (g + 1 + 1) (Tok.lparen :: (e.toks ++ [Tok.rparen])) = Parse.ok e.tree []
  rw [hstep]
  exact (parseAddTail_ok g _ []).2

theorem bounded_abs (e : AExp) (hb : e.bounded = true) : |e.value| < 10 ^ 12 := by
  induction e with
  | lit n =>
    simp only [AExp.bounded, decide_eq_true_eq] at hb
    simp only [AExp.value]
    rw [abs_of_nonneg (by omega)]
    exact_mod_cast hb
  | add a b _ _ =>
    simp only [AExp.bounded, Bool.and_eq_true, decide_eq_true_eq] at hb
    exact hb.2
  | sub a b _ _ =>
    simp only [AExp.bounded, Bool.and_eq_true, decide_eq_true_eq] at hb
    exact hb.2
  | mul a b _ _ =>
    simp only [AExp.bounded, Bool.and_eq_true, decide_eq_true_eq] at hb
    exact hb.2
  | paren a iha => exact iha hb

theorem lt_two_pow_53 {v : Int} (h : |v| < 10 ^ 12) : |v| < 2 ^ 53 :=
  lt_trans h (by norm_num)

theorem evalExpr_tree (e : AExp) (hb : e.bounded = true) :
    ∃ x, evalExpr e.tree = some x ∧ Rep x e.value := by
  induction e with
  | lit n =>
    have h := bounded_abs (AExp.lit n) hb
    refine ⟨ofRat (n : ℚ) false, rfl, ?_⟩
    have := ofRat_intCast (n : Int) (lt_two_pow_53 h) false
    simpa [AExp.value] using this
  | add a b iha ihb =>
    have h := bounded_abs _ hb
    simp only [AExp.bounded, Bool.and_eq_true, decide_eq_true_eq] at hb
    obtain ⟨x, hx, rx⟩ := iha hb.1.1
    obtain ⟨y, hy, ry⟩ := ihb hb.1.2
    exact ⟨x.add y, by simp [AExp.tree, evalExpr, hx, hy], rep_add rx ry (lt_two_pow_53 h)⟩
  | sub a b iha ihb =>
    have h := bounded_abs _ hb
    simp only [AExp.bounded, Bool.and_eq_true, decide_eq_true_eq] at hb
    obtain ⟨x, hx, rx⟩ := iha hb.1.1
    obtain ⟨y, hy, ry⟩ := ihb hb.1.2
    exact ⟨x.sub y, by simp [AExp.tree, evalExpr, hx, hy], rep_sub rx ry (lt_two_pow_53 h)⟩
  | mul a b iha ihb =>
    have h := bounded_abs _ hb
    simp only [AExp.bounded, Bool.and_eq_true, decide_eq_true_eq] at hb
    obtain ⟨x, hx, rx⟩ := iha hb.1.1
    obtain ⟨y, hy, ry⟩ := ihb hb.1.2
    exact ⟨x.mul y, by simp [AExp.tree, evalExpr, hx, hy], rep_mul rx ry (lt_two_pow_53 h)⟩
  | paren a iha => exact iha hb

theorem evalJS_render (e : AExp) (hw : e.fits 0 = true) (hb : e.bounded = true) :
    ∃ x, evalJS e.render = some (Completion.number x) ∧ Rep x e.value := by
  obtain ⟨x, hx, rx⟩ := evalExpr_tree e hb
  refine ⟨x, ?_, rx⟩
  unfold evalJS
  simp only [tokenize_render e, parseExpr_wrapped e hw, hx]

theorem render_plain (e : AExp) : ∀ c ∈ e.render, plainChar c = true := by
  induction e with
  | lit n =>
    intro c hc
    simp [plainChar, natDigits_isDigit n c hc]
  | add a b iha ihb =>
    intro c hc
    simp only [AExp.render, List.mem_append, List.mem_cons] at hc
    rcases hc with h | rfl | h
    · exact iha c h
    · decide
    · exact ihb c h
  | sub a b iha ihb =>
    intro c hc
    simp only [AExp.render, List.mem_append, List.mem_cons] at hc
    rcases hc with h | rfl | h
    · exact iha c h
    · decide
    · exact ihb c h
  | mul a b iha ihb =>
    intro c hc
    simp only [AExp.render, List.mem_append, List.mem_cons] at hc
    rcases hc with h | rfl | h
    · exact iha c h
    · decide
    · exact ihb c h
  | paren a iha =>
    intro c hc
    simp only [AExp.render, List.mem_append, List.mem_cons, List.mem_singleton,
      List.not_mem_nil, or_false] at hc
    rcases hc with (rfl | h) | rfl
    · decide
    · exact iha c h
    · decide

theorem plainChar_facts (c : Char) (h : plainChar c = true) :
    isAllowed c = true ∧ c ≠ '×' ∧ c ≠ '÷' ∧ c ≠ '−' := by
  simp only [plainChar, Bool.or_eq_true, decide_eq_true_eq] at h
  rcases h with ((((h | rfl) | rfl) | rfl) | rfl) | rfl
  · refine ⟨by simp [isAllowed, h], ?_, ?_, ?_⟩ <;> (rintro rfl; exact absurd h (by decide))
  all_goals decide

theorem replaceAll_id (a b : Char) (s : List Char) (h : ∀ c ∈ s, c ≠ a) :
    replaceAll a b s = s := by
  unfold replaceAll
  conv_rhs => rw [← List.map_id s]
  apply List.map_congr_left
  intro c hc
  simp [h c hc]

theorem normalize_render (e : AExp) : normalize e.render = e.render := by
  have h := fun c hc => plainChar_facts c (render_plain e c hc)
  unfold normalize
  rw [replaceAll_id '×' '*' _ (fun c hc => (h c hc).2.1),
    replaceAll_id '÷' '/' _ (fun c hc => (h c hc).2.2.1),
    replaceAll_id '−' '-' _ (fun c hc => (h c hc).2.2.2)]

theorem render_ne_nil (e : AExp) : e.render ≠ [] := by
  obtain ⟨c, t, h, _⟩ := render_head e
  rw [h]; simp

theorem isSafe_render (e : AExp) : isSafe e.render = true := by
  have hne := render_ne_nil e
  have hall : e.render.all isAllowed = true := by
    rw [List.all_eq_true]
    exact fun c hc => (plainChar_facts c (render_plain e c hc)).1
  cases hr : e.render with
  | nil => exact absurd hr hne
  | cons c t =>
    rw [hr] at hall
    simp [isSafe, hall]

/-- The number to text step of `calculate` on an integer of at most twelve
digits: `String(+x.toPrecision(12))` is the decimal rendering. -/
theorem toPrecision_roundtrip (x : Num) (v : Int) (hx : Rep x v) (h : |v| < 10 ^ 12) :
    x ≠ Num.inf false ∧ x ≠ Num.nan ∧ x.isFinite = true
    ∧ (stringToNumber (x.toPrecision 12)).toString = intText v := by
  have hfin : x ≠ Num.inf false ∧ x ≠ Num.nan ∧ x.isFinite = true := by
    rcases hx with rfl | ⟨_, rfl⟩ <;> simp [Num.isFinite]
  refine ⟨hfin.1, hfin.2.1, hfin.2.2, ?_⟩
  have h0 : ('0' :: '.' :: zeros (12 - 1)) = fixed12 0 := by decide
  have key : stringToNumber (x.toPrecision 12) = Num.fin (v : ℚ) := by
    rcases lt_trichotomy v 0 with hv | hv | hv
    · have hxf : x = Num.fin (v : ℚ) := by
        rcases hx with h | ⟨h, _⟩
        · exact h
        · omega
      obtain ⟨n, rfl⟩ : ∃ n : Nat, v = -(n : Int) := ⟨v.natAbs, by omega⟩
      have hn : 0 < n := by omega
      have hlt : n < 10 ^ 12 := by
        have : |(-(n : Int))| = n := by rw [abs_neg]; exact abs_of_nonneg (by omega)
        rw [this] at h
        exact_mod_cast h
      have hq : ((-(n : Int) : Int) : ℚ) = -(n : ℚ) := by push_cast; rfl
      have hne : -(n : ℚ) ≠ 0 := by
        rw [neg_ne_zero]; exact_mod_cast (Nat.pos_iff_ne_zero.mp hn)
      have hneg : -(n : ℚ) < 0 := by
        have : (0 : ℚ) < n := by exact_mod_cast hn
        linarith
      rw [hxf, hq]
      simp only [Num.toPrecision, hne, if_false, hneg, if_true, neg_neg,
        posToPrecision_natCast n hn hlt]
      exact stringToNumber_neg_fixed12 n hn (lt_trans hlt (by norm_num))
    · subst hv
      have : x.toPrecision 12 = fixed12 0 := by
        rcases hx with rfl | ⟨_, rfl⟩
        · simp only [Num.toPrecision, Int.cast_zero, if_true]
          exact h0
        · simp only [Num.toPrecision]
          exact h0
      rw [this, stringToNumber_fixed12 0 (by norm_num)]
      simp
    · have hxf : x = Num.fin (v : ℚ) := by
        rcases hx with h | ⟨h, _⟩
        · exact h
        · omega
      obtain ⟨n, rfl⟩ : ∃ n : Nat, v = (n : Int) := ⟨v.toNat, by omega⟩
      have hn : 0 < n := by omega
      have hlt : n < 10 ^ 12 := by
        have : |((n : Int))| = n := abs_of_nonneg (by omega)
        rw [this] at h
        exact_mod_cast h
      have hq : (((n : Int) : Int) : ℚ) = (n : ℚ) := by push_cast; rfl
      have hne : (n : ℚ) ≠ 0 := by exact_mod_cast (Nat.pos_iff_ne_zero.mp hn)
      have hneg : ¬ (n : ℚ) < 0 := by
        have : (0 : ℚ) < n := by exact_mod_cast hn
        linarith
      rw [hxf, hq]
      simp only [Num.toPrecision, hne, if_false, hneg, posToPrecision_natCast n hn hlt]
      exact stringToNumber_fixed12 n (lt_trans hlt (by norm_num))
  rw [key, toString_intCast v h]
  rfl

theorem intText_ne_nil (v : Int) : intText v ≠ [] := by
  unfold intText
  split
  · simp
  · exact natDigits_ne_nil _

/-- C3: `calculate` evaluates the buffer as an arithmetic expression with the
standard operator precedence and parentheses.  For every well-formed
expression built from non-negative integer literals without leading zeros,
the operators `+ - *` and parentheses, all of whose intermediate values have
absolute value below `10 ^ 12`, `calculate` on the text of the expression
replaces the buffer by the decimal rendering of the exact integer value and
shows it on the display (one call of the host evaluator is made). -/
theorem calculate_arithmetic (e : AExp) (s : State) (hs : s.expression = e.render)
    (hw : e.fits 0 = true) (hb : e.bounded = true) :
    calculate hostEval s
      = { expression := intText e.value, display := intText e.value, evals := s.evals + 1 } := by
  obtain ⟨x, hx, rx⟩ := evalJS_render e hw hb
  obtain ⟨h1, h2, h3, h4⟩ := toPrecision_roundtrip x e.value rx (bounded_abs e hb)
  have hev : hostEval e.render = Completion.number x := by simp [hostEval, hx]
  unfold calculate
  rw [hs]
  simp only [render_ne_nil e, if_false, normalize_render, isSafe_render, hev]
  simp [h1, h2, h3, h4, updateDisplay, intText_ne_nil]

theorem calculate_arithmetic_witness :
    calculate hostEval (shown "2+3*4".toList)
      = { expression := "14".toList, display := "14".toList, evals := 1 } :=
  calculate_arithmetic
    (AExp.add (AExp.lit 2) (AExp.mul (AExp.lit 3) (AExp.lit 4)))
    (shown "2+3*4".toList) (by decide) (by decide) (by decide)

/-! ### The display, the character set, the keyboard -/

theorem updateDisplay_projected (s : State) : Projected (updateDisplay s) :=
  Or.inl rfl

theorem showError_projected (s : State) : Projected (showError s) :=
  Or.inr ⟨rfl, rfl⟩

theorem append_projected (v : List Char) (s : State) (h : Projected s) :
    Projected (append v s) := by
  unfold append
  split
  · exact h
  · split
    · exact h
    · split
      · exact updateDisplay_projected _
      · exact updateDisplay_projected _

theorem percent_projected (s : State) (h : Projected s) : Projected (percent s) := by
  unfold percent
  split
  · exact h
  · exact updateDisplay_projected _

theorem calculate_projected (ev : List Char → Completion) (s : State) (h : Projected s) :
    Projected (calculate ev s) := by
  unfold calculate
  split
  · exact h
  · split
    · exact showError_projected _
    · split
      · exact showError_projected _
      · split
        · exact showError_projected _
        · split
          · exact updateDisplay_projected _
          · exact updateDisplay_projected _
      · exact updateDisplay_projected _

theorem step_projected (ev : List Char → Completion) (s : State) (o : Op) (h : Projected s) :
    Projected (step ev s o) := by
  cases o with
  | append v => exact append_projected v s h
  | del => exact updateDisplay_projected _
  | clearAll => exact updateDisplay_projected _
  | percent => exact percent_projected s h
  | calculate => exact calculate_projected ev s h

theorem run_projected (ev : List Char → Completion) (ops : List Op) :
    ∀ s, Projected s → Projected (run ev s ops) := by
  induction ops with
  | nil => intro s h; exact h
  | cons o ops ih => intro s h; exact ih _ (step_projected ev s o h)

/-- C12: the display is a projection of the buffer.  In every state reachable
from the initial state by any sequence of operations (whatever the tokens
appended and whatever the evaluator), either the display equals the buffer
when the buffer is non-empty and "0" when it is empty, or the display is
"Error" and the buffer is empty. -/
theorem display_projection (ev : List Char → Completion) (ops : List Op) :
    Projected (run ev init ops) :=
  run_projected ev ops init (Or.inl rfl)

/-- C15: `calculate` on the empty buffer changes nothing: the state is
returned as it is, so the buffer stays empty and the display keeps its
previous text ("0", or "Error" after a failure). -/
theorem calculate_empty (ev : List Char → Completion) (s : State) (h : s.expression = []) :
    calculate ev s = s := by
  simp [calculate, h]

theorem calculate_empty_witness :
    calculate hostEval init = init
    ∧ calculate hostEval (calculate hostEval (shown "2+".toList))
        = calculate hostEval (shown "2+".toList) :=
  ⟨calculate_empty hostEval init (by decide),
   calculate_empty hostEval _ (by decide!)⟩

theorem replaceAll_removes (a b : Char) (hab : b ≠ a) (s : List Char) :
    ∀ c ∈ replaceAll a b s, c ≠ a := by
  intro c hc
  simp only [replaceAll, List.mem_map] at hc
  obtain ⟨d, _, rfl⟩ := hc
  by_cases hd : d = a
  · simp [hd, hab]
  · simp [hd]

theorem replaceAll_keeps_out (a b x : Char) (hbx : b ≠ x) (s : List Char)
    (h : ∀ c ∈ s, c ≠ x) : ∀ c ∈ replaceAll a b s, c ≠ x := by
  intro c hc
  simp only [replaceAll, List.mem_map] at hc
  obtain ⟨d, hd, rfl⟩ := hc
  by_cases hda : d = a
  · simp [hda, hbx]
  · simp only [hda, if_false]
    exact h d hd

theorem normalize_no_glyph (b : List Char) :
    ∀ c ∈ normalize b, c ≠ '×' ∧ c ≠ '÷' ∧ c ≠ '−' := by
  intro c hc
  unfold normalize at hc
  have h1 := replaceAll_removes '×' '*' (by decide) b
  have h2 := replaceAll_removes '÷' '/' (by decide) (replaceAll '×' '*' b)
  have h2' := replaceAll_keeps_out '÷' '/' '×' (by decide) _ h1
  have h3 := replaceAll_removes '−' '-' (by decide) (replaceAll '÷' '/' (replaceAll '×' '*' b))
  have h3' := replaceAll_keeps_out '−' '-' '×' (by decide) _ h2'
  have h3'' := replaceAll_keeps_out '−' '-' '÷' (by decide) _ h2
  exact ⟨h3' c hc, h3'' c hc, h3 c hc⟩

theorem normalize_of_no_glyph (s : List Char)
    (h : ∀ c ∈ s, c ≠ '×' ∧ c ≠ '÷' ∧ c ≠ '−') : normalize s = s := by
  unfold normalize
  rw [replaceAll_id '×' '*' _ (fun c hc => (h c hc).1),
    replaceAll_id '÷' '/' _ (fun c hc => (h c hc).2.1),
    replaceAll_id '−' '-' _ (fun c hc => (h c hc).2.2)]

theorem normalize_idem (b : List Char) : normalize (normalize b) = normalize b :=
  normalize_of_no_glyph (normalize b) (normalize_no_glyph b)

theorem normalize_eq_nil (b : List Char) : normalize b = [] ↔ b = [] := by
  simp [normalize, replaceAll]

theorem normalize_eq_asciiForm (b : List Char) : normalize b = asciiForm b := by
  unfold normalize replaceAll asciiForm
  rw [List.map_map, List.map_map]
  apply List.map_congr_left
  intro c _
  simp only [Function.comp, asciiChar]
  by_cases h1 : c = '×'
  · subst h1; decide
  · by_cases h2 : c = '÷'
    · subst h2; decide
    · by_cases h3 : c = '−'
      · subst h3; decide
      · simp [h1, h2, h3]

/-- C16: glyph normalization is transparent.  For every buffer `b` and every
evaluator, `calculate` on `b` produces the same state (buffer, display) as
`calculate` on the buffer obtained from `b` by replacing every × by `*`,
every ÷ by `/` and every − by `-`; that buffer is the text the code checks
and evaluates; and "6×7" gives "42". -/
theorem calculate_normalize (ev : List Char → Completion) (s : State) (b : List Char) :
    calculate ev { s with expression := b }
        = calculate ev { s with expression := asciiForm b }
    ∧ normalize b = asciiForm b
    ∧ calculate hostEval (shown "6×7".toList)
        = { expression := "42".toList, display := "42".toList, evals := 1 }
    ∧ calculate hostEval (shown "6×7".toList) = calculate hostEval (shown "6*7".toList) := by
  refine ⟨?_, normalize_eq_asciiForm b, by decide!, by decide!⟩
  rw [← normalize_eq_asciiForm]
  by_cases hb : b = []
  · subst hb; rfl
  · have hn : normalize b ≠ [] := fun h => hb ((normalize_eq_nil b).mp h)
    unfold calculate
    simp only [hb, hn, if_false, normalize_idem, showError, updateDisplay]

/-- C19: `del` undoes `append`.  For every buffer of length below 30 and
every single-character token `c`, except when the buffer is exactly "0" and
`c` is a digit, `append(c)` followed by `del()` restores the buffer. -/
theorem del_append (s : State) (c : Char) (hlen : s.expression.length < 30)
    (hz : ¬ (s.expression = ['0'] ∧ isDigit c = true)) :
    (del (append [c] s)).expression = s.expression := by
  have h := append_expression_of_lt [c] s hlen (by
    intro h0
    have : isDigit c ≠ true := fun hc => hz ⟨h0, hc⟩
    simpa [hasDigit] using this)
  simp [del, updateDisplay, sliceInit, h]

theorem del_append_witness :
    (del (append ['+'] (shown "12".toList))).expression = "12".toList :=
  del_append (shown "12".toList) '+' (by decide) (by decide)

theorem toLower_eq_c (x : Char) : x.toLower = 'c' ↔ x = 'c' ∨ x = 'C' := by
  constructor
  · intro h
    unfold Char.toLower at h
    simp only at h
    split at h
    · next hr =>
      have hx : x = Char.ofNat x.toNat := (Char.ofNat_toNat x).symm
      obtain ⟨h1, h2⟩ := hr
      generalize x.toNat = n at h hx h1 h2
      subst hx
      right
      interval_cases n <;> first | rfl | exact absurd h (by decide)
    · exact Or.inl h
  · rintro (rfl | rfl) <;> decide

theorem toLowerCase_eq_c (key : List Char) :
    toLowerCase key = ['c'] ↔ key = ['c'] ∨ key = ['C'] := by
  unfold toLowerCase
  constructor
  · intro h
    cases key with
    | nil => simp at h
    | cons x t =>
      cases t with
      | nil =>
        simp only [List.map_cons, List.map_nil, List.cons.injEq, and_true] at h
        rcases (toLower_eq_c x).mp h with rfl | rfl
        · exact Or.inl rfl
        · exact Or.inr rfl
      | cons y t => simp at h
  · rintro (rfl | rfl) <;> decide

/-- C17: the keyboard handler dispatches by the documented table.  A key
`0`-`9`, `.`, `+`, `-`, `*`, `/`, `(` or `)` appends that key; `Enter` or `=`
calculates; `Backspace` deletes; `c` or `C` clears; `%` applies percent; each
of them suppresses the default handling.  For every other key the state
(buffer, display) is unchanged and the default handling is not suppressed. -/
theorem keydown_table (ev : List Char → Completion) (s : State) (key : List Char) :
    (∀ d, isDigit d = true → key = [d] → keydown ev key s = (append [d] s, true))
    ∧ (key = ['.'] → keydown ev key s = (append ['.'] s, true))
    ∧ (key = ['+'] ∨ key = ['-'] ∨ key = ['*'] ∨ key = ['/'] →
        keydown ev key s = (append key s, true))
    ∧ (key = "Enter".toList ∨ key = ['='] → keydown ev key s = (calculate ev s, true))
    ∧ (key = "Backspace".toList → keydown ev key s = (del s, true))
    ∧ (key = ['c'] ∨ key = ['C'] → keydown ev key s = (clearAll s, true))
    ∧ (key = ['%'] → keydown ev key s = (percent s, true))
    ∧ (key = ['('] ∨ key = [')'] → keydown ev key s = (append key s, true))
    ∧ ((∀ d, isDigit d = true → key ≠ [d]) → key ≠ ['.'] → key ≠ ['+'] → key ≠ ['-'] →
        key ≠ ['*'] → key ≠ ['/'] → key ≠ "Enter".toList → key ≠ ['='] →
        key ≠ "Backspace".toList → key ≠ ['c'] → key ≠ ['C'] → key ≠ ['%'] →
        key ≠ ['('] → key ≠ [')'] → keydown ev key s = (s, false)) := by
  refine ⟨?_, ?_, ?_, ?_, ?_, ?_, ?_, ?_, ?_⟩
  · rintro d hd rfl
    simp [keydown, isDigitKey, hd]
  · rintro rfl
    simp [keydown, isDigitKey, isDigit]
  · rintro (rfl | rfl | rfl | rfl) <;> simp [keydown, isDigitKey, isDigit]
  · rintro (rfl | rfl) <;> simp [keydown, isDigitKey, isDigit]
  · rintro rfl
    simp [keydown, isDigitKey]
  · intro h
    have hl := (toLowerCase_eq_c key).mpr h
    rcases h with rfl | rfl <;> simp [keydown, isDigitKey, isDigit, hl]
  · rintro rfl
    have hl : toLowerCase ['%'] ≠ ['c'] := by decide
    simp [keydown, isDigitKey, isDigit, hl]
  · rintro (rfl | rfl)
    · have hl : toLowerCase ['('] ≠ ['c'] := by decide
      simp [keydown, isDigitKey, isDigit, hl]
    · have hl : toLowerCase [')'] ≠ ['c'] := by decide
      simp [keydown, isDigitKey, isDigit, hl]
  · intro hd h1 h2 h3 h4 h5 h6 h7 h8 h9 h10 h11 h12 h13
    have hdk : isDigitKey key = false := by
      unfold isDigitKey
      split
      · next c =>
        by_contra hc
        exact hd c (by simpa using hc) rfl
      · rfl
    have hl : toLowerCase key ≠ ['c'] := by
      intro h
      rcases (toLowerCase_eq_c key).mp h with h | h
      · exact h9 h
      · exact h10 h
    have h6' : key ≠ ['E', 'n', 't', 'e', 'r'] := h6
    have h8' : key ≠ ['B', 'a', 'c', 'k', 's', 'p', 'a', 'c', 'e'] := h8
    simp [keydown, hdk, h1, h2, h3, h4, h5, h6', h7, h8', h11, h12, h13, hl]

theorem isExprChar_of_isTokenChar (c : Char) (h : isTokenChar c = true) :
    isExprChar c = true := by
  simp only [isTokenChar, Bool.or_eq_true] at h
  simp only [isExprChar, Bool.or_eq_true]
  tauto

theorem append_charset (c : Char) (s : State) (hc : isExprChar c = true)
    (h : ∀ x ∈ s.expression, isExprChar x = true) :
    ∀ x ∈ (append [c] s).expression, isExprChar x = true := by
  unfold append
  split
  · exact h
  · split
    · exact h
    · split
      · intro x hx
        simp only [updateDisplay, List.mem_singleton] at hx
        rw [hx]; exact hc
      · intro x hx
        simp only [updateDisplay, List.mem_append, List.mem_singleton] at hx
        rcases hx with hx | hx
        · exact h x hx
        · rw [hx]; exact hc

theorem del_charset (s : State) (h : ∀ x ∈ s.expression, isExprChar x = true) :
    ∀ x ∈ (del s).expression, isExprChar x = true := by
  intro x hx
  simp only [del, updateDisplay, sliceInit] at hx
  exact h x (List.mem_of_mem_dropLast hx)

theorem run_charset (ev : List Char → Completion) (ops : List Op) :
    ∀ s : State, (∀ x ∈ s.expression, isExprChar x = true) →
      (∀ o ∈ ops, o = Op.del ∨ o = Op.clearAll ∨ ∃ c, o = Op.append [c] ∧ isTokenChar c = true) →
      ∀ x ∈ (run ev s ops).expression, isExprChar x = true := by
  induction ops with
  | nil => intro s h _; exact h
  | cons o ops ih =>
    intro s h hops
    have hstep : ∀ x ∈ (step ev s o).expression, isExprChar x = true := by
      rcases hops o (List.mem_cons_self _ _) with rfl | rfl | ⟨c, rfl, hc⟩
      · exact del_charset s h
      · intro x hx
        simp [step, clearAll, updateDisplay] at hx
      · exact append_charset c s (isExprChar_of_isTokenChar c hc) h
    exact ih (step ev s o) hstep (fun o' ho' => hops o' (List.mem_cons_of_mem _ ho'))

/-- C11, amended: after any sequence of `append` (with tokens that are
digits, `+ - * /`, the decimal point, parentheses or the glyphs × ÷ −), `del`
and `clearAll` operations, the buffer is empty or consists only of digits,
the four arithmetic operators (ASCII or glyph form), the decimal point,
parentheses and white space. -/
theorem buffer_charset (ev : List Char → Completion) (ops : List Op)
    (hops : ∀ o ∈ ops, o = Op.del ∨ o = Op.clearAll
      ∨ ∃ c, o = Op.append [c] ∧ isTokenChar c = true) :
    ∀ x ∈ (run ev init ops).expression, isExprChar x = true :=
  run_charset ev ops init (by intro x hx; simp [init, clearAll, updateDisplay] at hx) hops

theorem buffer_charset_witness :
    (run hostEval init [Op.append ['6'], Op.append ['×'], Op.del, Op.clearAll,
      Op.append ['(']]).expression.all isExprChar = true :=
  List.all_eq_true.mpr <| buffer_charset hostEval _ (by
    intro o ho
    simp only [List.mem_cons, List.mem_singleton, List.not_mem_nil, or_false] at ho
    rcases ho with rfl | rfl | rfl | rfl | rfl
    · exact Or.inr (Or.inr ⟨'6', rfl, by decide⟩)
    · exact Or.inr (Or.inr ⟨'×', rfl, by decide⟩)
    · exact Or.inl rfl
    · exact Or.inr (Or.inl rfl)
    · exact Or.inr (Or.inr ⟨'(', rfl, by decide⟩))

/-- C11 (counterexample): `append('1')` and four times `percent` leave the
buffer "1e-8", and `calculate` on the typed buffer "99999999999*99999999999"
leaves "9.9999999998e+21": the letter `e` of the host's number-to-text
conversion is outside the character set. -/
theorem buffer_charset_fails :
    (run hostEval init
      [Op.append ['1'], Op.percent, Op.percent, Op.percent, Op.percent]).expression
        = "1e-8".toList
    ∧ (run hostEval init
        (("99999999999*99999999999".toList.map fun c => Op.append [c])
          ++ [Op.calculate])).expression = "9.9999999998e+21".toList
    ∧ isExprChar 'e' = false := by
  decide!

/-- C14, amended: for every non-empty buffer that passes the allow-list check
and whose evaluation throws, `calculate` returns normally with the display
"Error" and the buffer empty. -/
theorem calculate_throw (ev : List Char → Completion) (s : State)
    (hne : s.expression ≠ []) (hsafe : isSafe (normalize s.expression) = true)
    (hthrow : ev (normalize s.expression) = Completion.throw) :
    calculate ev s = { expression := [], display := "Error".toList, evals := s.evals + 1 } := by
  unfold calculate
  simp [hne, hsafe, hthrow, showError]

theorem calculate_throw_witness :
    calculate hostEval (shown "2+".toList)
        = { expression := [], display := "Error".toList, evals := 1 }
    ∧ calculate hostEval (shown "(".toList)
        = { expression := [], display := "Error".toList, evals := 1 }
    ∧ calculate hostEval (shown "1..2".toList)
        = { expression := [], display := "Error".toList, evals := 1 } :=
  ⟨calculate_throw hostEval (shown "2+".toList) (by decide) (by decide) (by decide!),
   calculate_throw hostEval (shown "(".toList) (by decide) (by decide) (by decide!),
   calculate_throw hostEval (shown "1..2".toList) (by decide) (by decide) (by decide!)⟩

/-- C14 (counterexample): the buffer "1)+(2" passes the allow-list check and
is not a well-formed expression (its first parenthesis closes nothing), yet
between the parentheses of the template it reads `(1)+(2)`: `calculate` sets
the buffer and the display to "3". -/
theorem calculate_unbalanced_evaluates :
    isSafe (normalize "1)+(2".toList) = true
    ∧ balanced "1)+(2".toList = false
    ∧ calculate hostEval (shown "1)+(2".toList)
        = { expression := "3".toList, display := "3".toList, evals := 1 } := by
  decide!

/-! ### Rounding to twelve significant digits -/

theorem pow2_eq_zpow (s : Int) : pow2 s = (2 : ℚ) ^ s := by
  unfold pow2
  split
  · next h =>
    obtain ⟨k, rfl⟩ := Int.eq_ofNat_of_zero_le h
    simp
  · next h =>
    obtain ⟨k, hk⟩ : ∃ k : Nat, -s = (k : Int) := ⟨(-s).toNat, by omega⟩
    have hs : s = -(k : Int) := by omega
    rw [hk, hs]
    simp

theorem pow10_eq_zpow (s : Int) : pow10 s = (10 : ℚ) ^ s := by
  unfold pow10
  split
  · next h =>
    obtain ⟨k, rfl⟩ := Int.eq_ofNat_of_zero_le h
    simp
  · next h =>
    obtain ⟨k, hk⟩ : ∃ k : Nat, -s = (k : Int) := ⟨(-s).toNat, by omega⟩
    have hs : s = -(k : Int) := by omega
    rw [hk, hs]
    simp

theorem pow2_pos (s : Int) : 0 < pow2 s := by
  rw [pow2_eq_zpow]; positivity

theorem pow10_pos (s : Int) : 0 < pow10 s := by
  rw [pow10_eq_zpow]; positivity

theorem pow2_add (a b : Int) : pow2 (a + b) = pow2 a * pow2 b := by
  simp only [pow2_eq_zpow]
  exact zpow_add₀ (by norm_num) a b

theorem pow10_add (a b : Int) : pow10 (a + b) = pow10 a * pow10 b := by
  simp only [pow10_eq_zpow]
  exact zpow_add₀ (by norm_num) a b

theorem pow10_le_pow10 {a b : Int} (h : a ≤ b) : pow10 a ≤ pow10 b := by
  simp only [pow10_eq_zpow]
  exact zpow_le_zpow_right₀ (by norm_num) h

theorem pow10_lt_pow10 {a b : Int} (h : a < b) : pow10 a < pow10 b := by
  simp only [pow10_eq_zpow]
  exact zpow_lt_zpow_right₀ (by norm_num) h

theorem pow2_le_pow2 {a b : Int} (h : a ≤ b) : pow2 a ≤ pow2 b := by
  simp only [pow2_eq_zpow]
  exact zpow_le_zpow_right₀ (by norm_num) h

theorem pow2_ilog2_le (X : ℚ) (hX : 0 < X) : pow2 (ilog2 X) ≤ X := by
  unfold ilog2
  simp only
  split
  · next h => exact h
  · next h =>
    have hnum : 0 < X.num := Rat.num_pos.mpr hX
    have hn : 0 < X.num.natAbs := Int.natAbs_pos.mpr (ne_of_gt hnum)
    have hd : 0 < X.den := X.den_pos
    obtain ⟨hn1, _⟩ := log2Nat_bounds X.num.natAbs _ le_rfl hn
    obtain ⟨_, hd2⟩ := log2Nat_bounds X.den _ le_rfl hd
    set a := log2Nat X.num.natAbs X.num.natAbs
    set b := log2Nat X.den X.den
    have hXeq : X = (X.num.natAbs : ℚ) / (X.den : ℚ) := by
      have h1 : ((X.num.natAbs : Nat) : ℚ) = (X.num : ℚ) := by
        rw [Nat.cast_natAbs, abs_of_pos hnum]
      rw [h1]
      exact (Rat.num_div_den X).symm
    have h1 : pow2 ((a : Int) - (b : Int) - 1) = (2 : ℚ) ^ a / (2 : ℚ) ^ (b + 1) := by
      rw [pow2_eq_zpow]
      have : ((a : Int) - (b : Int) - 1) = (a : Int) - ((b + 1 : Nat) : Int) := by push_cast; ring
      rw [this, zpow_sub₀ (by norm_num), zpow_natCast, zpow_natCast]
    rw [h1, hXeq]
    have hd' : (0 : ℚ) < X.den := by exact_mod_cast hd
    have h2 : (2 : ℚ) ^ a ≤ (X.num.natAbs : ℚ) := by exact_mod_cast hn1
    have h3 : (X.den : ℚ) ≤ (2 : ℚ) ^ (b + 1) := by exact_mod_cast hd2.le
    have h4 : (0 : ℚ) ≤ (X.num.natAbs : ℚ) := by positivity
    exact div_le_div₀ h4 h2 hd' h3

theorem roundHalfEven_err (t : ℚ) : |(roundHalfEven t : ℚ) - t| ≤ 1 / 2 := by
  have h1 : (⌊t⌋ : ℚ) ≤ t := Int.floor_le t
  have h2 : t < (⌊t⌋ : ℚ) + 1 := Int.lt_floor_add_one t
  unfold roundHalfEven
  simp only
  split
  · next h => rw [abs_le]; constructor <;> linarith
  · split
    · next h h' => push_cast; rw [abs_le]; constructor <;> linarith
    · next h h' =>
      split
      · rw [abs_le]; constructor <;> linarith
      · push_cast; rw [abs_le]; constructor <;> linarith

theorem roundMag_err (X : ℚ) (hX : pow2 (-1022) ≤ X) :
    |roundMag X - X| ≤ X / 2 ^ 53 := by
  have hpos : 0 < X := lt_of_lt_of_le (pow2_pos _) hX
  have hlog := pow2_ilog2_le X hpos
  set s := max (ilog2 X - 52) (-1074) with hs
  have hspos := pow2_pos s
  have hbound : pow2 s / 2 ≤ X / 2 ^ 53 := by
    have h53 : (2 : ℚ) ^ 53 = pow2 53 := by rw [pow2_eq_zpow]; norm_cast
    rcases max_choice (ilog2 X - 52) (-1074) with h | h
    · rw [hs, h]
      have : pow2 (ilog2 X - 52) * pow2 53 = pow2 (ilog2 X) * 2 := by
        rw [← pow2_add]
        have : ilog2 X - 52 + 53 = ilog2 X + 1 := by ring
        rw [this, pow2_add]
        congr 1
      rw [h53, div_le_div_iff (by norm_num) (pow2_pos 53), this]
      nlinarith
    · rw [hs, h]
      have : pow2 (-1074) * pow2 53 = pow2 (-1022) * 2 := by
        rw [← pow2_add]
        have : (-1074 : Int) + 53 = -1022 + 1 := by norm_num
        rw [this, pow2_add]
        congr 1
      rw [h53, div_le_div_iff (by norm_num) (pow2_pos 53), this]
      nlinarith
  have herr := roundHalfEven_err (X / pow2 s)
  have hrm : roundMag X = (roundHalfEven (X / pow2 s) : ℚ) * pow2 s := rfl
  have : roundMag X - X = ((roundHalfEven (X / pow2 s) : ℚ) - X / pow2 s) * pow2 s := by
    rw [hrm]; field_simp
  rw [this, abs_mul, abs_of_pos hspos]
  calc |(roundHalfEven (X / pow2 s) : ℚ) - X / pow2 s| * pow2 s
      ≤ 1 / 2 * pow2 s := mul_le_mul_of_nonneg_right herr hspos.le
    _ = pow2 s / 2 := by ring
    _ ≤ X / 2 ^ 53 := hbound

theorem ofRat_eq_roundMag (X : ℚ) (hlo : pow2 (-1022) ≤ X) (hhi : X ≤ pow2 1023) (z : Bool) :
    ofRat X z = Num.fin (roundMag X) ∧ 0 < roundMag X := by
  have hpos : 0 < X := lt_of_lt_of_le (pow2_pos _) hlo
  have herr := roundMag_err X hlo
  rw [abs_le] at herr
  have h53 : (0 : ℚ) < 2 ^ 53 := by positivity
  have hfrac : X / 2 ^ 53 < X := by
    rw [div_lt_iff h53]
    have : (1 : ℚ) < 2 ^ 53 := by norm_num
    nlinarith
  have hrpos : 0 < roundMag X := by linarith [herr.1]
  have hbig : ¬ pow2 1024 ≤ roundMag X := by
    rw [not_le]
    have h1024 : pow2 1024 = pow2 1023 * 2 := by
      have : (1024 : Int) = 1023 + 1 := by norm_num
      rw [this, pow2_add]; congr 1
    rw [h1024]
    linarith [herr.2]
  refine ⟨?_, hrpos⟩
  unfold ofRat
  simp only [ne_of_gt hpos, if_false, abs_of_pos hpos, hbig, ne_of_gt hrpos, not_lt.mpr hpos.le]

theorem log10Nat_bounds (n : Nat) (hn : 0 < n) :
    10 ^ log10Nat n n ≤ n ∧ n < 10 ^ (log10Nat n n + 1) := by
  have h := natDigits_length_bounds n hn
  have hl := log10Nat_eq n n le_rfl hn
  rw [← hl] at h
  simpa using h

theorem ilog10_bounds (a : ℚ) (ha : 0 < a) :
    pow10 (ilog10 a) ≤ a ∧ a < pow10 (ilog10 a + 1) := by
  unfold ilog10
  split
  · next h1 =>
    have hfl : (0 : Int) < ⌊a⌋ := Int.floor_pos.mpr h1
    obtain ⟨n, hn⟩ : ∃ n : Nat, ⌊a⌋ = (n : Int) := ⟨⌊a⌋.toNat, by omega⟩
    have hnpos : 0 < n := by omega
    have htn : ⌊a⌋.toNat = n := by omega
    obtain ⟨hb1, hb2⟩ := log10Nat_bounds n hnpos
    rw [htn]
    set L := log10Nat n n
    have hle : (n : ℚ) ≤ a := by
      have := Int.floor_le a
      rw [hn] at this
      exact_mod_cast this
    have hlt : a < (n : ℚ) + 1 := by
      have := Int.lt_floor_add_one a
      rw [hn] at this
      exact_mod_cast this
    constructor
    · rw [pow10_eq_zpow, zpow_natCast]
      have : ((10 : ℚ) ^ L) ≤ (n : ℚ) := by exact_mod_cast hb1
      linarith
    · have : ((L : Int) + 1) = ((L + 1 : Nat) : Int) := by push_cast; rfl
      rw [pow10_eq_zpow, this, zpow_natCast]
      have : ((n : ℚ) + 1) ≤ (10 : ℚ) ^ (L + 1) := by exact_mod_cast hb2
      linarith
  · next h1 =>
    have h1' : a < 1 := lt_of_not_ge h1
    have hinv : 1 < 1 / a := by rw [lt_div_iff ha]; linarith
    have hfl : (0 : Int) < ⌊1 / a⌋ := Int.floor_pos.mpr hinv.le
    obtain ⟨n, hn⟩ : ∃ n : Nat, ⌊1 / a⌋ = (n : Int) := ⟨⌊1 / a⌋.toNat, by omega⟩
    have hnpos : 0 < n := by omega
    have htn : ⌊1 / a⌋.toNat = n := by omega
    obtain ⟨hb1, hb2⟩ := log10Nat_bounds n hnpos
    simp only [htn]
    set L := log10Nat n n
    have hle : (n : ℚ) ≤ 1 / a := by
      have := Int.floor_le (1 / a)
      rw [hn] at this
      exact_mod_cast this
    have hlt : 1 / a < (n : ℚ) + 1 := by
      have := Int.lt_floor_add_one (1 / a)
      rw [hn] at this
      exact_mod_cast this
    have hp1 : ((10 : ℚ) ^ L) ≤ 1 / a := by
      have : ((10 : ℚ) ^ L) ≤ (n : ℚ) := by exact_mod_cast hb1
      linarith
    have hp2 : 1 / a < (10 : ℚ) ^ (L + 1) := by
      have : ((n : ℚ) + 1) ≤ (10 : ℚ) ^ (L + 1) := by exact_mod_cast hb2
      linarith
    have hL : (0 : ℚ) < (10 : ℚ) ^ L := by positivity
    have hL1 : (0 : ℚ) < (10 : ℚ) ^ (L + 1) := by positivity
    -- a ≤ 10^(-L) and 10^(-(L+1)) < a
    have hup : a ≤ pow10 (-(L : Int)) := by
      rw [pow10_eq_zpow, zpow_neg, zpow_natCast]
      rw [le_div_iff ha] at hp1
      rw [le_inv_comm₀ ha hL, inv_eq_one_div]
      rw [le_div_iff ha]
      exact hp1
    have hlow : pow10 (-(L : Int) - 1) < a := by
      have : (-(L : Int) - 1) = -((L + 1 : Nat) : Int) := by push_cast; ring
      rw [pow10_eq_zpow, this, zpow_neg, zpow_natCast]
      rw [div_lt_iff ha] at hp2
      rw [inv_lt_comm₀ hL1 ha, inv_eq_one_div]
      rw [div_lt_iff ha]
      exact hp2
    split
    · next h2 =>
      refine ⟨h2, ?_⟩
      have : pow10 (-(L : Int)) < pow10 (-(L : Int) + 1) := by
        simp only [pow10_eq_zpow]
        exact zpow_lt_zpow_right₀ (by norm_num) (by omega)
      linarith
    · next h2 =>
      refine ⟨hlow.le, ?_⟩
      have : (-(L : Int) - 1 + 1) = -(L : Int) := by ring
      rw [this]
      exact lt_of_not_ge h2

theorem posToPrecision_eq (p : Nat) (a : ℚ) :
    posToPrecision p a = precisionText p (natDigits (sigDigits p a).1) (sigDigits p a).2 := by
  unfold posToPrecision sigDigits precisionText
  simp only [apply_ite Prod.fst, apply_ite Prod.snd]

theorem sigDigits_bounds (a : ℚ) (ha : 0 < a) :
    10 ^ 11 ≤ (sigDigits 12 a).1 ∧ (sigDigits 12 a).1 < 10 ^ 12
    ∧ ilog10 a ≤ (sigDigits 12 a).2 ∧ (sigDigits 12 a).2 ≤ ilog10 a + 1 := by
  obtain ⟨hb1, hb2⟩ := ilog10_bounds a ha
  set e0 := ilog10 a
  have hsc : 0 < pow10 (e0 - ((12 - 1 : Nat) : Int)) := pow10_pos _
  set t := a / pow10 (e0 - ((12 - 1 : Nat) : Int)) with ht
  have h11 : pow10 ((11 : Nat) : Int) = (10 : ℚ) ^ 11 := by rw [pow10_eq_zpow, zpow_natCast]
  have h12 : pow10 ((12 : Nat) : Int) = (10 : ℚ) ^ 12 := by rw [pow10_eq_zpow, zpow_natCast]
  have hsplit : pow10 e0 = pow10 (e0 - ((12 - 1 : Nat) : Int)) * (10 : ℚ) ^ 11 := by
    have : e0 = (e0 - ((12 - 1 : Nat) : Int)) + ((11 : Nat) : Int) := by
      simp only [Nat.reduceSub]; ring
    rw [← h11, ← pow10_add, ← this]
  have hsplit2 : pow10 (e0 + 1) = pow10 (e0 - ((12 - 1 : Nat) : Int)) * (10 : ℚ) ^ 12 := by
    have : e0 + 1 = (e0 - ((12 - 1 : Nat) : Int)) + ((12 : Nat) : Int) := by
      simp only [Nat.reduceSub]; push_cast; ring
    rw [← h12, ← pow10_add, ← this]
  have ht1 : (10 : ℚ) ^ 11 ≤ t := by
    rw [ht, le_div_iff hsc]
    rw [hsplit] at hb1
    linarith
  have ht2 : t < (10 : ℚ) ^ 12 := by
    rw [ht, div_lt_iff hsc]
    rw [hsplit2] at hb2
    linarith
  have hfl1 : ((10 ^ 11 : Nat) : Int) ≤ ⌊t⌋ := by
    rw [Int.le_floor]; push_cast; exact ht1
  have hfl2 : ⌊t⌋ < ((10 ^ 12 : Nat) : Int) := by
    rw [Int.floor_lt]; push_cast; exact ht2
  obtain ⟨f, hf⟩ : ∃ f : Nat, ⌊t⌋ = (f : Int) := ⟨⌊t⌋.toNat, by omega⟩
  have hf1 : 10 ^ 11 ≤ f := by omega
  have hf2 : f < 10 ^ 12 := by omega
  have htn : ⌊t⌋.toNat = f := by omega
  have key : ∀ n0 : Nat, 10 ^ 11 ≤ n0 → n0 ≤ 10 ^ 12 →
      10 ^ 11 ≤ (if n0 = 10 ^ 12 then ((10 ^ (12 - 1) : Nat), e0 + 1) else (n0, e0)).1
      ∧ (if n0 = 10 ^ 12 then ((10 ^ (12 - 1) : Nat), e0 + 1) else (n0, e0)).1 < 10 ^ 12
      ∧ e0 ≤ (if n0 = 10 ^ 12 then ((10 ^ (12 - 1) : Nat), e0 + 1) else (n0, e0)).2
      ∧ (if n0 = 10 ^ 12 then ((10 ^ (12 - 1) : Nat), e0 + 1) else (n0, e0)).2 ≤ e0 + 1 := by
    intro n0 h1 h2
    by_cases h : n0 = 10 ^ 12
    · simp only [h, if_true]
      exact ⟨by norm_num, by norm_num, by omega, le_rfl⟩
    · simp only [h, if_false]
      exact ⟨h1, by omega, le_rfl, by omega⟩
  unfold sigDigits
  simp only [← ht, htn]
  apply key
  · split <;> omega
  · split <;> omega

theorem digitsVal_foldl (y : List Char) : ∀ acc : Nat,
    y.foldl (fun a c => 10 * a + digitVal c) acc = acc * 10 ^ y.length + digitsVal y := by
  induction y with
  | nil => intro acc; simp [digitsVal]
  | cons c t ih =>
    intro acc
    simp only [List.foldl_cons, List.length_cons, digitsVal]
    rw [ih (10 * acc + digitVal c), ih (10 * 0 + digitVal c)]
    ring

theorem digitsVal_append_list (x y : List Char) :
    digitsVal (x ++ y) = digitsVal x * 10 ^ y.length + digitsVal y := by
  simp only [digitsVal, List.foldl_append]
  exact digitsVal_foldl y _

theorem decimalVal_split (m : List Char) (j : Nat) :
    decimalVal (m.take j) (m.drop j) = (digitsVal m : ℚ) / ((10 ^ (m.length - j) : Nat) : ℚ) := by
  have h := digitsVal_append_list (m.take j) (m.drop j)
  rw [List.take_append_drop] at h
  have hl : (m.drop j).length = m.length - j := List.length_drop j m
  rw [hl] at h
  unfold decimalVal
  rw [hl, h]
  have : ((10 ^ (m.length - j) : Nat) : ℚ) ≠ 0 := by positivity
  push_cast
  field_simp

theorem scanExponent_expPart (e : Int) : scanExponent (expPart e) = (e, []) := by
  have hds := natDigits_isDigit e.natAbs
  have hne := natDigits_ne_nil e.natAbs
  have htw := takeWhile_all isDigit _ hds
  unfold expPart scanExponent
  by_cases he : 0 ≤ e
  · have hv : ((e.natAbs : Nat) : Int) = e := Int.natAbs_of_nonneg he
    simp [he, htw.1, htw.2, hne, digitsVal_natDigits, hv]
  · have hv : -|e| = e := by rw [abs_of_neg (by omega)]; ring
    simp [he, htw.1, htw.2, hne, digitsVal_natDigits, hv]

theorem scanDecimal_plain (ip : List Char) (hip : ∀ c ∈ ip, isDigit c = true) (hne : ip ≠ []) :
    scanDecimal ip = some ((digitsVal ip : ℚ), []) := by
  have h := takeWhile_all isDigit ip hip
  have h0 : digitsVal [] = 0 := rfl
  simp [scanDecimal, h.1, h.2, hne, scanExponent, decimalVal, pow10, h0]

theorem scanDecimal_dot (ip fp : List Char) (hip : ∀ c ∈ ip, isDigit c = true)
    (hfp : ∀ c ∈ fp, isDigit c = true) (hne : ip ≠ []) :
    scanDecimal (ip ++ '.' :: fp) = some (decimalVal ip fp, []) := by
  have h := takeWhile_run isDigit ip '.' fp hip (by decide)
  have hz := takeWhile_all isDigit fp hfp
  simp [scanDecimal, h.1, h.2, hz.1, hz.2, hne, scanExponent, pow10]

theorem scanDecimal_exp (ip fp : List Char) (e : Int) (hip : ∀ c ∈ ip, isDigit c = true)
    (hfp : ∀ c ∈ fp, isDigit c = true) (hne : ip ≠ []) :
    scanDecimal (ip ++ '.' :: (fp ++ expPart e)) = some (decimalVal ip fp * pow10 e, []) := by
  have h := takeWhile_run isDigit ip '.' (fp ++ expPart e) hip (by decide)
  have hx : expPart e = 'e' :: (if 0 ≤ e then '+' else '-') :: natDigits e.natAbs := rfl
  have hz : (fp ++ expPart e).takeWhile isDigit = fp ∧ (fp ++ expPart e).dropWhile isDigit = expPart e := by
    rw [hx]
    exact takeWhile_run isDigit fp 'e' _ hfp (by decide)
  simp [scanDecimal, h.1, h.2, hz.1, hz.2, hne, scanExponent_expPart]

theorem isSpace_of_isNumChar (c : Char) (h : isNumChar c = true) : isSpace c = false := by
  simp only [isNumChar, Bool.or_eq_true, decide_eq_true_eq] at h
  rcases h with (((h | rfl) | rfl) | rfl) | rfl
  · exact isSpace_of_isDigit c h
  all_goals decide

theorem stringToNumber_scan (d : Char) (tl : List Char) (hd : isDigit d = true)
    (hsp : ∀ c ∈ d :: tl, isNumChar c = true) (v : ℚ)
    (hs : scanDecimal (d :: tl) = some (v, [])) :
    stringToNumber (d :: tl) = ofRat v false
    ∧ stringToNumber ('-' :: d :: tl) = ofRat (-v) true := by
  have h1 : d ≠ '-' := by rintro rfl; exact absurd hd (by decide)
  have h2 : d ≠ '+' := by rintro rfl; exact absurd hd (by decide)
  have h3 : d ≠ 'I' := by rintro rfl; exact absurd hd (by decide)
  have hI : "Infinity".toList.isPrefixOf (d :: tl) = false := by
    show ('I' :: "nfinity".toList).isPrefixOf (d :: tl) = false
    simp [List.isPrefixOf, Ne.symm h3]
  have hsp1 : ∀ c ∈ d :: tl, isSpace c = false := fun c hc => isSpace_of_isNumChar c (hsp c hc)
  have hsp2 : ∀ c ∈ '-' :: d :: tl, isSpace c = false := by
    intro c hc
    rcases List.mem_cons.mp hc with h | h
    · rw [h]; decide
    · exact hsp1 c h
  constructor
  · unfold stringToNumber
    simp only [trim_of_all_false _ hsp1, List.cons_ne_nil, if_false]
    unfold scanSigned
    simp only [List.head?_cons, Option.some.injEq, h1, h2, or_self, if_false, hI, hs]
    simp
  · unfold stringToNumber
    simp only [trim_of_all_false _ hsp2, List.cons_ne_nil, if_false]
    unfold scanSigned
    simp only [List.head?_cons, true_or, if_true, List.tail_cons, hI, hs]
    simp

theorem natDigits_length_twelve (n : Nat) (h1 : 10 ^ 11 ≤ n) (h2 : n < 10 ^ 12) :
    (natDigits n).length = 12 := by
  have hn : 0 < n := lt_of_lt_of_le (by norm_num) h1
  have hle := natDigits_length_le n 12 hn h2
  have hb := (natDigits_length_bounds n hn).2
  by_contra hne
  have : (natDigits n).length ≤ 11 := by omega
  have : 10 ^ (natDigits n).length ≤ 10 ^ 11 := Nat.pow_le_pow_right (by norm_num) this
  omega

theorem pow10_neg_nat (k : Nat) : pow10 (-(k : Int)) = 1 / (10 : ℚ) ^ k := by
  rw [pow10_eq_zpow, zpow_neg, zpow_natCast, one_div]

theorem isNumChar_of_isDigit (c : Char) (h : isDigit c = true) : isNumChar c = true := by
  simp [isNumChar, h]

theorem expPart_numChar (e : Int) : ∀ c ∈ expPart e, isNumChar c = true := by
  intro c hc
  unfold expPart at hc
  simp only [List.mem_cons] at hc
  rcases hc with rfl | hc | hc
  · decide
  · rw [hc]; split <;> decide
  · exact isNumChar_of_isDigit c (natDigits_isDigit _ c hc)

theorem stringToNumber_precisionText (n : Nat) (e : Int) (h1 : 10 ^ 11 ≤ n) (h2 : n < 10 ^ 12) :
    stringToNumber (precisionText 12 (natDigits n) e) = ofRat ((n : ℚ) * pow10 (e - 11)) false
    ∧ stringToNumber ('-' :: precisionText 12 (natDigits n) e)
        = ofRat (-((n : ℚ) * pow10 (e - 11))) true := by
  have hlen := natDigits_length_twelve n h1 h2
  have hds := natDigits_isDigit n
  have hval := digitsVal_natDigits n
  set m := natDigits n with hm
  have htake : ∀ j, ∀ c ∈ m.take j, isDigit c = true := fun j c hc => hds c (List.mem_of_mem_take hc)
  have hdrop : ∀ j, ∀ c ∈ m.drop j, isDigit c = true := fun j c hc => hds c (List.mem_of_mem_drop hc)
  obtain ⟨d, t, hdt⟩ : ∃ d t, m = d :: t := by
    cases hm' : m with
    | nil => rw [hm'] at hlen; simp at hlen
    | cons d t => exact ⟨d, t, rfl⟩
  have hd : isDigit d = true := hds d (by rw [hdt]; exact List.mem_cons_self _ _)
  have hsplitval : ∀ j : Nat, j ≤ 12 →
      decimalVal (m.take j) (m.drop j) = (n : ℚ) * pow10 (-((12 - j : Nat) : Int)) := by
    intro j _
    rw [decimalVal_split, hlen, hval, pow10_neg_nat]
    push_cast
    ring
  unfold precisionText
  split
  · -- exponential form
    have hp : ¬ (12 : Nat) = 1 := by decide
    simp only [hp, if_false]
    have htxt : m.take 1 ++ '.' :: m.drop 1 ++ expPart e
        = d :: ('.' :: (t ++ expPart e)) := by
      rw [hdt]; simp
    have hscan := scanDecimal_exp (m.take 1) (m.drop 1) e (htake 1) (hdrop 1)
      (by rw [hdt]; simp)
    have hv : decimalVal (m.take 1) (m.drop 1) * pow10 e = (n : ℚ) * pow10 (e - 11) := by
      rw [hsplitval 1 (by norm_num), mul_assoc, ← pow10_add]
      congr 2
      simp only [Nat.reduceSub]; push_cast; ring
    rw [hv] at hscan
    have htxt2 : m.take 1 ++ '.' :: (m.drop 1 ++ expPart e) = d :: ('.' :: (t ++ expPart e)) := by
      rw [hdt]; simp
    rw [htxt2] at hscan
    rw [htxt]
    apply stringToNumber_scan d _ hd _ _ hscan
    intro c hc
    simp only [List.mem_cons, List.mem_append] at hc
    rcases hc with rfl | rfl | hc | hc
    · exact isNumChar_of_isDigit _ hd
    · decide
    · exact isNumChar_of_isDigit c (hds c (by rw [hdt]; exact List.mem_cons_of_mem _ hc))
    · exact expPart_numChar e c hc
  · split
    · next hne he =>
      -- twelve digits before the point
      have hscan := scanDecimal_plain m hds (by rw [hdt]; simp)
      have hv : ((digitsVal m : Nat) : ℚ) = (n : ℚ) * pow10 (e - 11) := by
        have : e - 11 = 0 := by rw [he]; norm_num
        rw [hval, this]
        simp [pow10]
      rw [hv, hdt] at hscan
      rw [hdt]
      apply stringToNumber_scan d _ hd _ _ hscan
      intro c hc
      exact isNumChar_of_isDigit c (hds c (by rw [hdt]; exact hc))
    · split
      · next hne he hpos =>
        obtain ⟨j, hj⟩ : ∃ j : Nat, e = (j : Int) := ⟨e.toNat, by omega⟩
        have hj11 : j < 11 := by
          have : ¬ (e < -6 ∨ ((12 : Nat) : Int) ≤ e) := hne
          push_cast at he this
          omega
        have htn : e.toNat + 1 = j + 1 := by omega
        rw [htn]
        have hscan := scanDecimal_dot (m.take (j + 1)) (m.drop (j + 1)) (htake _) (hdrop _)
          (by rw [hdt]; simp)
        have hv : decimalVal (m.take (j + 1)) (m.drop (j + 1)) = (n : ℚ) * pow10 (e - 11) := by
          rw [hsplitval (j + 1) (by omega)]
          congr 2
          rw [hj]
          have : ((12 - (j + 1) : Nat) : Int) = 11 - (j : Int) := by omega
          rw [this]; ring
        rw [hv] at hscan
        have htxt : m.take (j + 1) ++ '.' :: m.drop (j + 1)
            = d :: (t.take j ++ '.' :: m.drop (j + 1)) := by
          rw [hdt]; simp
        rw [htxt] at hscan ⊢
        apply stringToNumber_scan d _ hd _ _ hscan
        intro c hc
        simp only [List.mem_cons, List.mem_append] at hc
        rcases hc with rfl | hc | rfl | hc
        · exact isNumChar_of_isDigit _ hd
        · exact isNumChar_of_isDigit c
            (hds c (by rw [hdt]; exact List.mem_cons_of_mem _ (List.mem_of_mem_take hc)))
        · decide
        · exact isNumChar_of_isDigit c (hdrop _ c hc)
      · next hne he hneg =>
        obtain ⟨k, hk⟩ : ∃ k : Nat, -(e + 1) = (k : Int) := ⟨(-(e + 1)).toNat, by omega⟩
        have htn : (-(e + 1)).toNat = k := by omega
        rw [htn]
        have hzd : ∀ c ∈ zeros k ++ m, isDigit c = true := by
          intro c hc
          rcases List.mem_append.mp hc with h | h
          · exact zeros_isDigit k c h
          · exact hds c h
        have hscan := scanDecimal_dot ['0'] (zeros k ++ m) (by decide) hzd (by simp)
        have hv : decimalVal ['0'] (zeros k ++ m) = (n : ℚ) * pow10 (e - 11) := by
          have hz0 : digitsVal ['0'] = 0 := by decide
          have hl : (zeros k ++ m).length = k + 12 := by simp [zeros, hlen]
          have he' : e - 11 = -((k + 12 : Nat) : Int) := by push_cast; omega
          unfold decimalVal
          rw [hz0, digitsVal_append_list, digitsVal_zeros, hl, hval, he', pow10_neg_nat]
          push_cast
          ring
        rw [hv] at hscan
        have htxt : '0' :: '.' :: zeros k ++ m = '0' :: ('.' :: (zeros k ++ m)) := by simp
        have hscan2 : scanDecimal ('0' :: ('.' :: (zeros k ++ m)))
            = some ((n : ℚ) * pow10 (e - 11), []) := by simpa using hscan
        rw [htxt]
        apply stringToNumber_scan '0' ('.' :: (zeros k ++ m)) (by decide) _ _ hscan2
        intro c hc
        simp only [List.mem_cons, List.mem_append] at hc
        rcases hc with rfl | rfl | hc | hc
        · decide
        · decide
        · exact isNumChar_of_isDigit c (zeros_isDigit k c hc)
        · exact isNumChar_of_isDigit c (hds c hc)

theorem range_lo : pow2 (-1022) ≤ pow10 (-300) / 4 := by
  rw [pow2_eq_zpow, pow10_eq_zpow]
  norm_num

theorem range_hi : 2 * pow10 301 ≤ pow2 1023 := by
  rw [pow2_eq_zpow, pow10_eq_zpow]
  norm_num

theorem pow10_split11 (e : Int) : pow10 e = (10 : ℚ) ^ 11 * pow10 (e - 11) := by
  have h11 : pow10 ((11 : Nat) : Int) = (10 : ℚ) ^ 11 := by rw [pow10_eq_zpow, zpow_natCast]
  have : e = ((11 : Nat) : Int) + (e - 11) := by push_cast; ring
  rw [← h11, ← pow10_add, ← this]

theorem pow10_split12 (e : Int) : pow10 (e + 1) = (10 : ℚ) ^ 12 * pow10 (e - 11) := by
  have h12 : pow10 ((12 : Nat) : Int) = (10 : ℚ) ^ 12 := by rw [pow10_eq_zpow, zpow_natCast]
  have : e + 1 = ((12 : Nat) : Int) + (e - 11) := by push_cast; ring
  rw [← h12, ← pow10_add, ← this]

/-- In the range of the exponents considered, a value between a quarter of
`10 ^ e` and twice `10 ^ (e + 1)` is a normal binary64 magnitude. -/
theorem range_normal (e : Int) (hel : -300 ≤ e) (heh : e ≤ 300) (X : ℚ)
    (hlo : pow10 e / 4 ≤ X) (hhi : X ≤ 2 * pow10 (e + 1)) :
    pow2 (-1022) ≤ X ∧ X ≤ pow2 1023 := by
  have h1 : pow10 (-300) ≤ pow10 e := pow10_le_pow10 hel
  have h2 : pow10 (e + 1) ≤ pow10 301 := pow10_le_pow10 (by omega)
  have := range_lo
  have := range_hi
  constructor <;> linarith

/-- Two decimals on the grid of step `10 ^ (e - 11)` near `10 ^ e` that round
to the same binary64 value are equal. -/
theorem round_inj (e : Int) (hel : -300 ≤ e) (heh : e ≤ 300) (n G : Nat)
    (h11 : 10 ^ 11 ≤ n) (h12 : n < 10 ^ 12)
    (hXlo : pow10 e / 4 ≤ (G : ℚ) * pow10 (e - 11))
    (hXhi : (G : ℚ) * pow10 (e - 11) ≤ 2 * pow10 (e + 1))
    (heq : ofRat ((G : ℚ) * pow10 (e - 11)) false = ofRat ((n : ℚ) * pow10 (e - 11)) false) :
    G = n := by
  have hP : 0 < pow10 (e - 11) := pow10_pos _
  have hs11 := pow10_split11 e
  have hs12 := pow10_split12 e
  set P := pow10 (e - 11) with hPdef
  have hn1 : ((10 : ℚ) ^ 11) ≤ (n : ℚ) := by exact_mod_cast h11
  have hn2 : (n : ℚ) < (10 : ℚ) ^ 12 := by exact_mod_cast h12
  have hDlo : pow10 e / 4 ≤ (n : ℚ) * P := by
    rw [hs11]; nlinarith
  have hDhi : (n : ℚ) * P ≤ 2 * pow10 (e + 1) := by
    rw [hs12]; nlinarith
  obtain ⟨hX1, hX2⟩ := range_normal e hel heh _ hXlo hXhi
  obtain ⟨hD1, hD2⟩ := range_normal e hel heh _ hDlo hDhi
  have hrX := (ofRat_eq_roundMag _ hX1 hX2 false).1
  have hrD := (ofRat_eq_roundMag _ hD1 hD2 false).1
  rw [hrX, hrD] at heq
  have hr : roundMag ((G : ℚ) * P) = roundMag ((n : ℚ) * P) := Num.fin.inj heq
  have eX := roundMag_err _ hX1
  have eD := roundMag_err _ hD1
  rw [hr, abs_le] at eX
  rw [abs_le] at eD
  have h53 : (0 : ℚ) < 2 ^ 53 := by positivity
  have hsum : ((G : ℚ) * P + (n : ℚ) * P) / 2 ^ 53 < P := by
    rw [div_lt_iff h53]
    have hG : (G : ℚ) * P ≤ 2 * ((10 : ℚ) ^ 12 * P) := by rw [← hs12]; exact hXhi
    have : (3 : ℚ) * 10 ^ 12 < 2 ^ 53 := by norm_num
    nlinarith
  have hadd : ((G : ℚ) * P + (n : ℚ) * P) / 2 ^ 53
      = (G : ℚ) * P / 2 ^ 53 + (n : ℚ) * P / 2 ^ 53 := by ring
  rcases lt_trichotomy G n with h | h | h
  · exfalso
    have : (G : ℚ) + 1 ≤ (n : ℚ) := by exact_mod_cast h
    nlinarith
  · exact h
  · exfalso
    have : (n : ℚ) + 1 ≤ (G : ℚ) := by exact_mod_cast h
    nlinarith

theorem floor_toNat_bounds (y sc : ℚ) (hy : 0 ≤ y) (hsc : 0 < sc) :
    ((⌊y / sc⌋.toNat : Nat) : ℚ) * sc ≤ y ∧ y < ((⌊y / sc⌋.toNat + 1 : Nat) : ℚ) * sc := by
  have h0 : 0 ≤ ⌊y / sc⌋ := Int.floor_nonneg.mpr (div_nonneg hy hsc.le)
  have hc : ((⌊y / sc⌋.toNat : Nat) : ℚ) = ((⌊y / sc⌋ : Int) : ℚ) := by
    have := Int.toNat_of_nonneg h0
    exact_mod_cast congrArg (fun z : Int => (z : ℚ)) this
  have h1 : ((⌊y / sc⌋ : Int) : ℚ) ≤ y / sc := Int.floor_le _
  have h2 : y / sc < ((⌊y / sc⌋ : Int) : ℚ) + 1 := Int.lt_floor_add_one _
  rw [le_div_iff hsc] at h1
  rw [div_lt_iff hsc] at h2
  push_cast
  rw [hc]
  exact ⟨h1, h2⟩

theorem shortCand_cases (q : ℚ) (n : Int) (k : Nat) :
    (shortCand q n k = none
      ∧ ofRat ((⌊q / pow10 (n - k)⌋.toNat : ℚ) * pow10 (n - k)) false ≠ Num.fin q
      ∧ ofRat (((⌊q / pow10 (n - k)⌋.toNat + 1 : Nat) : ℚ) * pow10 (n - k)) false ≠ Num.fin q)
    ∨ (∃ s, shortCand q n k = some s
      ∧ (s = ⌊q / pow10 (n - k)⌋.toNat ∨ s = ⌊q / pow10 (n - k)⌋.toNat + 1)
      ∧ ofRat ((s : ℚ) * pow10 (n - k)) false = Num.fin q) := by
  unfold shortCand
  simp only
  by_cases hlo : ofRat ((⌊q / pow10 (n - k)⌋.toNat : ℚ) * pow10 (n - k)) false = Num.fin q
  · by_cases hhi :
        ofRat (((⌊q / pow10 (n - k)⌋.toNat + 1 : Nat) : ℚ) * pow10 (n - k)) false = Num.fin q
    · right
      simp only [hlo, hhi, decide_True, Bool.and_self, if_true]
      split
      · exact ⟨_, rfl, Or.inl rfl, hlo⟩
      · split
        · exact ⟨_, rfl, Or.inr rfl, hhi⟩
        · split
          · exact ⟨_, rfl, Or.inl rfl, hlo⟩
          · exact ⟨_, rfl, Or.inr rfl, hhi⟩
    · right
      simp only [hlo, hhi, decide_True, decide_False, Bool.and_false, if_true]
      exact ⟨_, by simp, Or.inl rfl, hlo⟩
  · by_cases hhi :
        ofRat (((⌊q / pow10 (n - k)⌋.toNat + 1 : Nat) : ℚ) * pow10 (n - k)) false = Num.fin q
    · right
      simp only [hlo, hhi, decide_True, decide_False, Bool.false_and, if_true]
      exact ⟨_, by simp, Or.inr rfl, hhi⟩
    · left
      simp only [hlo, hhi, decide_False, Bool.false_and]
      exact ⟨by simp, hlo, hhi⟩

theorem shortAux_found (q : ℚ) (n : Int) (s : Nat) :
    ∀ (j r k : Nat), (∀ i, i < j → shortCand q n (k + i) = none) →
      shortCand q n (k + j) = some s → j < r → shortAux q n r k = (s, k + j) := by
  intro j
  induction j with
  | zero =>
    intro r k _ hs hr
    obtain ⟨r', rfl⟩ : ∃ r', r = r' + 1 := ⟨r - 1, by omega⟩
    rw [Nat.add_zero] at hs
    simp only [shortAux, hs, Nat.add_zero]
  | succ j ih =>
    intro r k hnone hs hr
    obtain ⟨r', rfl⟩ : ∃ r', r = r' + 1 := ⟨r - 1, by omega⟩
    have h0 := hnone 0 (by omega)
    rw [Nat.add_zero] at h0
    simp only [shortAux, h0]
    have := ih r' (k + 1) (fun i hi => by
        have := hnone (i + 1) (by omega)
        rw [show k + 1 + i = k + (i + 1) by omega]; exact this)
      (by rw [show k + 1 + j = k + (j + 1) by omega]; exact hs) (by omega)
    rw [this]
    congr 1
    omega

theorem ofRat_neg_of_pos (D y : ℚ) (hD : 0 < D) (hy : 0 < y)
    (h : ofRat D false = Num.fin y) (z : Bool) : ofRat (-D) z = Num.fin (-y) := by
  have h1 : ¬ D = 0 := ne_of_gt hD
  have h2 : ¬ D < 0 := not_lt.mpr hD.le
  have h3 : -D < 0 := by linarith
  have h4 : ¬ -D = 0 := by
    intro h; linarith
  unfold ofRat at h ⊢
  simp only [h1, h2, h3, h4, abs_neg, abs_of_pos hD, if_false, if_true] at h ⊢
  by_cases hb : pow2 1024 ≤ roundMag D
  · simp only [hb, if_true] at h
    cases h
  · simp only [hb, if_false] at h ⊢
    by_cases h0 : roundMag D = 0
    · simp only [h0, if_true] at h
      have := Num.fin.inj h
      linarith
    · simp only [h0, if_false] at h ⊢
      rw [Num.fin.inj h]

theorem pow10_grid (e : Int) (d : Nat) :
    pow10 (e - 11 + (d : Int)) = (10 : ℚ) ^ d * pow10 (e - 11) := by
  rw [pow10_add, pow10_natCast, mul_comm]
  push_cast
  rfl

/-- The binary64 value `y` nearest to a decimal `n * 10 ^ (e - 11)` of twelve
digits lies within half a unit of the twelfth digit of it. -/
theorem near_facts (e : Int) (hel : -300 ≤ e) (heh : e ≤ 300) (n : Nat)
    (h11 : 10 ^ 11 ≤ n) (h12 : n < 10 ^ 12) :
    ∃ y : ℚ, ofRat ((n : ℚ) * pow10 (e - 11)) false = Num.fin y
      ∧ ofRat (-((n : ℚ) * pow10 (e - 11))) true = Num.fin (-y)
      ∧ 0 < y
      ∧ |y - (n : ℚ) * pow10 (e - 11)| < pow10 (e - 11) / 2
      ∧ pow10 e / 2 ≤ y ∧ y < pow10 (e + 1)
      ∧ |y - (n : ℚ) * pow10 (e - 11)| < pow10 (e - 11) / 1000 := by
  have hP : 0 < pow10 (e - 11) := pow10_pos _
  have hs11 := pow10_split11 e
  have hs12 := pow10_split12 e
  set P := pow10 (e - 11) with hPdef
  have hn1 : ((10 : ℚ) ^ 11) ≤ (n : ℚ) := by exact_mod_cast h11
  have hn2 : (n : ℚ) + 1 ≤ (10 : ℚ) ^ 12 := by exact_mod_cast h12
  have hDlo : pow10 e / 4 ≤ (n : ℚ) * P := by
    rw [hs11]; nlinarith
  have hDhi : (n : ℚ) * P ≤ 2 * pow10 (e + 1) := by
    rw [hs12]; nlinarith
  have hDpos : 0 < (n : ℚ) * P := by positivity
  obtain ⟨hD1, hD2⟩ := range_normal e hel heh _ hDlo hDhi
  obtain ⟨hr, hrpos⟩ := ofRat_eq_roundMag _ hD1 hD2 false
  have herr := roundMag_err _ hD1
  have h53 : (0 : ℚ) < 2 ^ 53 := by positivity
  have hsmall : (n : ℚ) * P / 2 ^ 53 < P / 1000 := by
    rw [div_lt_div_iff h53 (by norm_num)]
    have : (1000 : ℚ) * 10 ^ 12 < 2 ^ 53 := by norm_num
    nlinarith
  have hlt : |roundMag ((n : ℚ) * P) - (n : ℚ) * P| < P / 2 := by
    have : P / 1000 < P / 2 := by linarith
    linarith
  refine ⟨roundMag ((n : ℚ) * P), hr, ofRat_neg_of_pos _ _ hDpos hrpos hr true, hrpos, hlt,
    ?_, ?_, lt_of_le_of_lt herr hsmall⟩
  · rw [abs_lt] at hlt
    rw [hs11]
    nlinarith
  · rw [abs_lt] at hlt
    rw [hs12]
    nlinarith

/-- A candidate of the shortest representation on the grid of step
`10 ^ (e - 11 + d)` that rounds to `y` is the decimal `n * 10 ^ (e - 11)`. -/
theorem cand_grid (e : Int) (hel : -300 ≤ e) (heh : e ≤ 300) (n : Nat)
    (h11 : 10 ^ 11 ≤ n) (h12 : n < 10 ^ 12) (d : Nat) (hd : d ≤ 11) (y : ℚ)
    (hy : ofRat ((n : ℚ) * pow10 (e - 11)) false = Num.fin y) (hy0 : 0 < y)
    (hy1 : pow10 e / 2 ≤ y) (hy2 : y < pow10 (e + 1)) (g : Nat)
    (hg : g = ⌊y / pow10 (e - 11 + (d : Int))⌋.toNat
      ∨ g = ⌊y / pow10 (e - 11 + (d : Int))⌋.toNat + 1)
    (hok : ofRat ((g : ℚ) * pow10 (e - 11 + (d : Int))) false = Num.fin y) :
    g * 10 ^ d = n := by
  have hP : 0 < pow10 (e - 11) := pow10_pos _
  have hsc : 0 < pow10 (e - 11 + (d : Int)) := pow10_pos _
  obtain ⟨hf1, hf2⟩ := floor_toNat_bounds y _ hy0.le hsc
  have hgrid := pow10_grid e d
  have hs11 := pow10_split11 e
  have hs12 := pow10_split12 e
  have hscle : pow10 (e - 11 + (d : Int)) ≤ pow10 e := pow10_le_pow10 (by omega)
  have hee : pow10 e ≤ pow10 (e + 1) := pow10_le_pow10 (by omega)
  have hepos : 0 < pow10 e := pow10_pos _
  rcases Nat.eq_zero_or_pos g with h0 | hgpos
  · exfalso
    rw [h0] at hok
    simp only [Nat.cast_zero, zero_mul, ofRat, if_true] at hok
    have := Num.fin.inj hok
    linarith
  · have hg1 : (1 : ℚ) ≤ (g : ℚ) := by exact_mod_cast hgpos
    have hXge : pow10 (e - 11 + (d : Int)) ≤ (g : ℚ) * pow10 (e - 11 + (d : Int)) := by
      nlinarith
    have hXlo2 : y - pow10 (e - 11 + (d : Int)) < (g : ℚ) * pow10 (e - 11 + (d : Int)) := by
      rcases hg with h | h
      · rw [h]; push_cast at hf2 ⊢; linarith
      · rw [h]; push_cast at hf2 ⊢; nlinarith
    have hXhi2 : (g : ℚ) * pow10 (e - 11 + (d : Int)) ≤ y + pow10 (e - 11 + (d : Int)) := by
      rcases hg with h | h
      · rw [h]; linarith
      · rw [h]; push_cast at hf1 ⊢; linarith
    have hXlo : pow10 e / 4 ≤ ((g * 10 ^ d : Nat) : ℚ) * pow10 (e - 11) := by
      have : ((g * 10 ^ d : Nat) : ℚ) * pow10 (e - 11)
          = (g : ℚ) * pow10 (e - 11 + (d : Int)) := by
        rw [hgrid]; push_cast; ring
      rw [this]
      linarith
    have hXhi : ((g * 10 ^ d : Nat) : ℚ) * pow10 (e - 11) ≤ 2 * pow10 (e + 1) := by
      have : ((g * 10 ^ d : Nat) : ℚ) * pow10 (e - 11)
          = (g : ℚ) * pow10 (e - 11 + (d : Int)) := by
        rw [hgrid]; push_cast; ring
      rw [this]
      linarith
    apply round_inj e hel heh n (g * 10 ^ d) h11 h12 hXlo hXhi
    have : ((g * 10 ^ d : Nat) : ℚ) * pow10 (e - 11)
        = (g : ℚ) * pow10 (e - 11 + (d : Int)) := by
      rw [hgrid]; push_cast; ring
    rw [this, hok, hy]

theorem cand_none (e : Int) (hel : -300 ≤ e) (heh : e ≤ 300) (n : Nat)
    (h11 : 10 ^ 11 ≤ n) (h12 : n < 10 ^ 12) (d : Nat) (hd : d ≤ 11) (hnd : ¬ 10 ^ d ∣ n)
    (y : ℚ) (hy : ofRat ((n : ℚ) * pow10 (e - 11)) false = Num.fin y) (hy0 : 0 < y)
    (hy1 : pow10 e / 2 ≤ y) (hy2 : y < pow10 (e + 1)) (n0 : Int) (k : Nat)
    (hk : n0 - (k : Int) = e - 11 + (d : Int)) : shortCand y n0 k = none := by
  rcases shortCand_cases y n0 k with ⟨h, _, _⟩ | ⟨s, _, hg, hok⟩
  · exact h
  · exfalso
    rw [hk] at hg hok
    have := cand_grid e hel heh n h11 h12 d hd y hy hy0 hy1 hy2 s hg hok
    exact hnd ⟨s, by rw [← this]; ring⟩

theorem cand_some (e : Int) (hel : -300 ≤ e) (heh : e ≤ 300) (n : Nat)
    (h11 : 10 ^ 11 ≤ n) (h12 : n < 10 ^ 12) (d : Nat) (hd : d ≤ 11) (s : Nat)
    (hns : n = s * 10 ^ d)
    (y : ℚ) (hy : ofRat ((n : ℚ) * pow10 (e - 11)) false = Num.fin y) (hy0 : 0 < y)
    (hnear : |y - (n : ℚ) * pow10 (e - 11)| < pow10 (e - 11) / 2)
    (hy1 : pow10 e / 2 ≤ y) (hy2 : y < pow10 (e + 1)) (n0 : Int) (k : Nat)
    (hk : n0 - (k : Int) = e - 11 + (d : Int)) : shortCand y n0 k = some s := by
  have hP : 0 < pow10 (e - 11) := pow10_pos _
  have hsc : 0 < pow10 (e - 11 + (d : Int)) := pow10_pos _
  have hgrid := pow10_grid e d
  have hD : (n : ℚ) * pow10 (e - 11) = (s : ℚ) * pow10 (e - 11 + (d : Int)) := by
    rw [hgrid, hns]; push_cast; ring
  have hPle : pow10 (e - 11) ≤ pow10 (e - 11 + (d : Int)) := pow10_le_pow10 (by omega)
  rcases shortCand_cases y n0 k with ⟨_, hlo, hhi⟩ | ⟨s1, hs1, hg, hok⟩
  · exfalso
    rw [hk] at hlo hhi
    obtain ⟨hf1, hf2⟩ := floor_toNat_bounds y _ hy0.le hsc
    rw [hD, abs_lt] at hnear
    set f := ⌊y / pow10 (e - 11 + (d : Int))⌋.toNat
    set sc := pow10 (e - 11 + (d : Int))
    have h1 : f ≤ s := by
      by_contra hc
      have : (s : ℚ) + 1 ≤ (f : ℚ) := by exact_mod_cast (not_le.mp hc)
      nlinarith
    have h2 : s ≤ f + 1 := by
      by_contra hc
      have : ((f + 1 : Nat) : ℚ) + 1 ≤ (s : ℚ) := by exact_mod_cast (not_le.mp hc)
      nlinarith
    rcases Nat.eq_or_lt_of_le h1 with h | h
    · apply hlo
      rw [h, ← hD, hy]
    · apply hhi
      have : f + 1 = s := by omega
      rw [this, ← hD, hy]
  · rw [hk] at hg hok
    have := cand_grid e hel heh n h11 h12 d hd y hy hy0 hy1 hy2 s1 hg hok
    rw [hns] at this
    have hs : s1 = s := Nat.eq_of_mul_eq_mul_right (by positivity) this
    rw [hs1, hs]

theorem ilog10_unique (y : ℚ) (hy : 0 < y) (e : Int) (h1 : pow10 e ≤ y)
    (h2 : y < pow10 (e + 1)) : ilog10 y = e := by
  obtain ⟨b1, b2⟩ := ilog10_bounds y hy
  rcases lt_trichotomy (ilog10 y) e with h | h | h
  · exfalso
    have : pow10 (ilog10 y + 1) ≤ pow10 e := pow10_le_pow10 (by omega)
    linarith
  · exact h
  · exfalso
    have : pow10 (e + 1) ≤ pow10 (ilog10 y) := pow10_le_pow10 (by omega)
    linarith

theorem posToString_eq (q : ℚ) :
    posToString q
      = decimalText
          (if (shortAux q (ilog10 q + 1) 20 1).1 = 10 ^ (shortAux q (ilog10 q + 1) 20 1).2
            then ['1'] else natDigits (shortAux q (ilog10 q + 1) 20 1).1)
          (if (shortAux q (ilog10 q + 1) 20 1).1 = 10 ^ (shortAux q (ilog10 q + 1) 20 1).2
            then ilog10 q + 1 + 1 else ilog10 q + 1) := by
  unfold posToString decimalText
  rfl

theorem exists_strip (n : Nat) (hn : 0 < n) : ∃ m j, n = m * 10 ^ j ∧ m % 10 ≠ 0 := by
  induction n using Nat.strong_induction_on with
  | _ n ih =>
    by_cases h : n % 10 = 0
    · have hlt : n / 10 < n := Nat.div_lt_self hn (by decide)
      have hpos : 0 < n / 10 := by omega
      obtain ⟨m, j, hmj, hm⟩ := ih (n / 10) hlt hpos
      refine ⟨m, j + 1, ?_, hm⟩
      have : n = n / 10 * 10 := by omega
      rw [this, hmj]; ring
    · exact ⟨n, 0, by simp, h⟩

theorem digitChar_ne_zero (r : Nat) (h0 : r ≠ 0) (h : r < 10) : (digitChar r == '0') = false := by
  interval_cases r <;> first | exact absurd rfl h0 | decide

theorem dropWhile_zeros (j : Nat) (c : Char) (hc : (c == '0') = false) (l : List Char) :
    (List.replicate j '0' ++ c :: l).dropWhile (fun c => c == '0') = c :: l := by
  induction j with
  | zero => simp [List.dropWhile, hc]
  | succ j ih =>
    rw [List.replicate_succ, List.cons_append, List.dropWhile_cons]
    simp only [beq_self_eq_true, if_true]
    exact ih

theorem stripZeros_natDigits (m j : Nat) (hm : m % 10 ≠ 0) :
    stripZeros (natDigits (m * 10 ^ j)) = natDigits m := by
  have hpos : 0 < m := by
    rcases Nat.eq_zero_or_pos m with h | h
    · rw [h] at hm; exact absurd rfl hm
    · exact h
  obtain ⟨i, c, hic, hc⟩ : ∃ i c, natDigits m = i ++ [c] ∧ (c == '0') = false := by
    by_cases h10 : m < 10
    · exact ⟨[], digitChar m, by rw [natDigits_small m h10]; rfl,
        digitChar_ne_zero m (by omega) h10⟩
    · exact ⟨natDigits (m / 10), digitChar (m % 10), natDigits_step m (by omega),
        digitChar_ne_zero _ hm (Nat.mod_lt _ (by decide))⟩
  rw [natDigits_mul_pow m hpos j, hic]
  unfold stripZeros zeros
  simp only [List.reverse_append, List.reverse_replicate, List.reverse_cons, List.reverse_nil,
    List.nil_append, List.singleton_append]
  rw [dropWhile_zeros j c hc]
  simp

/-- The shortest decimal that rounds to the binary64 value `y` nearest to a
decimal of twelve digits is that decimal without the zeros at its end. -/
theorem posToString_near (e : Int) (hel : -300 ≤ e) (heh : e ≤ 300) (n : Nat)
    (h11 : 10 ^ 11 ≤ n) (h12 : n < 10 ^ 12)
    (y : ℚ) (hy : ofRat ((n : ℚ) * pow10 (e - 11)) false = Num.fin y) (hy0 : 0 < y)
    (hnear : |y - (n : ℚ) * pow10 (e - 11)| < pow10 (e - 11) / 2)
    (hy1 : pow10 e / 2 ≤ y) (hy2 : y < pow10 (e + 1)) :
    posToString y = decimalText (stripZeros (natDigits n)) (e + 1) := by
  have hP : 0 < pow10 (e - 11) := pow10_pos _
  have hs11 := pow10_split11 e
  by_cases hA : pow10 e ≤ y
  · -- the value has the decimal exponent of the decimal
    have hn0 : 0 < n := lt_of_lt_of_le (by norm_num) h11
    obtain ⟨m, j, hmj, hm⟩ := exists_strip n hn0
    have hmpos : 0 < m := by
      rcases Nat.eq_zero_or_pos m with h | h
      · rw [h] at hm; exact absurd rfl hm
      · exact h
    have hj : j ≤ 11 := by
      by_contra hc
      have h1 : 10 ^ 12 ≤ 10 ^ j := Nat.pow_le_pow_right (by norm_num) (by omega)
      have h2 : 10 ^ j ≤ m * 10 ^ j := Nat.le_mul_of_pos_left _ hmpos
      omega
    have hmlt : m < 10 ^ (12 - j) := by
      by_contra hc
      have h1 : 10 ^ (12 - j) * 10 ^ j ≤ m * 10 ^ j := Nat.mul_le_mul_right _ (not_lt.mp hc)
      rw [← pow_add] at h1
      have : 12 - j + j = 12 := by omega
      rw [this] at h1
      omega
    have hlog := ilog10_unique y hy0 e hA hy2
    have hsA : shortAux y (e + 1) 20 1 = (m, 1 + (11 - j)) := by
      apply shortAux_found y (e + 1) m (11 - j) 20 1
      · intro i hi
        apply cand_none e hel heh n h11 h12 (11 - i) (by omega) _ y hy hy0 hy1 hy2
        · push_cast
          have : ((11 - i : Nat) : Int) = 11 - (i : Int) := by omega
          rw [this]; ring
        · intro hdvd
          have h1 : 10 ^ (j + 1) ∣ 10 ^ (11 - i) := pow_dvd_pow 10 (by omega)
          have h2 : 10 ^ (j + 1) ∣ m * 10 ^ j := by rw [← hmj]; exact dvd_trans h1 hdvd
          rw [pow_succ, mul_comm] at h2
          have h3 : 10 ∣ m := Nat.dvd_of_mul_dvd_mul_right (by positivity) h2
          exact hm (Nat.mod_eq_zero_of_dvd h3)
      · apply cand_some e hel heh n h11 h12 j hj m hmj y hy hy0 hnear hy1 hy2
        push_cast
        have : ((11 - j : Nat) : Int) = 11 - (j : Int) := by omega
        rw [this]; ring
      · omega
    have hne : ¬ m = 10 ^ (1 + (11 - j)) := by
      have : 1 + (11 - j) = 12 - j := by omega
      rw [this]; omega
    rw [posToString_eq, hlog, hsA]
    simp only [hne, if_false]
    rw [hmj, stripZeros_natDigits m j hm]
  · -- the decimal is a power of ten and the value is just below it
    have hylt : y < pow10 e := not_le.mp hA
    have hn : n = 10 ^ 11 := by
      by_contra hc
      have : ((10 : ℚ) ^ 11) + 1 ≤ (n : ℚ) := by
        have : 10 ^ 11 + 1 ≤ n := by omega
        exact_mod_cast this
      rw [abs_lt] at hnear
      rw [hs11] at hylt
      nlinarith
    have he1 : pow10 e = 10 * pow10 (e - 1) := by
      have : e = 1 + (e - 1) := by ring
      have h1 : pow10 ((1 : Nat) : Int) = 10 := by rw [pow10_natCast]; norm_num
      nth_rewrite 1 [this]
      rw [pow10_add]
      congr 1
    have hlog : ilog10 y = e - 1 := by
      apply ilog10_unique y hy0
      · have := pow10_pos (e - 1)
        linarith
      · have : e - 1 + 1 = e := by ring
        rw [this]; exact hylt
    have hsB : shortAux y (e - 1 + 1) 20 1 = (10, 1 + 0) := by
      apply shortAux_found y (e - 1 + 1) 10 0 20 1
      · intro i hi; omega
      · apply cand_some e hel heh n h11 h12 10 (by norm_num) 10 (by rw [hn]; norm_num)
          y hy hy0 hnear hy1 hy2
        push_cast; ring
      · norm_num
    have hstrip : stripZeros (natDigits n) = ['1'] := by
      have h1 : n = 1 * 10 ^ 11 := by rw [hn]; norm_num
      rw [h1, stripZeros_natDigits 1 11 (by decide), natDigits_small 1 (by decide)]
      rfl
    rw [posToString_eq, hlog, hsB, hstrip]
    have heq : (10 : Nat) = 10 ^ (1 + 0) := by norm_num
    simp only [← heq, if_true]
    congr 1
    ring

theorem sigDigits_nearest (a : ℚ) (ha : 0 < a) :
    |((sigDigits 12 a).1 : ℚ) * pow10 ((sigDigits 12 a).2 - 11) - a|
      ≤ pow10 ((sigDigits 12 a).2 - 11) / 2 := by
  set e0 := ilog10 a
  have hsc : 0 < pow10 (e0 - ((12 - 1 : Nat) : Int)) := pow10_pos _
  have hsc11 : pow10 (e0 - ((12 - 1 : Nat) : Int)) = pow10 (e0 - 11) := by
    congr 1
  set t := a / pow10 (e0 - ((12 - 1 : Nat) : Int)) with ht
  have ht0 : 0 ≤ t := div_nonneg ha.le hsc.le
  have hfl0 : 0 ≤ ⌊t⌋ := Int.floor_nonneg.mpr ht0
  have hc : ((⌊t⌋.toNat : Nat) : ℚ) = ((⌊t⌋ : Int) : ℚ) := by
    have := Int.toNat_of_nonneg hfl0
    exact_mod_cast congrArg (fun z : Int => (z : ℚ)) this
  have h1 : ((⌊t⌋ : Int) : ℚ) ≤ t := Int.floor_le _
  have h2 : t < ((⌊t⌋ : Int) : ℚ) + 1 := Int.lt_floor_add_one _
  have hat : a = t * pow10 (e0 - 11) := by
    rw [ht, hsc11, div_mul_cancel₀ _ (ne_of_gt (pow10_pos _))]
  have hP : 0 < pow10 (e0 - 11) := pow10_pos _
  have hP1 : pow10 (e0 + 1 - 11) = 10 * pow10 (e0 - 11) := by
    have : e0 + 1 - 11 = ((1 : Nat) : Int) + (e0 - 11) := by push_cast; ring
    rw [this, pow10_add, pow10_natCast]; norm_num
  have key : ∀ n0 : Nat, |(n0 : ℚ) - t| ≤ 1 / 2 →
      |((if n0 = 10 ^ 12 then ((10 ^ (12 - 1) : Nat), e0 + 1) else (n0, e0)).1 : ℚ)
          * pow10 ((if n0 = 10 ^ 12 then ((10 ^ (12 - 1) : Nat), e0 + 1) else (n0, e0)).2 - 11)
          - a|
        ≤ pow10 ((if n0 = 10 ^ 12 then ((10 ^ (12 - 1) : Nat), e0 + 1) else (n0, e0)).2 - 11)
            / 2 := by
    intro n0 hn0
    rw [abs_le] at hn0
    by_cases h : n0 = 10 ^ 12
    · simp only [h, if_true]
      have hn : (n0 : ℚ) = 10 ^ 12 := by rw [h]; norm_num
      rw [hn] at hn0
      rw [hP1, hat, abs_le]
      push_cast
      constructor <;> nlinarith
    · simp only [h, if_false]
      rw [hat, abs_le]
      constructor <;> nlinarith
  unfold sigDigits
  simp only [← ht]
  apply key
  split
  · next h => rw [hc, abs_le]; constructor <;> linarith
  · next h => push_cast; rw [hc, abs_le]; constructor <;> linarith

theorem toString_toPrecision (q : ℚ) (hlo : pow10 (-300) ≤ |q|) (hhi : |q| < pow10 300) :
    (stringToNumber ((Num.fin q).toPrecision 12)).toString = roundedText q := by
  have ha : 0 < |q| := lt_of_lt_of_le (pow10_pos _) hlo
  have hq0 : q ≠ 0 := abs_pos.mp ha
  obtain ⟨h11, h12, he1, he2⟩ := sigDigits_bounds |q| ha
  obtain ⟨hb1, hb2⟩ := ilog10_bounds |q| ha
  have hl1 : -300 ≤ ilog10 |q| := by
    by_contra hc
    have : pow10 (ilog10 |q| + 1) ≤ pow10 (-300) := pow10_le_pow10 (by omega)
    linarith
  have hl2 : ilog10 |q| ≤ 299 := by
    by_contra hc
    have : pow10 300 ≤ pow10 (ilog10 |q|) := pow10_le_pow10 (by omega)
    linarith
  have hel : -300 ≤ (sigDigits 12 |q|).2 := by omega
  have heh : (sigDigits 12 |q|).2 ≤ 300 := by omega
  obtain ⟨y, hy, hyneg, hy0, hnear, hy1, hy2, _⟩ :=
    near_facts _ hel heh _ h11 h12
  have hstr := posToString_near _ hel heh _ h11 h12 y hy hy0 hnear hy1 hy2
  obtain ⟨hp, hn⟩ := stringToNumber_precisionText _ (sigDigits 12 |q|).2 h11 h12
  have hy0' : ¬ y = 0 := ne_of_gt hy0
  have hy1' : ¬ y < 0 := not_lt.mpr hy0.le
  rcases lt_or_gt_of_ne hq0 with hneg | hpos
  · have habs : |q| = -q := abs_of_neg hneg
    have hyn0 : ¬ -y = 0 := by
      intro h; linarith
    have hyn1 : -y < 0 := by linarith
    simp only [Num.toPrecision, hq0, if_false, hneg, if_true, roundedText]
    rw [← habs, posToPrecision_eq, hn, hyneg]
    simp only [Num.toString, hyn0, hyn1, if_false, if_true, neg_neg, hstr]
    rfl
  · have habs : |q| = q := abs_of_pos hpos
    have hneg : ¬ q < 0 := not_lt.mpr hpos.le
    simp only [Num.toPrecision, hq0, if_false, hneg, roundedText]
    rw [habs] at hp hstr hy
    rw [posToPrecision_eq, hp, hy, habs]
    simp only [Num.toString, hy0', hy1', if_false, hstr]
    rfl

theorem decimalText_ne_nil (ds : List Char) (hds : ds ≠ []) (n : Int) :
    decimalText ds n ≠ [] := by
  unfold decimalText
  simp only
  split
  · simp [hds]
  · split
    · simp
    · split
      · simp
      · split
        · simp [hds]
        · simp

theorem roundedText_ne_nil (q : ℚ) (hq : q ≠ 0) : roundedText q ≠ [] := by
  have ha : 0 < |q| := abs_pos.mpr hq
  obtain ⟨h11, _, _, _⟩ := sigDigits_bounds |q| ha
  have hn0 : 0 < (sigDigits 12 |q|).1 := lt_of_lt_of_le (by norm_num) h11
  obtain ⟨m, j, hmj, hm⟩ := exists_strip _ hn0
  have hds : stripZeros (natDigits (sigDigits 12 |q|).1) ≠ [] := by
    rw [hmj, stripZeros_natDigits m j hm]
    exact natDigits_ne_nil m
  unfold roundedText
  intro h
  exact decimalText_ne_nil _ hds _ (List.append_eq_nil.mp h).2

/-- C13 (amended): when the value `q` of the buffer is a number of the range
`10 ^ (-300) ≤ |q| < 10 ^ 300`, `calculate` sets the buffer and the display
to the decimal text of `q` rounded to 12 significant digits (the nearest
decimal of 12 digits, `n * 10 ^ (e - 11)`), with the zeros at the end of the
digits stripped. -/
theorem calculate_precision (ev : List Char → Completion) (s : State) (q : ℚ)
    (hne : s.expression ≠ []) (hsafe : isSafe (normalize s.expression) = true)
    (hev : ev (normalize s.expression) = Completion.number (Num.fin q))
    (hlo : pow10 (-300) ≤ |q|) (hhi : |q| < pow10 300) :
    10 ^ 11 ≤ (sigDigits 12 |q|).1 ∧ (sigDigits 12 |q|).1 < 10 ^ 12
    ∧ |((sigDigits 12 |q|).1 : ℚ) * pow10 ((sigDigits 12 |q|).2 - 11) - abs q|
        ≤ pow10 ((sigDigits 12 |q|).2 - 11) / 2
    ∧ calculate ev s
        = { expression := roundedText q, display := roundedText q, evals := s.evals + 1 } := by
  have ha : 0 < |q| := lt_of_lt_of_le (pow10_pos _) hlo
  obtain ⟨h11, h12, _, _⟩ := sigDigits_bounds |q| ha
  refine ⟨h11, h12, sigDigits_nearest |q| ha, ?_⟩
  have htxt := toString_toPrecision q hlo hhi
  unfold calculate
  have hnil := roundedText_ne_nil q (abs_pos.mp ha)
  simp only [hne, if_false, hsafe, hev, Num.isFinite, if_true, htxt, updateDisplay]
  simp [hnil]

theorem calculate_precision_witness :
    calculate hostEval (shown "10/3".toList)
      = { expression := "3.33333333333".toList, display := "3.33333333333".toList,
          evals := 1 } :=
  (calculate_precision hostEval (shown "10/3".toList)
    (7505999378950827 / 2251799813685248) (by decide) (by decide!) (by decide!) (by decide!)
    (by decide!)).2.2.2.trans (by decide!)

/-! ### A second `calculate` -/

theorem round_half_up (t : ℚ) (n : Nat) (hn : 1 ≤ n) (h : |t - (n : ℚ)| < 1 / 2) :
    (if t - ⌊t⌋ < 1 / 2 then ⌊t⌋.toNat else ⌊t⌋.toNat + 1) = n := by
  rw [abs_lt] at h
  by_cases hge : (n : ℚ) ≤ t
  · have hfl : ⌊t⌋ = (n : Int) := by
      rw [Int.floor_eq_iff]
      push_cast
      constructor <;> linarith
    rw [hfl]
    have : t - ((n : Int) : ℚ) < 1 / 2 := by push_cast; linarith
    simp only [this, if_true, Int.toNat_ofNat]
  · have hlt : t < (n : ℚ) := not_le.mp hge
    have hfl : ⌊t⌋ = (n : Int) - 1 := by
      rw [Int.floor_eq_iff]
      push_cast
      constructor <;> linarith
    rw [hfl]
    have : ¬ t - (((n : Int) - 1 : Int) : ℚ) < 1 / 2 := by push_cast; linarith
    simp only [this, if_false]
    omega

/-- Rounding to twelve digits is stable: a value within a thousandth of a
unit of the twelfth digit of a decimal of twelve digits rounds to it. -/
theorem sigDigits_stable (e : Int) (n : Nat) (h11 : 10 ^ 11 ≤ n) (h12 : n < 10 ^ 12)
    (y : ℚ) (hy0 : 0 < y)
    (hnear : |y - (n : ℚ) * pow10 (e - 11)| < pow10 (e - 11) / 1000) :
    sigDigits 12 y = (n, e) := by
  have hP : 0 < pow10 (e - 11) := pow10_pos _
  have hs11 := pow10_split11 e
  have hs12 := pow10_split12 e
  have hn1 : ((10 : ℚ) ^ 11) ≤ (n : ℚ) := by exact_mod_cast h11
  have hn2 : (n : ℚ) + 1 ≤ (10 : ℚ) ^ 12 := by exact_mod_cast h12
  have hnear' := abs_lt.mp hnear
  have hyhi : y < pow10 (e + 1) := by rw [hs12]; nlinarith
  by_cases hA : pow10 e ≤ y
  · have hlog := ilog10_unique y hy0 e hA hyhi
    have hne : ¬ n = 10 ^ 12 := by omega
    have hsc : pow10 (e - ((12 - 1 : Nat) : Int)) = pow10 (e - 11) := by congr 1
    have ht : |y / pow10 (e - 11) - (n : ℚ)| < 1 / 2 := by
      have : y / pow10 (e - 11) - (n : ℚ) = (y - (n : ℚ) * pow10 (e - 11)) / pow10 (e - 11) := by
        field_simp; ring
      rw [this, abs_div, abs_of_pos hP, div_lt_iff hP]
      linarith
    have hr := round_half_up _ n (by omega) ht
    unfold sigDigits
    simp only [hlog, hsc, hr, hne, if_false]
  · have hylt : y < pow10 e := not_le.mp hA
    have hn : n = 10 ^ 11 := by
      by_contra hc
      have : ((10 : ℚ) ^ 11) + 1 ≤ (n : ℚ) := by
        have : 10 ^ 11 + 1 ≤ n := by omega
        exact_mod_cast this
      rw [hs11] at hylt
      nlinarith
    have hnq : (n : ℚ) = 10 ^ 11 := by rw [hn]; norm_num
    have hP10 : pow10 (e - 11) = 10 * pow10 (e - 1 - 11) := by
      have : e - 11 = ((1 : Nat) : Int) + (e - 1 - 11) := by push_cast; ring
      rw [this, pow10_add, pow10_natCast]; norm_num
    have hP' : 0 < pow10 (e - 1 - 11) := pow10_pos _
    have hlog : ilog10 y = e - 1 := by
      apply ilog10_unique y hy0
      · have := pow10_split11 (e - 1)
        rw [this]
        rw [hnq, hP10] at hnear'
        nlinarith
      · have : e - 1 + 1 = e := by ring
        rw [this]; exact hylt
    have hsc : pow10 (e - 1 - ((12 - 1 : Nat) : Int)) = pow10 (e - 1 - 11) := by congr 1
    have ht : |y / pow10 (e - 1 - 11) - ((10 ^ 12 : Nat) : ℚ)| < 1 / 2 := by
      have : y / pow10 (e - 1 - 11) - ((10 ^ 12 : Nat) : ℚ)
          = (y - (10 : ℚ) ^ 12 * pow10 (e - 1 - 11)) / pow10 (e - 1 - 11) := by
        field_simp; ring
      rw [this, abs_div, abs_of_pos hP', div_lt_iff hP', abs_lt]
      rw [hnq, hP10] at hnear'
      constructor <;> nlinarith
    have hr := round_half_up _ (10 ^ 12) (by norm_num) ht
    unfold sigDigits
    simp only [hlog, hsc, hr, if_true]
    rw [hn]
    congr 1
    ring

theorem decimalText_plain (ds : List Char) (n : Int)
    (h : ∀ c ∈ decimalText ds n, c ≠ 'e') : -6 < n ∧ n ≤ 21 := by
  by_contra hc
  have c1 : ¬ ((ds.length : Int) ≤ n ∧ n ≤ 21) := by omega
  have c2 : ¬ (0 < n ∧ n ≤ 21) := by omega
  have c3 : ¬ (-6 < n ∧ n ≤ 0) := by omega
  unfold decimalText at h
  simp only [c1, c2, c3, if_false] at h
  split at h
  · exact h 'e' (by simp [expPart]) rfl
  · exact h 'e' (by simp [expPart]) rfl

theorem scanNumber_dot (ip fp : List Char) (x : Char) (r : List Char)
    (hip : ∀ c ∈ ip, isDigit c = true) (hfp : ∀ c ∈ fp, isDigit c = true) (hne : ip ≠ [])
    (hx : isDigit x = false)
    (hlead : ¬ (ip.head? = some '0' ∧ 1 < ip.length)) :
    scanNumber (ip ++ '.' :: (fp ++ x :: r)) = (Tok.num (decimalVal ip fp), x :: r) := by
  have h := takeWhile_run isDigit ip '.' (fp ++ x :: r) hip (by decide)
  have hz := takeWhile_run isDigit fp x r hfp hx
  unfold scanNumber
  simp only [h.1, h.2, hz.1, hz.2]
  simp [hne, hlead]

theorem lex_nil (f : Nat) : lex f [] = [] := by
  cases f <;> rfl

/-- The tokens of a number in plain decimal notation before a closing
parenthesis. -/
theorem lex_decimalText (m : Nat) (hm : 0 < m) (n : Int) (h1 : -6 < n) (h2 : n ≤ 21)
    (f : Nat) :
    lex (f + 2) (decimalText (natDigits m) n ++ [')'])
      = [Tok.num ((m : ℚ) * pow10 (n - ((natDigits m).length : Int))), Tok.rparen] := by
  have hds := natDigits_isDigit m
  have hval := digitsVal_natDigits m
  have hhead := natDigits_head m hm
  have hne := natDigits_ne_nil m
  have hdelim : Delim [')'] := ⟨')', [], rfl, by simp⟩
  set ds := natDigits m with hdsdef
  set k := ds.length with hk
  have hkpos : 0 < k := List.length_pos.mpr hne
  unfold decimalText
  simp only [← hk]
  split
  · next hc =>
    -- an integer: the digits and zeros
    obtain ⟨z, hz⟩ : ∃ z : Nat, n - (k : Int) = (z : Int) := ⟨(n - (k : Int)).toNat, by omega⟩
    have htn : (n - (k : Int)).toNat = z := by omega
    rw [htn, hz, hdsdef, ← natDigits_mul_pow m hm z, lex_natDigits _ _ hdelim, lex_rparen, lex_nil,
      pow10_natCast]
    push_cast
    rfl
  · split
    · next hc1 hc2 =>
      obtain ⟨j, hj⟩ : ∃ j : Nat, n = (j : Int) := ⟨n.toNat, by omega⟩
      have hjk : j < k := by omega
      have hj0 : 0 < j := by omega
      have htn : n.toNat = j := by omega
      rw [htn]
      obtain ⟨d, t, hdt⟩ : ∃ d t, ds = d :: t := by
        cases hds' : ds with
        | nil => exact absurd hds' hne
        | cons d t => exact ⟨d, t, rfl⟩
      have hd : isDigit d = true := hds d (by rw [hdt]; exact List.mem_cons_self _ _)
      have hd0 : d ≠ '0' := by
        intro h0
        apply hhead
        rw [hdt, h0]; rfl
      have htake : ds.take j = d :: t.take (j - 1) := by
        rw [hdt]
        obtain ⟨j', rfl⟩ : ∃ j', j = j' + 1 := ⟨j - 1, by omega⟩
        simp
      have hscan := scanNumber_dot (ds.take j) (ds.drop j) ')' []
        (fun c hc => hds c (List.mem_of_mem_take hc))
        (fun c hc => hds c (List.mem_of_mem_drop hc))
        (by rw [htake]; simp) (by decide)
        (by rw [htake]; simp [hd0])
      have htxt : ds.take j ++ '.' :: ds.drop j ++ [')']
          = d :: (t.take (j - 1) ++ '.' :: (ds.drop j ++ [')'])) := by
        rw [htake]; simp
      have htxt2 : ds.take j ++ '.' :: (ds.drop j ++ [')'])
          = d :: (t.take (j - 1) ++ '.' :: (ds.drop j ++ [')'])) := by
        rw [htake]; simp
      rw [htxt2] at hscan
      have hw : isWhiteSpace d = false := by
        have := isWhiteSpace_of_isDigit d hd
        exact this
      rw [htxt, lex_digit (f + 1) d _ hw hd, hscan]
      simp only
      rw [lex_rparen, lex_nil, decimalVal_split, hval, hj]
      have hp : pow10 ((j : Int) - (k : Int)) = 1 / ((10 ^ (k - j) : Nat) : ℚ) := by
        have : (j : Int) - (k : Int) = -((k - j : Nat) : Int) := by omega
        rw [this, pow10_neg_natCast]
      rw [hp]
      congr 2
      ring_nf
    · next hc1 hc2 =>
      obtain ⟨z, hz⟩ : ∃ z : Nat, -n = (z : Int) := ⟨(-n).toNat, by omega⟩
      have htn : (-n).toNat = z := by omega
      rw [htn]
      have hc3 : -6 < n ∧ n ≤ 0 := by omega
      simp only [hc3, and_self, if_true]
      have hzd : ∀ c ∈ zeros z ++ ds, isDigit c = true := by
        intro c hc
        rcases List.mem_append.mp hc with h | h
        · exact zeros_isDigit z c h
        · exact hds c h
      have hscan := scanNumber_dot ['0'] (zeros z ++ ds) ')' [] (by decide) hzd (by simp)
        (by decide) (by simp)
      have htxt : '0' :: '.' :: zeros z ++ ds ++ [')']
          = '0' :: ('.' :: (zeros z ++ ds ++ [')'])) := by simp
      have htxt2 : ['0'] ++ '.' :: (zeros z ++ ds ++ [')'])
          = '0' :: ('.' :: (zeros z ++ ds ++ [')'])) := by simp
      rw [htxt2] at hscan
      rw [htxt, lex_digit (f + 1) '0' _ (by decide) (by decide), hscan]
      simp only
      rw [lex_rparen, lex_nil]
      have hz0 : digitsVal ['0'] = 0 := by decide
      have hl : (zeros z ++ ds).length = z + k := by simp [zeros, hk]
      have hp : pow10 (n - (k : Int)) = 1 / ((10 ^ (z + k) : Nat) : ℚ) := by
        have : n - (k : Int) = -((z + k : Nat) : Int) := by push_cast; omega
        rw [this, pow10_neg_natCast]
      unfold decimalVal
      rw [hz0, digitsVal_append_list, digitsVal_zeros, hl, hval, hp]
      congr 2
      push_cast
      ring

theorem decimalText_head (d : Char) (t : List Char) (n : Int) :
    ∃ c r, decimalText (d :: t) n = c :: r ∧ (c = d ∨ c = '0') := by
  unfold decimalText
  simp only
  split
  · exact ⟨d, _, rfl, Or.inl rfl⟩
  · split
    · next h =>
      obtain ⟨j, hj⟩ : ∃ j : Nat, n.toNat = j + 1 := ⟨n.toNat - 1, by omega⟩
      rw [hj]
      exact ⟨d, _, rfl, Or.inl rfl⟩
    · split
      · exact ⟨'0', _, rfl, Or.inr rfl⟩
      · split
        · exact ⟨d, _, rfl, Or.inl rfl⟩
        · exact ⟨d, _, rfl, Or.inl rfl⟩

theorem calculate_rounded (ev : List Char → Completion) (s : State) (q : ℚ)
    (hne : s.expression ≠ []) (hsafe : isSafe (normalize s.expression) = true)
    (hev : ev (normalize s.expression) = Completion.number (Num.fin q))
    (hlo : pow10 (-300) ≤ |q|) (hhi : |q| < pow10 300) :
    calculate ev s
      = { expression := roundedText q, display := roundedText q, evals := s.evals + 1 } := by
  have ha : 0 < |q| := lt_of_lt_of_le (pow10_pos _) hlo
  have htxt := toString_toPrecision q hlo hhi
  have hnil := roundedText_ne_nil q (abs_pos.mp ha)
  unfold calculate
  simp only [hne, if_false, hsafe, hev, Num.isFinite, if_true, htxt, updateDisplay]
  simp [hnil]

theorem isSafe_allowed (t : List Char) (h : isSafe t = true) :
    t ≠ [] ∧ ∀ c ∈ t, isAllowed c = true := by
  unfold isSafe at h
  simp only [Bool.and_eq_true, Bool.not_eq_true', List.all_eq_true] at h
  refine ⟨?_, h.2⟩
  intro hnil
  rw [hnil] at h
  simp at h

theorem normalize_of_isSafe (t : List Char) (h : isSafe t = true) : normalize t = t := by
  apply normalize_of_no_glyph
  intro c hc
  have ha := (isSafe_allowed t h).2 c hc
  refine ⟨?_, ?_, ?_⟩ <;> (rintro rfl; exact absurd ha (by decide))

/-! ### Buffers that the operations build -/

theorem lazyFrom_append : ∀ (e : List Char) (m : List Char × List Char),
    lazyFrom e = some m → m.1 ++ m.2 = e := by
  intro e
  induction e with
  | nil => intro m h; simp [lazyFrom] at h
  | cons c t ih =>
    intro m h
    unfold lazyFrom at h
    split at h
    · cases h; rfl
    · split at h
      · cases h
      · cases ht : lazyFrom t with
        | none => rw [ht] at h; cases h
        | some m' =>
          rw [ht] at h
          cases h
          simp only [List.cons_append]
          rw [ih m' ht]

theorem matchPercent_mem : ∀ (e : List Char) (m : List Char × List Char),
    matchPercent e = some m → ∀ c ∈ m.1, c ∈ e := by
  intro e
  induction e with
  | nil => intro m h; simp [matchPercent] at h
  | cons c t ih =>
    intro m h x hx
    unfold matchPercent at h
    cases hl : lazyFrom (c :: t) with
    | some m' =>
      rw [hl] at h
      cases h
      rw [← lazyFrom_append _ _ hl]
      exact List.mem_append_left _ hx
    | none =>
      rw [hl] at h
      exact List.mem_cons_of_mem _ (ih m h x hx)

theorem decimalText_numChar (ds : List Char) (hds : ∀ c ∈ ds, isNumChar c = true) (n : Int) :
    ∀ c ∈ decimalText ds n, isNumChar c = true := by
  have hz : ∀ k, ∀ c ∈ zeros k, isNumChar c = true :=
    fun k c hc => isNumChar_of_isDigit c (zeros_isDigit k c hc)
  have ht : ∀ k, ∀ c ∈ ds.take k, isNumChar c = true :=
    fun k c hc => hds c (List.mem_of_mem_take hc)
  have hd : ∀ k, ∀ c ∈ ds.drop k, isNumChar c = true :=
    fun k c hc => hds c (List.mem_of_mem_drop hc)
  have he : ∀ e, ∀ c ∈ expPart e, isNumChar c = true := expPart_numChar
  intro c hc
  unfold decimalText at hc
  simp only at hc
  split at hc
  · rcases List.mem_append.mp hc with h | h
    · exact hds c h
    · exact hz _ c h
  · split at hc
    · simp only [List.mem_append, List.mem_cons] at hc
      rcases hc with h | rfl | h
      · exact ht _ c h
      · decide
      · exact hd _ c h
    · split at hc
      · simp only [List.mem_append, List.mem_cons] at hc
        rcases hc with (rfl | rfl | h) | h
        · decide
        · decide
        · exact hz _ c h
        · exact hds c h
      · split at hc
        · rcases List.mem_append.mp hc with h | h
          · exact hds c h
          · exact he _ c h
        · simp only [List.mem_append, List.mem_cons] at hc
          rcases hc with (h | rfl | h) | h
          · exact ht _ c h
          · decide
          · exact hd _ c h
          · exact he _ c h

theorem posToString_numChar (q : ℚ) : ∀ c ∈ posToString q, isNumChar c = true := by
  rw [posToString_eq]
  apply decimalText_numChar
  intro c hc
  split at hc
  · simp only [List.mem_singleton] at hc
    rw [hc]; decide
  · exact isNumChar_of_isDigit c (natDigits_isDigit _ c hc)

theorem isLineTerminator_of_isSpace (c : Char) (h : isSpace c = false) :
    isLineTerminator c = false := by
  unfold isSpace at h
  simp only [Bool.or_eq_false_iff] at h
  exact h.2

/-- The text of a number has no line terminator. -/
theorem toString_noLT (x : Num) : ∀ c ∈ x.toString, isLineTerminator c = false := by
  have hpos : ∀ q, ∀ c ∈ posToString q, isLineTerminator c = false :=
    fun q c hc => isLineTerminator_of_isSpace c (isSpace_of_isNumChar c (posToString_numChar q c hc))
  intro c hc
  cases x with
  | nan =>
    simp only [Num.toString, String.toList, List.mem_cons, List.mem_singleton,
      List.not_mem_nil, or_false] at hc
    rcases hc with rfl | rfl | rfl <;> decide
  | inf b =>
    cases b
    · have h : c ∈ "Infinity".toList := hc
      simp only [String.toList, List.mem_cons, List.not_mem_nil, or_false] at h
      rcases h with rfl | rfl | rfl | rfl | rfl | rfl | rfl | rfl <;> decide
    · have h : c ∈ "-Infinity".toList := hc
      simp only [String.toList, List.mem_cons, List.not_mem_nil, or_false] at h
      rcases h with rfl | rfl | rfl | rfl | rfl | rfl | rfl | rfl | rfl <;> decide
  | negZero =>
    simp only [Num.toString, List.mem_singleton] at hc
    rw [hc]; decide
  | fin q =>
    simp only [Num.toString] at hc
    split at hc
    · simp only [List.mem_singleton] at hc
      rw [hc]; decide
    · split at hc
      · rcases List.mem_cons.mp hc with rfl | h
        · decide
        · exact hpos _ c h
      · exact hpos _ c hc

theorem append_noLT (value : List Char) (s : State)
    (hs : ∀ c ∈ s.expression, isLineTerminator c = false)
    (hv : ∀ c ∈ value, isLineTerminator c = false) :
    ∀ c ∈ (append value s).expression, isLineTerminator c = false := by
  unfold append
  split
  · exact hs
  · split
    · exact hs
    · split
      · exact hv
      · intro c hc
        simp only [updateDisplay, List.mem_append] at hc
        rcases hc with h | h
        · exact hs c h
        · exact hv c h

theorem percent_noLT (s : State)
    (hs : ∀ c ∈ s.expression, isLineTerminator c = false) :
    ∀ c ∈ (percent s).expression, isLineTerminator c = false := by
  unfold percent
  cases hm : matchPercent s.expression with
  | none => exact hs
  | some m =>
    intro c hc
    simp only [updateDisplay, List.mem_append] at hc
    rcases hc with h | h
    · exact hs c (matchPercent_mem _ _ hm c h)
    · exact toString_noLT _ c h

theorem calculate_noLT (ev : List Char → Completion)
    (hev : ∀ t text, ev t = Completion.other text → ∀ c ∈ text, isLineTerminator c = false)
    (s : State) (hs : ∀ c ∈ s.expression, isLineTerminator c = false) :
    ∀ c ∈ (calculate ev s).expression, isLineTerminator c = false := by
  have hnil : ∀ c ∈ ([] : List Char), isLineTerminator c = false := by
    intro c hc; simp at hc
  unfold calculate
  split
  · exact hs
  · split
    · exact hnil
    · cases h : ev (normalize s.expression) with
      | throw => exact hnil
      | number x =>
        simp only
        split
        · exact hnil
        · split
          · exact toString_noLT _
          · exact toString_noLT _
      | other text => exact hev _ _ h

theorem run_noLT (ev : List Char → Completion)
    (hev : ∀ t text, ev t = Completion.other text → ∀ c ∈ text, isLineTerminator c = false)
    (ops : List Op) :
    ∀ s : State, (∀ c ∈ s.expression, isLineTerminator c = false) →
      (∀ v, Op.append v ∈ ops → ∀ c ∈ v, isLineTerminator c = false) →
      ∀ c ∈ (run ev s ops).expression, isLineTerminator c = false := by
  induction ops with
  | nil => intro s h _; exact h
  | cons o ops ih =>
    intro s h hops
    have hstep : ∀ c ∈ (step ev s o).expression, isLineTerminator c = false := by
      cases o with
      | append v => exact append_noLT v s h (hops v (List.mem_cons_self _ _))
      | del =>
        intro c hc
        exact h c (List.mem_of_mem_dropLast hc)
      | clearAll =>
        intro c hc
        simp [step, clearAll, updateDisplay] at hc
      | percent => exact percent_noLT s h
      | calculate => exact calculate_noLT ev hev s h
    exact ih (step ev s o) hstep (fun v hv => hops v (List.mem_cons_of_mem _ hv))

theorem hostEval_not_other (t text : List Char) : hostEval t ≠ Completion.other text := by
  unfold hostEval evalJS
  simp only
  split
  · split <;> simp
  all_goals simp

theorem typed_noLT (text : List Char) (h : ∀ c ∈ text, isLineTerminator c = false) :
    ∀ v, Op.append v ∈ typed text → ∀ c ∈ v, isLineTerminator c = false := by
  intro v hv c hc
  unfold typed at hv
  obtain ⟨x, hx, hxv⟩ := List.mem_map.mp hv
  cases hxv
  rw [List.mem_singleton] at hc
  rw [hc]
  exact h x hx

/-- C8: `percent` divides the trailing number by 100 and keeps the prefix.
In every state that the operations build from the initial state (tokens and
host texts being free of line terminators, as every key and button value
is), whenever the buffer is `pre ++ num` with `num` a numeric literal and the
longest one that ends the buffer, `percent` sets the buffer to `pre` followed
by the text of `parseFloat(num) / 100` and the display to the new buffer. -/
theorem percent_trailing_number (ev : List Char → Completion)
    (hev : ∀ t text, ev t = Completion.other text → ∀ c ∈ text, isLineTerminator c = false)
    (ops : List Op)
    (hops : ∀ v, Op.append v ∈ ops → ∀ c ∈ v, isLineTerminator c = false)
    (pre num : List Char)
    (hs : (run ev init ops).expression = pre ++ num) (hnum : NumLit num)
    (hmax : ∀ p n, pre ++ num = p ++ n → NumLit n → n.length ≤ num.length) :
    percent (run ev init ops) = updateDisplay
      { run ev init ops with
        expression := pre ++ ((parseFloat num).div (Num.fin 100)).toString } := by
  have hinv := run_noLT ev hev ops init
    (by intro c hc; simp [init, clearAll, updateDisplay] at hc) hops
  apply percent_of_longest_literal _ pre num hs hnum hmax
  intro c hc
  exact hinv c (by rw [hs]; exact List.mem_append_left _ hc)

theorem percent_trailing_number_witness :
    percent (run hostEval init (typed "200+50".toList)) = shown "200+0.5".toList
    ∧ percent (run hostEval init (typed ".5".toList)) = shown ".0.05".toList := by
  constructor
  · have h := percent_trailing_number hostEval
      (fun t text h => absurd h (hostEval_not_other t text))
      (typed "200+50".toList) (typed_noLT _ (by decide)) "200+".toList "50".toList (by decide)
      ⟨"50".toList, [], by decide, by decide, by decide, Or.inl rfl⟩
      (by
        intro p n hpn hn
        by_contra hlen
        have hlen' : 2 < n.length := by simpa using hlen
        have hplus : '+' ∈ n := by
          have hl := congrArg List.length hpn
          simp only [List.length_append] at hl
          have hp : p.length ≤ 3 := by
            have h4 : "200+".toList.length = 4 := by decide
            have h2 : "50".toList.length = 2 := by decide
            omega
          have hget : (p ++ n)[3]? = some '+' := by rw [← hpn]; decide
          rw [List.getElem?_append_right hp] at hget
          exact List.getElem?_mem hget
        rcases NumLit_chars n hn '+' hplus with h | h
        · exact absurd h (by decide)
        · exact absurd h (by decide))
    rw [h]
    decide!
  · have h := percent_trailing_number hostEval
      (fun t text h => absurd h (hostEval_not_other t text))
      (typed ".5".toList) (typed_noLT _ (by decide)) ".".toList "5".toList (by decide)
      ⟨"5".toList, [], by decide, by decide, by decide, Or.inl rfl⟩
      (by
        intro p n hpn hn
        by_contra hlen
        have hlen' : 1 < n.length := by simpa using hlen
        have hl := congrArg List.length hpn
        simp only [List.length_append] at hl
        have h1 : ".".toList.length = 1 := by decide
        have h2 : "5".toList.length = 1 := by decide
        have hp : p = [] := List.length_eq_zero.mp (by omega)
        rw [hp, List.nil_append] at hpn
        have hm := matchesNumber_of_NumLit n hn
        rw [← hpn] at hm
        exact absurd hm (by decide))
    rw [h]
    decide!

/-- C13 (counterexample): the eight keys `2**-1074` type a buffer whose
value is `2 ^ (-1074)`, the least positive number, finite and not an integer.
Rounded to 12 significant digits it reads "4.94065645841e-324"; `calculate`
sets the buffer and the display to "5e-324". -/
theorem calculate_precision_subnormal :
    hostEvalPow (normalize "2**-1074".toList) = Completion.number (Num.fin (pow2 (-1074)))
    ∧ roundedText (pow2 (-1074)) = "4.94065645841e-324".toList
    ∧ run hostEvalPow init (typed "2**-1074".toList ++ [Op.calculate])
        = { expression := "5e-324".toList, display := "5e-324".toList, evals := 1 } := by
  decide!

theorem faithful_hostEval : Faithful hostEval := by
  intro t c h
  simp [hostEval, h]

theorem faithful_hostEvalPow : Faithful hostEvalPow := by
  intro t c h
  simp [hostEvalPow, h]

theorem evalJS_decimalText (m : Nat) (hm : 0 < m) (n : Int) (h1 : -6 < n) (h2 : n ≤ 21) :
    evalJS (decimalText (natDigits m) n)
      = some (Completion.number
          (ofRat ((m : ℚ) * pow10 (n - ((natDigits m).length : Int))) false))
    ∧ evalJS ('-' :: decimalText (natDigits m) n)
      = some (Completion.number
          (ofRat ((m : ℚ) * pow10 (n - ((natDigits m).length : Int))) false).neg) := by
  have hlex := lex_decimalText m hm n h1 h2
  obtain ⟨d, t, hdt⟩ : ∃ d t, natDigits m = d :: t := by
    cases h : natDigits m with
    | nil => exact absurd h (natDigits_ne_nil m)
    | cons d t => exact ⟨d, t, rfl⟩
  have hd : isDigit d = true := natDigits_isDigit m d (by rw [hdt]; exact List.mem_cons_self _ _)
  obtain ⟨c, r, hcr, hc⟩ := decimalText_head d t n
  rw [← hdt] at hcr
  have hcm : c ≠ '-' := by
    rcases hc with rfl | rfl
    · rintro rfl; exact absurd hd (by decide)
    · decide
  constructor
  · have htok : tokenize ('(' :: decimalText (natDigits m) n ++ [')'])
        = [Tok.lparen, Tok.num ((m : ℚ) * pow10 (n - ((natDigits m).length : Int))),
            Tok.rparen] := by
      unfold tokenize
      simp only [List.cons_append, List.length_cons, List.length_append, List.length_nil,
        List.length_singleton]
      rw [lex_lparen, hlex]
    unfold evalJS
    simp only [htok]
    rfl
  · have htok : tokenize ('(' :: ('-' :: decimalText (natDigits m) n) ++ [')'])
        = [Tok.lparen, Tok.minus,
            Tok.num ((m : ℚ) * pow10 (n - ((natDigits m).length : Int))), Tok.rparen] := by
      unfold tokenize
      simp only [List.cons_append, List.length_cons, List.length_append, List.length_nil,
        List.length_singleton]
      rw [lex_lparen]
      rw [hcr] at hlex ⊢
      simp only [List.cons_append] at hlex ⊢
      rw [lex_minus_cons _ c _ hcm, hlex]
    unfold evalJS
    simp only [htok]
    rfl


/-- The host evaluates the text of a rounded value in plain notation to a
number that rounds to the same text. -/
theorem roundedText_fix (ev : List Char → Completion) (hf : Faithful ev) (q : ℚ)
    (hlo : pow10 (-300) ≤ |q|) (hhi : |q| < pow10 300)
    (hplain : isSafe (roundedText q) = true) :
    ∃ q2 : ℚ, ev (roundedText q) = Completion.number (Num.fin q2)
      ∧ pow10 (-300) ≤ |q2| ∧ |q2| < pow10 300 ∧ roundedText q2 = roundedText q := by
  have ha : 0 < |q| := lt_of_lt_of_le (pow10_pos _) hlo
  have hq0 : q ≠ 0 := abs_pos.mp ha
  obtain ⟨h11, h12, he1, he2⟩ := sigDigits_bounds |q| ha
  obtain ⟨hb1, hb2⟩ := ilog10_bounds |q| ha
  have hl1 : -300 ≤ ilog10 |q| := by
    by_contra hc
    have : pow10 (ilog10 |q| + 1) ≤ pow10 (-300) := pow10_le_pow10 (by omega)
    linarith
  have hl2 : ilog10 |q| ≤ 299 := by
    by_contra hc
    have : pow10 300 ≤ pow10 (ilog10 |q|) := pow10_le_pow10 (by omega)
    linarith
  have hsd : sigDigits 12 |q| = ((sigDigits 12 |q|).1, (sigDigits 12 |q|).2) := rfl
  set n := (sigDigits 12 |q|).1 with hn
  set e := (sigDigits 12 |q|).2 with he
  have hel : -300 ≤ e := by omega
  have heh : e ≤ 300 := by omega
  obtain ⟨y, hy, _, hy0, _, hy1, hy2, htight⟩ := near_facts e hel heh n h11 h12
  have hn0 : 0 < n := lt_of_lt_of_le (by norm_num) h11
  obtain ⟨m, j, hmj, hm⟩ := exists_strip n hn0
  have hmpos : 0 < m := by
    rcases Nat.eq_zero_or_pos m with h | h
    · rw [h] at hm; exact absurd rfl hm
    · exact h
  have hstrip : stripZeros (natDigits n) = natDigits m := by
    rw [hmj]; exact stripZeros_natDigits m j hm
  have hlen : (natDigits m).length + j = 12 := by
    have h := natDigits_length_twelve n h11 h12
    rw [hmj, natDigits_mul_pow m hmpos j] at h
    simpa [zeros] using h
  have hR : roundedText q
      = (if q < 0 then ['-'] else []) ++ decimalText (natDigits m) (e + 1) := by
    unfold roundedText
    rw [← hn, ← he, hstrip]
  have hall := (isSafe_allowed _ hplain).2
  have hplain' : ∀ c ∈ decimalText (natDigits m) (e + 1), c ≠ 'e' := by
    intro c hc
    have := hall c (by rw [hR]; exact List.mem_append_right _ hc)
    rintro rfl
    exact absurd this (by decide)
  obtain ⟨hr1, hr2⟩ := decimalText_plain _ _ hplain'
  obtain ⟨hpos0, hneg0⟩ := evalJS_decimalText m hmpos (e + 1) hr1 hr2
  have hpos := hf _ _ hpos0
  have hneg := hf _ _ hneg0
  have hval : (m : ℚ) * pow10 (e + 1 - ((natDigits m).length : Int))
      = (n : ℚ) * pow10 (e - 11) := by
    have hx : e + 1 - ((natDigits m).length : Int) = e - 11 + (j : Int) := by omega
    rw [hx, pow10_grid, hmj]
    push_cast
    ring
  rw [hval, hy] at hpos hneg
  have hyne : ¬ y = 0 := ne_of_gt hy0
  have hnegv : (Num.fin y).neg = Num.fin (-y) := by
    simp only [Num.neg, hyne, if_false]
  rw [hnegv] at hneg
  have he1' : pow10 e = 10 * pow10 (e - 1) := by
    have : e = ((1 : Nat) : Int) + (e - 1) := by push_cast; ring
    have h1 : pow10 ((1 : Nat) : Int) = 10 := by rw [pow10_natCast]; norm_num
    nth_rewrite 1 [this]
    rw [pow10_add, h1]
  have hylo : pow10 (-300) ≤ y := by
    have h1 : pow10 (-300) ≤ pow10 (e - 1) := pow10_le_pow10 (by omega)
    have h2 := pow10_pos (e - 1)
    linarith
  have hyhi : y < pow10 300 := by
    have h1 : pow10 (e + 1) ≤ pow10 300 := pow10_le_pow10 (by omega)
    linarith
  have hst := sigDigits_stable e n h11 h12 y hy0 htight
  rcases lt_or_gt_of_ne hq0 with hqn | hqp
  · refine ⟨-y, ?_, ?_, ?_, ?_⟩
    · rw [hR]; simp only [hqn, if_true]; exact hneg
    · rw [abs_neg, abs_of_pos hy0]; exact hylo
    · rw [abs_neg, abs_of_pos hy0]; exact hyhi
    · have hyn : -y < 0 := by linarith
      unfold roundedText
      rw [abs_neg, abs_of_pos hy0, hst, ← hsd]
      simp only [hyn, hqn, if_true]
  · refine ⟨y, ?_, ?_, ?_, ?_⟩
    · have hqn : ¬ q < 0 := not_lt.mpr hqp.le
      rw [hR]; simp only [hqn, if_false]; exact hpos
    · rw [abs_of_pos hy0]; exact hylo
    · rw [abs_of_pos hy0]; exact hyhi
    · have hyn : ¬ y < 0 := not_lt.mpr hy0.le
      have hqn : ¬ q < 0 := not_lt.mpr hqp.le
      unfold roundedText
      rw [abs_of_pos hy0, hst, ← hsd]
      simp only [hyn, hqn, if_false]

theorem calculate_zero_text (ev : List Char → Completion) (hf : Faithful ev) (k : Nat) :
    calculate ev { expression := ['0'], display := ['0'], evals := k }
      = { expression := ['0'], display := ['0'], evals := k + 1 } := by
  have h1 : ev (normalize ['0']) = Completion.number (Num.fin 0) := hf _ _ (by decide!)
  have h2 : isSafe (normalize ['0']) = true := by decide
  have h3 : (stringToNumber ((Num.fin 0).toPrecision 12)).toString = ['0'] := by decide!
  unfold calculate
  simp only [h1, h2, h3, Num.isFinite, updateDisplay]
  simp

/-- C18 (amended): for every evaluator that agrees with the model of the host
where the model answers, when the value of the buffer is a finite number that
is zero or of a magnitude from `10 ^ (-300)` up to `10 ^ 300`, and the result
of `calculate` passes the allow-list check (it is in plain decimal notation,
without an exponent part), a second `calculate` leaves the buffer and the
display unchanged. -/
theorem calculate_idempotent (ev : List Char → Completion) (hf : Faithful ev)
    (s : State) (x : Num)
    (hev : ev (normalize s.expression) = Completion.number x) (hx : x.moderate)
    (hplain : isSafe (calculate ev s).expression = true) :
    (calculate ev (calculate ev s)).expression = (calculate ev s).expression
    ∧ (calculate ev (calculate ev s)).display = (calculate ev s).display := by
  by_cases hne : s.expression = []
  · exfalso
    have : calculate ev s = s := by unfold calculate; simp [hne]
    rw [this, hne] at hplain
    exact absurd hplain (by decide)
  by_cases hsafe : isSafe (normalize s.expression) = true
  swap
  · exfalso
    have : (calculate ev s).expression = [] := by
      unfold calculate; simp [hne, hsafe, showError]
    rw [this] at hplain
    exact absurd hplain (by decide)
  have hzero : ∀ z : Num, (stringToNumber (z.toPrecision 12)).toString = ['0'] →
      z.isFinite = true → ev (normalize s.expression) = Completion.number z →
      (calculate ev (calculate ev s)).expression
          = (calculate ev s).expression
        ∧ (calculate ev (calculate ev s)).display
          = (calculate ev s).display := by
    intro z hz hfin hevz
    have hni : ¬ (z = Num.inf false ∨ z = Num.nan) := by
      rintro (rfl | rfl) <;> exact absurd hfin (by decide)
    have h1 : calculate ev s
        = { expression := ['0'], display := ['0'], evals := s.evals + 1 } := by
      unfold calculate
      simp only [hne, if_false, hsafe, hevz, hni, hfin, if_true, hz, updateDisplay]
      simp
    rw [h1, calculate_zero_text ev hf]
    exact ⟨rfl, rfl⟩
  cases x with
  | nan => exact absurd hx (by simp [Num.moderate])
  | inf b => exact absurd hx (by simp [Num.moderate])
  | negZero => exact hzero Num.negZero (by decide!) rfl hev
  | fin q =>
    rcases hx with h0 | ⟨hlo, hhi⟩
    · rw [h0] at hev
      exact hzero (Num.fin 0) (by decide!) rfl hev
    · have h1 := calculate_rounded ev s q hne hsafe hev hlo hhi
      rw [h1] at hplain ⊢
      simp only at hplain
      obtain ⟨q2, hev2, hlo2, hhi2, hfix⟩ := roundedText_fix ev hf q hlo hhi hplain
      have hnorm := normalize_of_isSafe _ hplain
      have hnil := roundedText_ne_nil q (abs_pos.mp (lt_of_lt_of_le (pow10_pos _) hlo))
      have h2 := calculate_rounded ev
        { expression := roundedText q, display := roundedText q, evals := s.evals + 1 } q2
        hnil (by rw [hnorm]; exact hplain) (by rw [hnorm]; exact hev2) hlo2 hhi2
      rw [h2, hfix]
      exact ⟨rfl, rfl⟩

theorem calculate_idempotent_witness :
    ((calculate hostEval (calculate hostEval (run hostEval init (typed "10/3".toList)))).expression
        = (calculate hostEval (run hostEval init (typed "10/3".toList))).expression
      ∧ (calculate hostEval (calculate hostEval (run hostEval init (typed "10/3".toList)))).display
        = (calculate hostEval (run hostEval init (typed "10/3".toList))).display)
    ∧ ((calculate hostEvalPow
          (calculate hostEvalPow (run hostEvalPow init (typed "2**3".toList)))).expression
        = (calculate hostEvalPow (run hostEvalPow init (typed "2**3".toList))).expression
      ∧ (calculate hostEvalPow
          (calculate hostEvalPow (run hostEvalPow init (typed "2**3".toList)))).display
        = (calculate hostEvalPow (run hostEvalPow init (typed "2**3".toList))).display) :=
  ⟨calculate_idempotent hostEval faithful_hostEval (run hostEval init (typed "10/3".toList))
      (Num.fin (7505999378950827 / 2251799813685248)) (by decide!)
      (Or.inr ⟨by decide!, by decide!⟩) (by decide!),
   calculate_idempotent hostEvalPow faithful_hostEvalPow
      (run hostEvalPow init (typed "2**3".toList))
      (Num.fin 8) (by decide!) (Or.inr ⟨by decide!, by decide!⟩) (by decide!)⟩

/-- C18 (counterexample): the keys `99999999999*99999999999` and a first
`calculate` give the buffer "9.9999999998e+21" without an error; the letter
`e` fails the allow-list check of the second `calculate`, which shows
"Error" and empties the buffer. -/
theorem calculate_twice_exponent :
    run hostEval init (typed "99999999999*99999999999".toList ++ [Op.calculate])
        = { expression := "9.9999999998e+21".toList, display := "9.9999999998e+21".toList,
            evals := 1 }
    ∧ run hostEval init
        (typed "99999999999*99999999999".toList ++ [Op.calculate, Op.calculate])
        = { expression := [], display := "Error".toList, evals := 1 } := by
  decide!

end Calc
